import Mathlib

/-!
# SST core: the Time Lord (sst/core/timeLord.cc) and the Poisson distribution
(sst/core/rng/poisson.h)

A shallow embedding of `TimeLord` and of the three overloads of
`TimeLord::getTimeConverter`, of `TimeLord::init`, of `TimeLord::getSimCycles` and of the
destructor, and of `SST::RNG::PoissonDistribution` with its constructors, its destructor,
`getNextDouble`, `getLambda` and `serialize_order`.

* `std::map` is an association list with `find` and `set` (`m[k] = v`).
* A `TimeConverter*` is an address (`Ptr`); the objects live in `TimeLord.heap`,
  where `new TimeConverter(f)` appends `f` and returns the address of the new cell.
* `Output::fatal` ends the process: an operation returns `Except Fatal _` and the
  first fatal condition met is the result.
* `UnitAlgebra`, `SimTime_t`, `MAX_SIMTIME_T` and `TimeConverter` are declared outside
  timeLord.cc; they are modelled below and the quantity parser
  (`UnitAlgebra(std::string)`) is a parameter of every operation that calls it.
* The loop of `getNextDouble` is run for a bounded number of iterations (`fuel`); the
  arithmetic of `double` and the draw sequence of the random source are parameters, and
  the `int` counter wraps around at 32 bits.
-/

namespace SST

/-! ## Collaborators declared outside timeLord.cc -/

/-- Modelled from the spec: the unit of a physical quantity (UnitAlgebra's `Units`, outside src/),
as the exponents of its base units. `s` is the exponent of the second; `m` is the exponent of
a base unit that is not a time (the spec's example is the metre). -/
structure Units where
  s : Int
  m : Int
deriving DecidableEq, Repr

namespace Units

/-- The unit named "s". -/
def sec : Units := ⟨1, 0⟩

/-- The unit named "Hz", one per second. -/
def Hz : Units := ⟨-1, 0⟩

/-- The unit named "m" in the spec's bad-unit example. -/
def metre : Units := ⟨0, 1⟩

/-- Unit of a quotient. -/
def div (a b : Units) : Units := ⟨a.s - b.s, a.m - b.m⟩

/-- Unit of a reciprocal. -/
def invert (a : Units) : Units := ⟨-a.s, -a.m⟩

end Units

/-- Modelled from the spec: `UnitAlgebra` (outside src/), "a physical quantity": an exact
magnitude together with its unit. Magnitudes are rationals; a quotient by a zero magnitude
follows the convention of the rationals (it is 0). -/
structure UnitAlgebra where
  value : ℚ
  unit : Units
deriving DecidableEq

namespace UnitAlgebra

/-- Modelled from the spec: `UnitAlgebra::hasUnits(u)`, the quantity carries exactly the unit `u`. -/
def hasUnits (a : UnitAlgebra) (u : Units) : Bool := decide (a.unit = u)

/-- Modelled from the spec: `operator/` of two quantities. -/
def div (a b : UnitAlgebra) : UnitAlgebra := ⟨a.value / b.value, a.unit.div b.unit⟩

/-- Modelled from the spec: `UnitAlgebra::invert()`, the reciprocal quantity. -/
def invert (a : UnitAlgebra) : UnitAlgebra := ⟨1 / a.value, a.unit.invert⟩

/-- Modelled from the spec: `UnitAlgebra::getValue()`, the magnitude. -/
def getValue (a : UnitAlgebra) : ℚ := a.value

/-- Modelled from the spec: `UnitAlgebra::getRoundedValue()`, the magnitude rounded "to the
nearest integer". The spec does not fix ties; a magnitude halfway between two integers goes
to the even one. -/
def getRoundedValue (a : UnitAlgebra) : Int :=
  let f : Int := ⌊a.value⌋
  let d : ℚ := a.value - f
  if d < 1 / 2 then f
  else if 1 / 2 < d then f + 1
  else if f % 2 = 0 then f else f + 1

end UnitAlgebra

/-- Modelled from the spec: `MAX_SIMTIME_T` (a macro outside src/), "the maximum representable
tick count" of `SimTime_t`, an unsigned 64-bit integer. -/
def MAX_SIMTIME_T : Nat := 2 ^ 64 - 1

/-- Modelled from the spec: `SimTime_t` (a type declared outside src/), the integer tick count
whose largest value is `MAX_SIMTIME_T`. It is unsigned and 64 bits wide, so the assignment
`simCycles = uaFactor.getRoundedValue()` of a signed integer reduces it modulo `2 ^ 64`. -/
def toSimTime_t (z : Int) : Nat := (z % (2 ^ 64 : Int)).toNat

/-- The fatal conditions. The first three are the three `abort.fatal` calls of timeLord.cc;
`InvalidUnitString` is the rejection of a string by the quantity parser `UnitAlgebra(ts)`;
`InvalidPointer` is the dereference `tc->getFactor()` of an address that holds no object. -/
inductive Fatal where
  | UninitializedAuthority
  | UnsupportedUnit
  | ResolutionOverflow
  | InvalidUnitString
  | InvalidPointer
deriving DecidableEq, Repr

deriving instance DecidableEq for Except

/-! ## std::map -/

namespace Map

/-- The value `m.find(k)` points to, `none` when `m.find(k) == m.end()`. -/
def find {κ ν : Type} [DecidableEq κ] : List (κ × ν) → κ → Option ν
  | [], _ => none
  | (k', v) :: r, k => if k' = k then some v else find r k

/-- The map after `m[k] = v`: the entry under `k` is replaced, or added when there is none. -/
def set {κ ν : Type} [DecidableEq κ] : List (κ × ν) → κ → ν → List (κ × ν)
  | [], k, v => [(k, v)]
  | (k', v') :: r, k, v => if k' = k then (k, v) :: r else (k', v') :: set r k v

end Map

/-! ## TimeLord -/

/-- A `TimeConverter*`: the address of a converter in `TimeLord.heap`. -/
abbrev Ptr := Nat

/-- The members of `TimeLord`, and the `TimeConverter` objects it has allocated: `heap[p]` is the
`factor` of the converter at address `p`. -/
structure TimeLord where
  initialized : Bool
  timeBaseString : String
  timeBase : UnitAlgebra
  parseCache : List (String × Ptr)
  tcMap : List (Nat × Ptr)
  nano : Option Ptr
  micro : Option Ptr
  milli : Option Ptr
  heap : List Nat
deriving DecidableEq

namespace TimeLord

/-- The Time Lord as constructed: not initialized, both caches empty, no converter allocated. -/
def new : TimeLord :=
  { initialized := false, timeBaseString := "", timeBase := ⟨0, ⟨0, 0⟩⟩,
    parseCache := [], tcMap := [], nano := none, micro := none, milli := none, heap := [] }

/-- `tc->getFactor()`. -/
def getFactor (self : TimeLord) (tc : Ptr) : Except Fatal Nat :=
  match self.heap[tc]? with
  | some f => .ok f
  | none => .error .InvalidPointer

/-- `TimeLord::getTimeConverter(SimTime_t simCycles)`, timeLord.cc lines 38-47. -/
def getTimeConverter_SimTime_t (self : TimeLord) (simCycles : Nat) : Ptr × TimeLord :=
  match Map.find self.tcMap simCycles with
  | none =>
    let tc : Ptr := self.heap.length
    (tc, { self with heap := self.heap ++ [simCycles], tcMap := Map.set self.tcMap simCycles tc })
  | some tc => (tc, self)

/-- The quantity `uaFactor` of lines 58-71: `period / timeBase` for a time, `timeBase.invert() /
period` for a frequency, and `none` in the `else` branch (the fatal bad-unit call). -/
def uaFactor (self : TimeLord) (period : UnitAlgebra) : Option UnitAlgebra :=
  if period.hasUnits Units.sec then some (period.div self.timeBase)
  else if period.hasUnits Units.Hz then some (self.timeBase.invert.div period)
  else none

/-- `TimeLord::getTimeConverter(const UnitAlgebra& ts)`, timeLord.cc lines 49-82. -/
def getTimeConverter_UnitAlgebra (self : TimeLord) (ts : UnitAlgebra) :
    Except Fatal (Ptr × TimeLord) :=
  if self.initialized = false then .error .UninitializedAuthority
  else
    match self.uaFactor ts with
    | none => .error .UnsupportedUnit
    | some uaFactor =>
      if uaFactor.getValue > (MAX_SIMTIME_T : ℚ) then .error .ResolutionOverflow
      else
        let simCycles : Nat := toSimTime_t uaFactor.getRoundedValue
        .ok (self.getTimeConverter_SimTime_t simCycles)

/-- The constructor call `UnitAlgebra(ts)`: the parser is a parameter, and a string it rejects
is fatal. -/
def parseUnitAlgebra (parse : String → Option UnitAlgebra) (ts : String) :
    Except Fatal UnitAlgebra :=
  match parse ts with
  | some q => .ok q
  | none => .error .InvalidUnitString

/-- `TimeLord::getTimeConverter(std::string ts)`, timeLord.cc lines 27-36. -/
def getTimeConverter_string (parse : String → Option UnitAlgebra) (self : TimeLord)
    (ts : String) : Except Fatal (Ptr × TimeLord) :=
  match Map.find self.parseCache ts with
  | none =>
    match parseUnitAlgebra parse ts with
    | .error e => .error e
    | .ok q =>
      match self.getTimeConverter_UnitAlgebra q with
      | .error e => .error e
      | .ok (tc, s1) => .ok (tc, { s1 with parseCache := Map.set s1.parseCache ts tc })
  | some tc => .ok (tc, self)

/-- `TimeLord::getSimCycles(std::string ts, std::string where)`, timeLord.cc lines 107-117. -/
def getSimCycles (parse : String → Option UnitAlgebra) (self : TimeLord)
    (ts : String) : Except Fatal (Nat × TimeLord) :=
  match Map.find self.parseCache ts with
  | none =>
    match parseUnitAlgebra parse ts with
    | .error e => .error e
    | .ok q =>
      match self.getTimeConverter_UnitAlgebra q with
      | .error e => .error e
      | .ok (tc, s1) =>
        let s2 : TimeLord := { s1 with parseCache := Map.set s1.parseCache ts tc }
        match s2.getFactor tc with
        | .error e => .error e
        | .ok f => .ok (f, s2)
  | some tc =>
    match self.getFactor tc with
    | .error e => .error e
    | .ok f => .ok (f, self)

/-- `TimeLord::init(std::string _timeBaseString)`, timeLord.cc lines 84-93. -/
def init (parse : String → Option UnitAlgebra) (self : TimeLord)
    (_timeBaseString : String) : Except Fatal TimeLord :=
  match parseUnitAlgebra parse _timeBaseString with
  | .error e => .error e
  | .ok tb =>
    let s0 : TimeLord :=
      { self with initialized := true, timeBaseString := _timeBaseString, timeBase := tb }
    match getTimeConverter_string parse s0 "1ns" with
    | .error e => .error e
    | .ok (nano, s1) =>
      match getTimeConverter_string parse s1 "1us" with
      | .error e => .error e
      | .ok (micro, s2) =>
        match getTimeConverter_string parse s2 "1ms" with
        | .error e => .error e
        | .ok (milli, s3) =>
          .ok { s3 with nano := some nano, micro := some micro, milli := some milli }

end TimeLord

/-! ## Sequences of operations -/

/-- One call on the Time Lord's external surface. -/
inductive Op where
  | init (timeBaseString : String)
  | resolveString (ts : String)
  | resolveQuantity (ts : UnitAlgebra)
  | resolveFactor (simCycles : Nat)
  | getSimCycles (ts : String)

/-- The state after one call that returns; a fatal call ends the process. -/
def step (parse : String → Option UnitAlgebra) (s : TimeLord) : Op → Except Fatal TimeLord
  | .init tb => s.init parse tb
  | .resolveString ts => (s.getTimeConverter_string parse ts).map Prod.snd
  | .resolveQuantity q => (s.getTimeConverter_UnitAlgebra q).map Prod.snd
  | .resolveFactor f => .ok (s.getTimeConverter_SimTime_t f).2
  | .getSimCycles ts => (s.getSimCycles parse ts).map Prod.snd

/-- The state after a sequence of calls, all of which return. -/
def run (parse : String → Option UnitAlgebra) : TimeLord → List Op → Except Fatal TimeLord
  | s, [] => .ok s
  | s, op :: ops =>
    match step parse s op with
    | .error e => .error e
    | .ok s1 => run parse s1 ops

/-- The call is `init`. -/
def Op.isInit : Op → Bool
  | .init _ => true
  | _ => false

/-- A state the Time Lord can be in: the state after some sequence of calls on the Time Lord
as constructed. -/
def Reachable (parse : String → Option UnitAlgebra) (s : TimeLord) : Prop :=
  ∃ ops : List Op, run parse TimeLord.new ops = .ok s

/-- Cache coherence: the converter stored in `tcMap` under `f` holds the factor `f`, every
converter stored in `parseCache` is stored in `tcMap`, and every converter allocated is stored
in `tcMap` under its factor. -/
structure Coherent (s : TimeLord) : Prop where
  tcMap_factor : ∀ (f : Nat) (p : Ptr), Map.find s.tcMap f = some p → s.heap[p]? = some f
  heap_tcMap : ∀ (p : Ptr) (f : Nat), s.heap[p]? = some f → Map.find s.tcMap f = some p
  parseCache_tcMap : ∀ (u : String) (p : Ptr), Map.find s.parseCache u = some p → ∃ f : Nat, Map.find s.tcMap f = some p

/-- The state `t` extends `s`: every converter and every cache entry of `s` is in `t`, unchanged. -/
structure Extends (s t : TimeLord) : Prop where
  heap : ∀ (p : Ptr) (f : Nat), s.heap[p]? = some f → t.heap[p]? = some f
  tcMap : ∀ (f : Nat) (p : Ptr), Map.find s.tcMap f = some p → Map.find t.tcMap f = some p
  parseCache : ∀ (u : String) (p : Ptr), Map.find s.parseCache u = some p → Map.find t.parseCache u = some p

/-- A resolution request: the argument of one of the three overloads of `getTimeConverter`. -/
inductive Request where
  | byString (ts : String)
  | byQuantity (ts : UnitAlgebra)
  | byFactor (simCycles : Nat)

/-- The overload of `getTimeConverter` that a request selects. -/
def resolve (parse : String → Option UnitAlgebra) (s : TimeLord) :
    Request → Except Fatal (Ptr × TimeLord)
  | .byString ts => s.getTimeConverter_string parse ts
  | .byQuantity q => s.getTimeConverter_UnitAlgebra q
  | .byFactor f => .ok (s.getTimeConverter_SimTime_t f)

/-- The tick count of a quantity against the time base of `s`: the value assigned to
`simCycles` on line 79, `none` for a quantity that is neither a time nor a frequency. -/
def simCyclesOf (s : TimeLord) (q : UnitAlgebra) : Option Nat :=
  (s.uaFactor q).map (fun a => toSimTime_t a.getRoundedValue)

/-- The tick count a request asks for against the time base of `s`. -/
def requestedCycles (parse : String → Option UnitAlgebra) (s : TimeLord) : Request → Option Nat
  | .byString ts => (parse ts).bind (simCyclesOf s)
  | .byQuantity q => simCyclesOf s q
  | .byFactor f => some f

/-- No entry of `parseCache` is stale: every string in it is filed with the converter that
`tcMap` holds for the tick count of that string against the current time base. -/
def Fresh (parse : String → Option UnitAlgebra) (s : TimeLord) : Prop :=
  ∀ (u : String) (p : Ptr), Map.find s.parseCache u = some p →
    ∃ f : Nat, requestedCycles parse s (.byString u) = some f ∧ Map.find s.tcMap f = some p

/-- The quantity is a time or a frequency whose ratio to the time base of `s` (the quantity
`uaFactor` of lines 58-71) rounds to at least 1. -/
def roundsToWholeTicks (s : TimeLord) (q : UnitAlgebra) : Bool :=
  match s.uaFactor q with
  | some a => decide (1 ≤ a.getRoundedValue)
  | none => false

/-- The request asks for at least one tick: an integer factor of at least 1, or a quantity
(given as such or as a string the parser accepts) whose ratio to the time base of `s` rounds
to at least 1. -/
def Request.asksWholeTicks (parse : String → Option UnitAlgebra) (s : TimeLord) :
    Request → Bool
  | .byString ts =>
    match parse ts with
    | some q => roundsToWholeTicks s q
    | none => false
  | .byQuantity q => roundsToWholeTicks s q
  | .byFactor f => decide (1 ≤ f)

/-- The call asks for at least one tick in the state `s`: the request of a `resolve` or of
`getSimCycles` does, and for `init` each of the three shortcut strings of lines 90-92 does
against the new time base. -/
def Op.asksWholeTicks (parse : String → Option UnitAlgebra) (s : TimeLord) : Op → Bool
  | .init tb =>
    match parse tb with
    | some b =>
      Request.asksWholeTicks parse { s with timeBase := b } (.byString "1ns")
        && Request.asksWholeTicks parse { s with timeBase := b } (.byString "1us")
        && Request.asksWholeTicks parse { s with timeBase := b } (.byString "1ms")
    | none => false
  | .resolveString ts => Request.asksWholeTicks parse s (.byString ts)
  | .resolveQuantity q => Request.asksWholeTicks parse s (.byQuantity q)
  | .resolveFactor f => Request.asksWholeTicks parse s (.byFactor f)
  | .getSimCycles ts => Request.asksWholeTicks parse s (.byString ts)

/-- The call is `resolve(0)` by integer factor. -/
def Op.isResolveZero : Op → Bool
  | .resolveFactor f => decide (f = 0)
  | _ => false

/-- Every call of the sequence either is `resolve(0)` by integer factor or asks for at least
one tick in the state in which it is made. -/
def allWholeTicksOrZero (parse : String → Option UnitAlgebra) : TimeLord → List Op → Bool
  | _, [] => true
  | s, op :: ops =>
    (op.isResolveZero || Op.asksWholeTicks parse s op)
      && match step parse s op with
        | .ok s1 => allWholeTicksOrZero parse s1 ops
        | .error _ => true

/-- Every converter allocated in `s` has a factor of at least 1, unless its factor is 0 and
`z` holds; and every converter filed in `parseCache` has a factor of at least 1. -/
def FactorsPositiveUnless (z : Prop) (s : TimeLord) : Prop :=
  (∀ (p : Ptr) (f : Nat), s.heap[p]? = some f → 1 ≤ f ∨ (f = 0 ∧ z))
    ∧ (∀ (u : String) (p : Ptr), Map.find s.parseCache u = some p →
        ∃ f : Nat, s.heap[p]? = some f ∧ 1 ≤ f)

/-! ## A sample of the unit-string grammar -/

/-- Modelled from the spec: the SI prefixes of the unit-string grammar (§6), as powers of ten. -/
def siPrefix : Char → Option ℚ
  | 'y' => some (1 / 10 ^ 24)
  | 'z' => some (1 / 10 ^ 21)
  | 'a' => some (1 / 10 ^ 18)
  | 'f' => some (1 / 10 ^ 15)
  | 'p' => some (1 / 10 ^ 12)
  | 'n' => some (1 / 10 ^ 9)
  | 'u' => some (1 / 10 ^ 6)
  | 'm' => some (1 / 10 ^ 3)
  | 'k' => some (10 ^ 3)
  | 'M' => some (10 ^ 6)
  | 'G' => some (10 ^ 9)
  | 'T' => some (10 ^ 12)
  | _ => none

/-- Modelled from the spec: the unit names of the grammar, "s" and "Hz", and the "m" of the
bad-unit example. -/
def baseUnit : List Char → Option Units
  | ['s'] => some Units.sec
  | ['H', 'z'] => some Units.Hz
  | ['m'] => some Units.metre
  | _ => none

/-- Modelled from the spec: a unit with an optional SI prefix, as a scale and a base unit. -/
def parseUnit (cs : List Char) : Option (ℚ × Units) :=
  match baseUnit cs with
  | some u => some (1, u)
  | none =>
    match cs with
    | c :: r =>
      match siPrefix c, baseUnit r with
      | some k, some u => some (k, u)
      | _, _ => none
    | [] => none

/-- Modelled from the spec: the value of a string of decimal digits. -/
def digitsValue (ds : List Char) : Nat :=
  ds.foldl (fun n c => 10 * n + (c.toNat - 48)) 0

/-- Modelled from the spec: the unit-string grammar of §6, "a numeric magnitude followed by a
unit", for magnitudes written as a non-empty string of decimal digits. -/
def parseSI (str : String) : Option UnitAlgebra :=
  let cs := str.toList
  let ds := cs.takeWhile Char.isDigit
  if ds = [] then none
  else
    match parseUnit (cs.dropWhile Char.isDigit) with
    | some (k, u) => some ⟨(digitsValue ds : ℚ) * k, u⟩
    | none => none

/-! ## Sample states -/

/-- The Time Lord after `init("1ps")`. -/
def samplePs : TimeLord :=
  { initialized := true
    timeBaseString := "1ps"
    timeBase := ⟨1 / 10 ^ 12, Units.sec⟩
    parseCache := [("1ns", 0), ("1us", 1), ("1ms", 2)]
    tcMap := [(1000, 0), (1000000, 1), (1000000000, 2)]
    nano := some 0
    micro := some 1
    milli := some 2
    heap := [1000, 1000000, 1000000000] }

/-- The state `samplePs` after resolving the string "1GHz". -/
def samplePsGHz : TimeLord :=
  { samplePs with parseCache := [("1ns", 0), ("1us", 1), ("1ms", 2), ("1GHz", 0)] }

/-- The state `samplePsGHz` after resolving the factor 7 and the string "1ns". -/
def samplePsGHz7 : TimeLord :=
  { samplePsGHz with
    tcMap := [(1000, 0), (1000000, 1), (1000000000, 2), (7, 3)]
    heap := [1000, 1000000, 1000000000, 7] }

/-- The state `samplePs` after resolving the factor 0, the string "1GHz" and the factor 7. -/
def samplePsZero7 : TimeLord :=
  { samplePs with
    parseCache := [("1ns", 0), ("1us", 1), ("1ms", 2), ("1GHz", 0)]
    tcMap := [(1000, 0), (1000000, 1), (1000000000, 2), (0, 3), (7, 4)]
    heap := [1000, 1000000, 1000000000, 0, 7] }

/-- The Time Lord after `init("1ns")`. -/
def sampleNs : TimeLord :=
  { initialized := true
    timeBaseString := "1ns"
    timeBase := ⟨1 / 10 ^ 9, Units.sec⟩
    parseCache := [("1ns", 0), ("1us", 1), ("1ms", 2)]
    tcMap := [(1, 0), (1000, 1), (1000000, 2)]
    nano := some 0
    micro := some 1
    milli := some 2
    heap := [1, 1000, 1000000] }

/-- The state `sampleNs` after resolving the string "1000ns". -/
def sampleNs1000 : TimeLord :=
  { sampleNs with parseCache := [("1ns", 0), ("1us", 1), ("1ms", 2), ("1000ns", 1)] }

/-- The state `sampleNs` after resolving the string "2us". -/
def sampleNs2us : TimeLord :=
  { sampleNs with
    parseCache := [("1ns", 0), ("1us", 1), ("1ms", 2), ("2us", 3)]
    tcMap := [(1, 0), (1000, 1), (1000000, 2), (2000, 3)]
    heap := [1, 1000, 1000000, 2000] }

/-- The state `sampleNs2us` after resolving the string "2000ns". -/
def sampleNs2000ns : TimeLord :=
  { sampleNs2us with
    parseCache := [("1ns", 0), ("1us", 1), ("1ms", 2), ("2us", 3), ("2000ns", 3)] }

/-- The quantity of minus one nanosecond. -/
def minusOneNs : UnitAlgebra := ⟨-1 / 10 ^ 9, Units.sec⟩

/-- The state `samplePs` after resolving the quantity `minusOneNs`. -/
def samplePsMinus : TimeLord :=
  { samplePs with
    tcMap := [(1000, 0), (1000000, 1), (1000000000, 2), (18446744073709550616, 3)]
    heap := [1000, 1000000, 1000000000, 18446744073709550616] }

/-- A time of `MAX_SIMTIME_T` nanoseconds. -/
def maxTicksNs : UnitAlgebra := ⟨((2 : ℚ) ^ 64 - 1) / 10 ^ 9, Units.sec⟩

/-- The state `sampleNs` after resolving the quantity `maxTicksNs`. -/
def sampleNsMax : TimeLord :=
  { sampleNs with
    tcMap := [(1, 0), (1000, 1), (1000000, 2), (18446744073709551615, 3)]
    heap := [1, 1000, 1000000, 18446744073709551615] }

/-- The state `sampleNs` after a second call of `init`, with "1ps". -/
def sampleNsPs : TimeLord :=
  { sampleNs with timeBaseString := "1ps", timeBase := ⟨1 / 10 ^ 12, Units.sec⟩ }

/-- The state `sampleNsPs` after resolving the string "1000ps". -/
def sampleNsPs1000 : TimeLord :=
  { sampleNsPs with parseCache := [("1ns", 0), ("1us", 1), ("1ms", 2), ("1000ps", 1)] }

/-- A time of `MAX_SIMTIME_T + 1/4` nanoseconds. -/
def quarterOver : UnitAlgebra := ⟨((2 : ℚ) ^ 64 - 1 + 1 / 4) / 10 ^ 9, Units.sec⟩

/-- The Time Lord after `init("1fs")`. -/
def sampleFs : TimeLord :=
  { initialized := true
    timeBaseString := "1fs"
    timeBase := ⟨1 / 10 ^ 15, Units.sec⟩
    parseCache := [("1ns", 0), ("1us", 1), ("1ms", 2)]
    tcMap := [(1000000, 0), (1000000000, 1), (1000000000000, 2)]
    nano := some 0
    micro := some 1
    milli := some 2
    heap := [1000000, 1000000000, 1000000000000] }

/-- The state `sampleFs` after resolving the string "1ys". -/
def sampleFsYs : TimeLord :=
  { sampleFs with
    parseCache := [("1ns", 0), ("1us", 1), ("1ms", 2), ("1ys", 3)]
    tcMap := [(1000000, 0), (1000000000, 1), (1000000000000, 2), (0, 3)]
    heap := [1000000, 1000000000, 1000000000000, 0] }

/-- The Time Lord as constructed, after resolving the factor 5. -/
def sampleNew5 : TimeLord :=
  { TimeLord.new with tcMap := [(5, 0)], heap := [5] }

/-! ## The destructor and the shortcuts -/

/-- `TimeLord::~TimeLord()`, timeLord.cc lines 95-105: the addresses passed to `delete`, one for
each entry of `tcMap`, and the state with both maps cleared. -/
def TimeLord.destructor (self : TimeLord) : List Ptr × TimeLord :=
  (self.tcMap.map Prod.snd, { self with tcMap := [], parseCache := [] })

/-- The shortcut `shortcut` (one of `nano`, `micro`, `milli`) is derived from the time base of
`s` for the string `u`: it is the converter that `parseCache` holds under `u`, and its factor is
the tick count of `u` against the time base of `s`. -/
def DerivedShortcut (parse : String → Option UnitAlgebra) (s : TimeLord) (u : String)
    (shortcut : Option Ptr) : Prop :=
  ∃ (c : Ptr) (f : Nat), shortcut = some c ∧ Map.find s.parseCache u = some c
    ∧ requestedCycles parse s (.byString u) = some f ∧ s.heap[c]? = some f

/-! ## SST::RNG::PoissonDistribution (sst/core/rng/poisson.h) -/

namespace RNG

/-- The arithmetic of `double` that `getNextDouble` uses, taken as a parameter: the constants
0 and 1, the product `p * u`, unary minus and `exp` of math.h. The type `F` of the values is
linearly ordered wherever a comparison is made; nothing is assumed about the operations (so a
rounded product is covered), and a NaN is not modelled. -/
structure Arith (F : Type) where
  zero : F
  one : F
  mul : F → F → F
  neg : F → F
  exp : F → F

/-- Modelled from the spec: the Uniform Random Source (`Random`, rng.h, outside src/), which
"supplies draws": the sequence of all its draws and the number of draws already taken. -/
structure Random (F : Type) where
  draws : Nat → F
  pos : Nat

/-- Modelled from the spec: `Random::nextUniform()`, the next draw and the advanced source. -/
def Random.nextUniform {F : Type} (r : Random F) : F × Random F :=
  (r.draws r.pos, { r with pos := r.pos + 1 })

/-- The arithmetic of `int`: 32 bits, two's complement; an overflow of `k++` or of `k - 1`,
which C++ leaves undefined, wraps around. -/
def wrapInt (z : Int) : Int := (z + 2 ^ 31) % 2 ^ 32 - 2 ^ 31

/-- The members of `PoissonDistribution`, poisson.h lines 107-120: `baseDistrib` is the address
of the random source. -/
structure PoissonDistribution (F : Type) where
  lambda : F
  baseDistrib : Ptr
  deleteDistrib : Bool

/-- The `Random` objects on the heap (`objs[p]` is the state of the source at address `p`)
and the addresses passed to `delete` so far. -/
structure Mem (F : Type) where
  objs : List (Random F)
  released : List Ptr

/-- `PoissonDistribution(const double mn)`, poisson.h lines 36-41; `mersenne` is the state of
the object that `new MersenneRNG()` constructs. -/
def PoissonDistribution.mkOwning {F : Type} (mersenne : Random F) (mn : F) (m : Mem F) :
    PoissonDistribution F × Mem F :=
  ({ lambda := mn, baseDistrib := m.objs.length, deleteDistrib := true },
    { m with objs := m.objs ++ [mersenne] })

/-- `PoissonDistribution(const double mn, Random* baseDist)`, poisson.h lines 48-53. -/
def PoissonDistribution.mkBorrowing {F : Type} (mn : F) (baseDist : Ptr) :
    PoissonDistribution F :=
  { lambda := mn, baseDistrib := baseDist, deleteDistrib := false }

/-- `PoissonDistribution()`, poisson.h line 90: `lambda` is 1.0, and `baseDistrib` and
`deleteDistrib` are not initialized, so that their values are arbitrary. -/
def PoissonDistribution.mkDefault {F : Type} (A : Arith F) (anyPtr : Ptr) (anyFlag : Bool) :
    PoissonDistribution F :=
  { lambda := A.one, baseDistrib := anyPtr, deleteDistrib := anyFlag }

/-- `~PoissonDistribution()`, poisson.h lines 58-61. -/
def PoissonDistribution.destructor {F : Type} (d : PoissonDistribution F) (m : Mem F) : Mem F :=
  if d.deleteDistrib then { m with released := m.released ++ [d.baseDistrib] } else m

/-- `getLambda()`, poisson.h line 85: the value returned and the object after the call. -/
def PoissonDistribution.getLambda {F : Type} (d : PoissonDistribution F) :
    F × PoissonDistribution F :=
  (d.lambda, d)

/-- The `do ... while ( p > L )` loop of poisson.h lines 73-76, run for at most `fuel`
iterations on the state `k`, `p` and the source; `none` when it has not stopped by then. -/
def getNextDoubleLoop {F : Type} [LinearOrder F] (A : Arith F) (L : F) :
    Nat → Int → F → Random F → Option (Int × Random F)
  | 0, _, _, _ => none
  | fuel + 1, k, p, src =>
    let k1 : Int := wrapInt (k + 1)
    let p1 : F := A.mul p src.nextUniform.1
    if L < p1 then getNextDoubleLoop A L fuel k1 p1 src.nextUniform.2
    else some (k1, src.nextUniform.2)

/-- `getNextDouble()`, poisson.h lines 67-79, on the state `src` of the source that
`baseDistrib` points to: the value returned (the `int` value `k - 1`, which the conversion to
`double` keeps), the object and the source after the call. -/
def PoissonDistribution.getNextDouble {F : Type} [LinearOrder F] (A : Arith F)
    (d : PoissonDistribution F) (src : Random F) (fuel : Nat) :
    Option (Int × PoissonDistribution F × Random F) :=
  let L : F := A.exp (A.neg d.lambda)
  match getNextDoubleLoop A L fuel 0 A.one src with
  | none => none
  | some (k, src1) => some (wrapInt (k - 1), d, src1)

/-- The values of `n` successive calls of `getNextDouble()`, and the source after them. -/
def PoissonDistribution.samples {F : Type} [LinearOrder F] (A : Arith F)
    (d : PoissonDistribution F) (fuel : Nat) : Nat → Random F → Option (List Int × Random F)
  | 0, src => some ([], src)
  | n + 1, src =>
    match d.getNextDouble A src fuel with
    | none => none
    | some (x, _, src1) =>
      match PoissonDistribution.samples A d fuel n src1 with
      | none => none
      | some (xs, src2) => some (x :: xs, src2)

/-- The value of `p` after `j` iterations of the loop that starts with `p`: the product,
formed as the loop forms it, of `p` and the next `j` draws of `src`. -/
def runningProduct {F : Type} (A : Arith F) (p : F) (src : Random F) : Nat → F
  | 0 => p
  | j + 1 => A.mul (runningProduct A p src j) (src.draws (src.pos + j))

/-- The product of `k` factors `c`, formed as the loop forms the product of `k` draws. -/
def loopPower {F : Type} (A : Arith F) (c : F) (k : Nat) : F :=
  runningProduct A A.one { draws := fun _ => c, pos := 0 } k

/-- Two sources produce the same draw sequence from where they stand. -/
def SameDraws {F : Type} (r1 r2 : Random F) : Prop :=
  ∀ i : Nat, r1.draws (r1.pos + i) = r2.draws (r2.pos + i)

/-- Exact arithmetic in a field, with a given `exp`: no product is rounded. It is the
arithmetic of examples that do not depend on the rounding; the rounded product of `double` is
`binary64Arith`. -/
def exactArith {F : Type} [Field F] (exp : F → F) : Arith F :=
  { zero := 0, one := 1, mul := fun a b => a * b, neg := fun a => -a, exp := exp }

/-- A stand-in for `exp` on the rationals, for the examples: 1 at 0, at least 1 on the
non-negative and between 0 and 1 on the negative rationals. -/
def ratExp (x : ℚ) : ℚ := if 0 ≤ x then 1 + x else 1 / (1 - x)

/-- The exact arithmetic of the rationals with `ratExp`. -/
def ratArith : Arith ℚ := exactArith ratExp

/-! ### The arithmetic of `double` -/

/-- The integer nearest to `x`; of the two nearest integers of a value halfway between them,
the even one. -/
def roundHalfEven (x : ℚ) : Int :=
  let f : Int := ⌊x⌋
  let d : ℚ := x - f
  if d < 1 / 2 then f
  else if 1 / 2 < d then f + 1
  else if f % 2 = 0 then f else f + 1

/-- The exponent of the leading binary digit of `n` (0 for `n < 2`), found by halving `n` at
most `fuel` times. -/
def log2Nat : Nat → Nat → Nat
  | 0, _ => 0
  | fuel + 1, n => if n < 2 then 0 else log2Nat fuel (n / 2) + 1

/-- The exponent `e` with `2 ^ e <= x < 2 ^ (e + 1)` of a positive rational `x`. -/
def log2Floor (x : ℚ) : Int :=
  let t : Int := (log2Nat x.num.natAbs x.num.natAbs : Int) - (log2Nat x.den x.den : Int)
  if (2 : ℚ) ^ t ≤ x then t else t - 1

/-- The distance between neighbouring numbers of a binary floating-point format with `m`
fraction bits and least normal exponent `emin`, at the magnitude of `x > 0`: `2 ^ (e - m)`
for the exponent `e` of `x`, and `2 ^ (emin - m)` throughout the subnormal range. -/
def floatUlp (m : Nat) (emin : Int) (x : ℚ) : ℚ :=
  (2 : ℚ) ^ (max (log2Floor x) emin - (m : Int))

/-- The rounding of an exact value to a binary floating-point format with `m` fraction bits
and least normal exponent `emin`, as IEEE 754 prescribes it by default: to the nearest number
of the format, to the one with an even last digit when two are equally near, with gradual
underflow. The format has no largest exponent here: an overflow to infinity is not modelled
(the product of draws of [0, 1] never exceeds 1). -/
def roundFloat (m : Nat) (emin : Int) (x : ℚ) : ℚ :=
  if 0 ≤ x then roundHalfEven (x / floatUlp m emin x) * floatUlp m emin x
  else -(roundHalfEven (-x / floatUlp m emin (-x)) * floatUlp m emin (-x))

/-- The rounding to `double` (binary64: 52 fraction bits, least normal exponent -1022, least
positive number `2 ^ (-1074)`). -/
def roundBinary64 (x : ℚ) : ℚ := roundFloat 52 (-1022) x

/-- The arithmetic of `double` on the values that are rationals: `p * u` of line 75 is the
exact product rounded to binary64; 0, 1 and the unary minus are exact; `exp` of math.h, which
is outside src/, is a parameter. -/
def binary64Arith (exp : ℚ → ℚ) : Arith ℚ :=
  { zero := 0, one := 1, mul := fun a b => roundBinary64 (a * b), neg := fun a => -a,
    exp := exp }

/-- The sum `1 + y/i * (1 + y/(i+1) * (1 + ...))` of `n` nested terms: for `i = 1`, the
exponential series of `y` cut after the power `y ^ n`. -/
def expSeries (y : ℚ) : Nat → Nat → ℚ
  | 0, _ => 1
  | n + 1, i => 1 + y / (i : ℚ) * expSeries y n (i + 1)

/-- The value `t` squared `k` times, each square rounded to 112 fraction bits (binary128). -/
def squareTimes : Nat → ℚ → ℚ
  | 0, t => t
  | k + 1, t => squareTimes k (roundFloat 112 (-16382) (t * t))

/-- Modelled from the spec: `exp` of math.h (outside src/), which gives the threshold
"`L = e^(-lambda)`" as a `double`: with `2 ^ k > |x|`, the exponential series of `x / 2 ^ k`
up to the power 30, squared `k` times in 113-bit precision and rounded to binary64. -/
def binary64Exp (x : ℚ) : ℚ :=
  let k : Nat := log2Nat ⌈|x|⌉₊ ⌈|x|⌉₊ + 1
  roundBinary64 (squareTimes k (expSeries (x / 2 ^ k) 30 1))

/-- The arithmetic of `double` with `binary64Exp` for `exp`. -/
def doubleArith : Arith ℚ := binary64Arith binary64Exp

/-! ### The checkpoint serializer -/

/-- Modelled from the spec: one field of a checkpoint image: a real, the state of a random
source, or a boolean. -/
inductive ImageField (F : Type) where
  | real (x : F)
  | source (r : Random F)
  | flag (b : Bool)

/-- Modelled from the spec: the two directions of the serializer (outside src/), writing a
checkpoint image and reading one back. -/
inductive SerMode where
  | PACK
  | UNPACK
deriving DecidableEq

/-- Modelled from the spec: the serializer `ser` (outside src/): its direction and the fields
of the image, those written so far or those still to be read. -/
structure Serializer (F : Type) where
  mode : SerMode
  image : List (ImageField F)

/-- Modelled from the spec: `ser & x` for a `double` member: written to the image, or read back
from it; `none` when the image does not hold a real next. -/
def Serializer.real {F : Type} (ser : Serializer F) (x : F) : Option (F × Serializer F) :=
  match ser.mode with
  | .PACK => some (x, { ser with image := ser.image ++ [ImageField.real x] })
  | .UNPACK =>
    match ser.image with
    | ImageField.real y :: rest => some (y, { ser with image := rest })
    | _ => none

/-- Modelled from the spec: `ser & x` for a `bool` member. -/
def Serializer.flag {F : Type} (ser : Serializer F) (b : Bool) : Option (Bool × Serializer F) :=
  match ser.mode with
  | .PACK => some (b, { ser with image := ser.image ++ [ImageField.flag b] })
  | .UNPACK =>
    match ser.image with
    | ImageField.flag c :: rest => some (c, { ser with image := rest })
    | _ => none

/-- Modelled from the spec: `ser & p` for the `Random*` member, "the random-source reference":
writing stores the state of the source that `p` points to; reading back constructs a source
with the stored state and returns its address. -/
def Serializer.source {F : Type} (ser : Serializer F) (p : Ptr) (m : Mem F) :
    Option (Ptr × Mem F × Serializer F) :=
  match ser.mode with
  | .PACK =>
    match m.objs[p]? with
    | some r => some (p, m, { ser with image := ser.image ++ [ImageField.source r] })
    | none => none
  | .UNPACK =>
    match ser.image with
    | ImageField.source r :: rest =>
      some (m.objs.length, { m with objs := m.objs ++ [r] }, { ser with image := rest })
    | _ => none

/-- `serialize_order(ser)`, poisson.h lines 95-100: `lambda`, `baseDistrib`, `deleteDistrib`,
in this order. -/
def PoissonDistribution.serialize_order {F : Type} (d : PoissonDistribution F)
    (ser : Serializer F) (m : Mem F) : Option (PoissonDistribution F × Mem F × Serializer F) :=
  match ser.real d.lambda with
  | none => none
  | some (l, ser1) =>
    match ser1.source d.baseDistrib m with
    | none => none
    | some (p, m1, ser2) =>
      match ser2.flag d.deleteDistrib with
      | none => none
      | some (b, ser3) => some ({ lambda := l, baseDistrib := p, deleteDistrib := b }, m1, ser3)

/-! ### Sample sources -/

/-- The source all of whose draws are 1/2. -/
def halves : Random ℚ := { draws := fun _ => 1 / 2, pos := 0 }

/-- The source whose first `2 ^ 31` draws are `1 - 1 / 2 ^ 40` and whose later draws are 0. -/
def lateZero : Random ℚ :=
  { draws := fun i => if i < 2 ^ 31 then 1 - 1 / 2 ^ 40 else 0, pos := 0 }

/-- A Poisson distribution with `lambda = 2` that borrows the source at address 0. -/
def poissonTwo : PoissonDistribution ℚ := PoissonDistribution.mkBorrowing 2 0

/-- A Poisson distribution with `lambda = 1` that borrows the source at address 0. -/
def poissonOne : PoissonDistribution ℚ := PoissonDistribution.mkBorrowing 1 0

/-- A Poisson distribution with `lambda = 0` that borrows the source at address 0. -/
def poissonZero : PoissonDistribution ℚ := PoissonDistribution.mkBorrowing 0 0

/-- A Poisson distribution with `lambda = -1` that borrows the source at address 0. -/
def poissonMinusOne : PoissonDistribution ℚ := PoissonDistribution.mkBorrowing (-1) 0


/-- A source that stands at its fourth draw and draws 1/2 from there on. -/
def halvesLater : Random ℚ := { draws := fun i => if i < 3 then 0 else 1 / 2, pos := 3 }

/-- A Poisson distribution with `lambda = 2` that owns the source at address 5. -/
def poissonTwoOwning : PoissonDistribution ℚ :=
  { lambda := 2, baseDistrib := 5, deleteDistrib := true }

/-- The source all of whose draws are 3/4. -/
def threeQuarters : Random ℚ := { draws := fun _ => 3 / 4, pos := 0 }

/-- A Poisson distribution with `lambda = 744.5` that borrows the source at address 0. -/
def poisson744 : PoissonDistribution ℚ := PoissonDistribution.mkBorrowing (1489 / 2) 0

/-- A memory that holds the source `halves` at address 0. -/
def memHalves : Mem ℚ := { objs := [halves], released := [] }

/-- A memory without any source, into which a checkpoint is restored. -/
def memEmpty : Mem ℚ := { objs := [], released := [] }

end RNG

/-! ## Lemmas on rounding -/

theorem UnitAlgebra.getRoundedValue_le (a : UnitAlgebra) (n : Int) (h : a.value ≤ n) :
    a.getRoundedValue ≤ n := by
  have hfl : ((⌊a.value⌋ : Int) : ℚ) ≤ a.value := Int.floor_le a.value
  have h1 : ⌊a.value⌋ ≤ n := by exact_mod_cast hfl.trans h
  unfold UnitAlgebra.getRoundedValue
  simp only
  split_ifs with c1 c2 c3
  · exact h1
  · have h2 : ((⌊a.value⌋ : Int) : ℚ) < n := by linarith
    have h3 : ⌊a.value⌋ < n := by exact_mod_cast h2
    omega
  · exact h1
  · have h2 : ((⌊a.value⌋ : Int) : ℚ) < n := by linarith [not_lt.mp c1]
    have h3 : ⌊a.value⌋ < n := by exact_mod_cast h2
    omega

theorem UnitAlgebra.le_getRoundedValue (a : UnitAlgebra) (n : Int) (h : (n : ℚ) ≤ a.value) :
    n ≤ a.getRoundedValue := by
  have h1 : n ≤ ⌊a.value⌋ := Int.le_floor.mpr h
  unfold UnitAlgebra.getRoundedValue
  simp only
  split_ifs <;> omega

theorem UnitAlgebra.getRoundedValue_near (a : UnitAlgebra) :
    |(a.getRoundedValue : ℚ) - a.value| ≤ 1 / 2 := by
  have hfl : ((⌊a.value⌋ : Int) : ℚ) ≤ a.value := Int.floor_le a.value
  have hlt : a.value < ((⌊a.value⌋ : Int) : ℚ) + 1 := Int.lt_floor_add_one a.value
  unfold UnitAlgebra.getRoundedValue
  simp only
  rw [abs_le]
  split_ifs with c1 c2 c3
  · constructor <;> linarith
  · push_cast; constructor <;> linarith
  · constructor <;> linarith [not_lt.mp c1]
  · push_cast; constructor <;> linarith [not_lt.mp c1]

theorem toSimTime_t_of_nonneg (z : Int) (h0 : 0 ≤ z) (h1 : z ≤ (MAX_SIMTIME_T : Int)) :
    ((toSimTime_t z : Nat) : Int) = z := by
  unfold toSimTime_t
  unfold MAX_SIMTIME_T at h1
  have h2 : z % (2 ^ 64 : Int) = z := Int.emod_eq_of_lt h0 (by norm_num at h1 ⊢; omega)
  rw [h2]
  exact Int.toNat_of_nonneg h0


/-! ## Lemmas on maps -/

theorem Map.find_set_self {κ ν : Type} [DecidableEq κ] (m : List (κ × ν)) (k : κ) (v : ν) :
    Map.find (Map.set m k v) k = some v := by
  induction m with
  | nil => simp [Map.set, Map.find]
  | cons e r ih =>
    obtain ⟨k1, v1⟩ := e
    by_cases h : k1 = k
    · simp [Map.set, Map.find, h]
    · simp [Map.set, Map.find, h, ih]

theorem Map.find_set_ne {κ ν : Type} [DecidableEq κ] (m : List (κ × ν)) (k j : κ) (v : ν)
    (h : k ≠ j) : Map.find (Map.set m k v) j = Map.find m j := by
  induction m with
  | nil => simp [Map.set, Map.find, h]
  | cons e r ih =>
    obtain ⟨k1, v1⟩ := e
    by_cases h1 : k1 = k
    · subst h1
      simp [Map.set, Map.find, h]
    · by_cases h2 : k1 = j
      · subst h2
        simp [Map.set, Map.find, h1]
      · simp [Map.set, Map.find, h1, h2, ih]

theorem Map.length_set_of_find_none {κ ν : Type} [DecidableEq κ] (m : List (κ × ν)) (k : κ)
    (v : ν) (h : Map.find m k = none) : (Map.set m k v).length = m.length + 1 := by
  induction m with
  | nil => simp [Map.set]
  | cons e r ih =>
    obtain ⟨k1, v1⟩ := e
    by_cases h1 : k1 = k
    · simp [Map.find, h1] at h
    · simp [Map.find, h1] at h
      simp [Map.set, h1, ih h]

theorem Map.find_set_of_find_some {κ ν : Type} [DecidableEq κ] (m : List (κ × ν)) (k j : κ)
    (v w : ν) (hk : Map.find m k = none) (hj : Map.find m j = some w) :
    Map.find (Map.set m k v) j = some w := by
  have hne : k ≠ j := by
    intro h
    subst h
    rw [hk] at hj
    cases hj
  rw [Map.find_set_ne m k j v hne, hj]

/-! ## Lemmas on the state -/

theorem Extends.refl (s : TimeLord) : Extends s s :=
  ⟨fun _ _ h => h, fun _ _ h => h, fun _ _ h => h⟩

theorem Extends.trans {s t u : TimeLord} (h1 : Extends s t) (h2 : Extends t u) : Extends s u :=
  ⟨fun p f h => h2.heap p f (h1.heap p f h), fun f p h => h2.tcMap f p (h1.tcMap f p h),
    fun k p h => h2.parseCache k p (h1.parseCache k p h)⟩

theorem Coherent.new : Coherent TimeLord.new :=
  ⟨fun f p h => by simp [TimeLord.new, Map.find] at h,
    fun p f h => by simp [TimeLord.new] at h,
    fun u p h => by simp [TimeLord.new, Map.find] at h⟩

/-! ### getTimeConverter(SimTime_t) -/

theorem getTimeConverter_SimTime_t_find (s : TimeLord) (f : Nat) :
    Map.find (s.getTimeConverter_SimTime_t f).2.tcMap f
      = some (s.getTimeConverter_SimTime_t f).1 := by
  unfold TimeLord.getTimeConverter_SimTime_t
  cases h : Map.find s.tcMap f with
  | none => simp [Map.find_set_self]
  | some p => simpa using h

theorem getTimeConverter_SimTime_t_frame (s : TimeLord) (f : Nat) :
    (s.getTimeConverter_SimTime_t f).2.parseCache = s.parseCache
      ∧ (s.getTimeConverter_SimTime_t f).2.initialized = s.initialized
      ∧ (s.getTimeConverter_SimTime_t f).2.timeBase = s.timeBase := by
  unfold TimeLord.getTimeConverter_SimTime_t
  cases h : Map.find s.tcMap f <;> simp

theorem getTimeConverter_SimTime_t_extends (s : TimeLord) (f : Nat) :
    Extends s (s.getTimeConverter_SimTime_t f).2 := by
  unfold TimeLord.getTimeConverter_SimTime_t
  cases h : Map.find s.tcMap f with
  | none =>
    refine ⟨?_, ?_, ?_⟩
    · intro p g hp
      have hlt : p < s.heap.length := (List.getElem?_eq_some_iff.mp hp).1
      simpa [List.getElem?_append_left hlt] using hp
    · intro g p hg
      exact Map.find_set_of_find_some s.tcMap f g _ p h hg
    · intro u p hu
      simpa using hu
  | some p => exact Extends.refl s

theorem getTimeConverter_SimTime_t_coherent (s : TimeLord) (f : Nat) (hs : Coherent s) :
    Coherent (s.getTimeConverter_SimTime_t f).2 := by
  have hext := getTimeConverter_SimTime_t_extends s f
  have hfind := getTimeConverter_SimTime_t_find s f
  revert hext hfind
  unfold TimeLord.getTimeConverter_SimTime_t
  cases h : Map.find s.tcMap f with
  | some p => intro _ _; exact hs
  | none =>
    intro hext _
    refine ⟨?_, ?_, ?_⟩
    · intro g p hg
      by_cases hfg : f = g
      · subst hfg
        simp only [Map.find_set_self] at hg
        cases hg
        simp
      · simp only [Map.find_set_ne s.tcMap f g _ hfg] at hg
        exact hext.heap p g (hs.tcMap_factor g p hg)
    · intro p g hp
      by_cases hlt : p < s.heap.length
      · simp only [List.getElem?_append_left hlt] at hp
        exact hext.tcMap g p (hs.heap_tcMap p g hp)
      · have hp2 : p < s.heap.length + 1 := by
          have hlt2 := (List.getElem?_eq_some_iff.mp hp).1
          simpa using hlt2
        have hpe : p = s.heap.length := Nat.le_antisymm (Nat.le_of_lt_succ hp2) (Nat.le_of_not_lt hlt)
        subst hpe
        simp at hp
        subst hp
        simp [Map.find_set_self]
    · intro u p hu
      obtain ⟨g, hg⟩ := hs.parseCache_tcMap u p hu
      exact ⟨g, hext.tcMap g p hg⟩

/-! ### getTimeConverter(const UnitAlgebra&) -/

theorem getTimeConverter_UnitAlgebra_ok_iff (s : TimeLord) (q : UnitAlgebra)
    (r : Ptr × TimeLord) :
    s.getTimeConverter_UnitAlgebra q = .ok r ↔
      s.initialized = true ∧ ∃ a : UnitAlgebra, s.uaFactor q = some a
        ∧ a.getValue ≤ (MAX_SIMTIME_T : ℚ)
        ∧ r = s.getTimeConverter_SimTime_t (toSimTime_t a.getRoundedValue) := by
  unfold TimeLord.getTimeConverter_UnitAlgebra
  cases hi : s.initialized with
  | false => simp
  | true =>
    cases ha : s.uaFactor q with
    | none => simp
    | some a =>
      by_cases hv : a.getValue > (MAX_SIMTIME_T : ℚ)
      · simp [hv]
      · simp only [hv, if_false, Bool.true_eq_false, true_and, Option.some.injEq,
          exists_eq_left', Except.ok.injEq]
        constructor
        · intro h
          exact ⟨not_lt.mp hv, h.symm⟩
        · intro h
          exact h.2.symm

theorem getTimeConverter_UnitAlgebra_ok {s : TimeLord} {q : UnitAlgebra} {r : Ptr × TimeLord}
    (h : s.getTimeConverter_UnitAlgebra q = .ok r) :
    s.initialized = true ∧ ∃ f : Nat, r = s.getTimeConverter_SimTime_t f := by
  obtain ⟨hi, a, _, _, hr⟩ := (getTimeConverter_UnitAlgebra_ok_iff s q r).mp h
  exact ⟨hi, _, hr⟩

/-! ### getTimeConverter(std::string) -/

theorem getTimeConverter_string_hit {parse : String → Option UnitAlgebra} {s : TimeLord}
    {u : String} {p : Ptr} (h : Map.find s.parseCache u = some p) :
    s.getTimeConverter_string parse u = .ok (p, s) := by
  simp [TimeLord.getTimeConverter_string, h]

theorem getTimeConverter_string_ok {parse : String → Option UnitAlgebra} {s t : TimeLord}
    {u : String} {p : Ptr} (h : s.getTimeConverter_string parse u = .ok (p, t)) :
    Map.find t.parseCache u = some p ∧ Extends s t ∧ (Coherent s → Coherent t) := by
  unfold TimeLord.getTimeConverter_string at h
  split at h
  · split at h
    · cases h
    · rename_i hmiss _ q _
      split at h
      · cases h
      · rename_i tc s1 hq
        cases h
        obtain ⟨_, f, hf⟩ := getTimeConverter_UnitAlgebra_ok hq
        have hext := getTimeConverter_SimTime_t_extends s f
        have hfr := getTimeConverter_SimTime_t_frame s f
        have hfd := getTimeConverter_SimTime_t_find s f
        rw [← hf] at hext hfr hfd
        simp only at hext hfr hfd
        have hmiss1 : Map.find s1.parseCache u = none := by rw [hfr.1]; exact hmiss
        refine ⟨by simp [Map.find_set_self], ⟨hext.heap, hext.tcMap, ?_⟩, ?_⟩
        · intro v pv hv
          exact Map.find_set_of_find_some s1.parseCache u v _ pv hmiss1
            (hext.parseCache v pv hv)
        · intro hs
          have hc := getTimeConverter_SimTime_t_coherent s f hs
          rw [← hf] at hc
          refine ⟨hc.tcMap_factor, hc.heap_tcMap, ?_⟩
          intro v pv hv
          by_cases huv : u = v
          · subst huv
            simp only [Map.find_set_self] at hv
            cases hv
            exact ⟨f, hfd⟩
          · simp only [Map.find_set_ne s1.parseCache u v _ huv] at hv
            exact hc.parseCache_tcMap v pv hv
  · rename_i tc hhit
    cases h
    exact ⟨hhit, Extends.refl s, fun hs => hs⟩

theorem getTimeConverter_string_frame {parse : String → Option UnitAlgebra} {s t : TimeLord}
    {u : String} {p : Ptr} (h : s.getTimeConverter_string parse u = .ok (p, t)) :
    t.initialized = s.initialized ∧ t.timeBase = s.timeBase := by
  unfold TimeLord.getTimeConverter_string at h
  split at h
  · split at h
    · cases h
    · split at h
      · cases h
      · rename_i tc s1 hq
        cases h
        obtain ⟨_, f, hf⟩ := getTimeConverter_UnitAlgebra_ok hq
        have hfr := getTimeConverter_SimTime_t_frame s f
        rw [← hf] at hfr
        exact ⟨hfr.2.1, hfr.2.2⟩
  · cases h
    exact ⟨rfl, rfl⟩

/-! ### getSimCycles -/

theorem getSimCycles_eq (parse : String → Option UnitAlgebra) (s : TimeLord) (u : String) :
    s.getSimCycles parse u =
      match s.getTimeConverter_string parse u with
      | .error e => .error e
      | .ok (tc, t) =>
        match t.getFactor tc with
        | .error e => .error e
        | .ok f => .ok (f, t) := by
  unfold TimeLord.getSimCycles TimeLord.getTimeConverter_string
  cases hfind : Map.find s.parseCache u with
  | some tc => simp
  | none =>
    cases hparse : TimeLord.parseUnitAlgebra parse u with
    | error e => simp
    | ok q =>
      cases hq : s.getTimeConverter_UnitAlgebra q with
      | error e => simp [hq]
      | ok r => simp [hq]

theorem getSimCycles_ok {parse : String → Option UnitAlgebra} {s t : TimeLord}
    {u : String} {f : Nat} (h : s.getSimCycles parse u = .ok (f, t)) :
    ∃ p : Ptr, s.getTimeConverter_string parse u = .ok (p, t) ∧ t.heap[p]? = some f := by
  rw [getSimCycles_eq] at h
  cases hr : s.getTimeConverter_string parse u with
  | error e => rw [hr] at h; cases h
  | ok r =>
    obtain ⟨p, t1⟩ := r
    rw [hr] at h
    simp only [TimeLord.getFactor] at h
    cases hp : t1.heap[p]? with
    | none => rw [hp] at h; cases h
    | some g =>
      rw [hp] at h
      cases h
      exact ⟨p, rfl, hp⟩

/-! ### init -/

theorem init_ok {parse : String → Option UnitAlgebra} {s t : TimeLord} {tb : String}
    (h : s.init parse tb = .ok t) :
    t.initialized = true ∧ Extends s t ∧ (Coherent s → Coherent t) := by
  unfold TimeLord.init at h
  cases hp : TimeLord.parseUnitAlgebra parse tb with
  | error e => rw [hp] at h; cases h
  | ok q =>
    rw [hp] at h
    simp only at h
    generalize hs0 : ({ s with initialized := true, timeBaseString := tb, timeBase := q } :
      TimeLord) = s0 at h
    have h0 : Extends s s0 := by subst hs0; exact ⟨fun _ _ h => h, fun _ _ h => h, fun _ _ h => h⟩
    have c0 : Coherent s → Coherent s0 := by
      subst hs0
      intro hs
      exact ⟨hs.tcMap_factor, hs.heap_tcMap, hs.parseCache_tcMap⟩
    have i0 : s0.initialized = true := by subst hs0; rfl
    cases h1 : s0.getTimeConverter_string parse "1ns" with
    | error e => rw [h1] at h; cases h
    | ok r1 =>
      obtain ⟨p1, s1⟩ := r1
      rw [h1] at h
      simp only at h
      cases h2 : s1.getTimeConverter_string parse "1us" with
      | error e => rw [h2] at h; cases h
      | ok r2 =>
        obtain ⟨p2, s2⟩ := r2
        rw [h2] at h
        simp only at h
        cases h3 : s2.getTimeConverter_string parse "1ms" with
        | error e => rw [h3] at h; cases h
        | ok r3 =>
          obtain ⟨p3, s3⟩ := r3
          rw [h3] at h
          simp only at h
          cases h
          obtain ⟨_, e1, c1⟩ := getTimeConverter_string_ok h1
          obtain ⟨_, e2, c2⟩ := getTimeConverter_string_ok h2
          obtain ⟨_, e3, c3⟩ := getTimeConverter_string_ok h3
          have e := (h0.trans e1).trans (e2.trans e3)
          refine ⟨?_, ⟨e.heap, e.tcMap, e.parseCache⟩, ?_⟩
          · have f1 := (getTimeConverter_string_frame h1).1
            have f2 := (getTimeConverter_string_frame h2).1
            have f3 := (getTimeConverter_string_frame h3).1
            show s3.initialized = true
            rw [f3, f2, f1, i0]
          · intro hs
            have c := c3 (c2 (c1 (c0 hs)))
            exact ⟨c.tcMap_factor, c.heap_tcMap, c.parseCache_tcMap⟩

/-! ### Sequences of operations -/

theorem step_ok {parse : String → Option UnitAlgebra} {s t : TimeLord} {op : Op}
    (h : step parse s op = .ok t) : Extends s t ∧ (Coherent s → Coherent t) := by
  cases op with
  | init tb =>
    obtain ⟨_, e, c⟩ := init_ok (show s.init parse tb = .ok t from h)
    exact ⟨e, c⟩
  | resolveString u =>
    simp only [step] at h
    cases hr : s.getTimeConverter_string parse u with
    | error e => rw [hr] at h; cases h
    | ok r =>
      obtain ⟨p, t1⟩ := r
      rw [hr] at h
      cases h
      obtain ⟨_, e, c⟩ := getTimeConverter_string_ok hr
      exact ⟨e, c⟩
  | resolveQuantity q =>
    simp only [step] at h
    cases hr : s.getTimeConverter_UnitAlgebra q with
    | error e => rw [hr] at h; cases h
    | ok r =>
      rw [hr] at h
      cases h
      obtain ⟨_, f, hf⟩ := getTimeConverter_UnitAlgebra_ok hr
      rw [hf]
      exact ⟨getTimeConverter_SimTime_t_extends s f, getTimeConverter_SimTime_t_coherent s f⟩
  | resolveFactor f =>
    simp only [step] at h
    cases h
    exact ⟨getTimeConverter_SimTime_t_extends s f, getTimeConverter_SimTime_t_coherent s f⟩
  | getSimCycles u =>
    simp only [step] at h
    cases hr : s.getSimCycles parse u with
    | error e => rw [hr] at h; cases h
    | ok r =>
      obtain ⟨f, t1⟩ := r
      rw [hr] at h
      cases h
      obtain ⟨p, hp, _⟩ := getSimCycles_ok hr
      obtain ⟨_, e, c⟩ := getTimeConverter_string_ok hp
      exact ⟨e, c⟩

theorem run_ok {parse : String → Option UnitAlgebra} {ops : List Op} {s t : TimeLord}
    (h : run parse s ops = .ok t) : Extends s t ∧ (Coherent s → Coherent t) := by
  induction ops generalizing s with
  | nil =>
    simp only [run] at h
    cases h
    exact ⟨Extends.refl _, fun hs => hs⟩
  | cons op ops ih =>
    simp only [run] at h
    cases hs1 : step parse s op with
    | error e => rw [hs1] at h; cases h
    | ok s1 =>
      rw [hs1] at h
      obtain ⟨e1, c1⟩ := step_ok hs1
      obtain ⟨e2, c2⟩ := ih h
      exact ⟨e1.trans e2, fun hs => c2 (c1 hs)⟩

theorem Reachable.coherent {parse : String → Option UnitAlgebra} {s : TimeLord}
    (h : Reachable parse s) : Coherent s := by
  obtain ⟨ops, hops⟩ := h
  exact (run_ok hops).2 Coherent.new

/-! ### Requests and stale entries -/

theorem getTimeConverter_string_miss {parse : String → Option UnitAlgebra} {s : TimeLord}
    {u : String} (hm : Map.find s.parseCache u = none) (r : Ptr × TimeLord) :
    s.getTimeConverter_string parse u = .ok r ↔
      ∃ (q : UnitAlgebra) (tc : Ptr) (s1 : TimeLord), parse u = some q
        ∧ s.getTimeConverter_UnitAlgebra q = .ok (tc, s1)
        ∧ r = (tc, { s1 with parseCache := Map.set s1.parseCache u tc }) := by
  unfold TimeLord.getTimeConverter_string TimeLord.parseUnitAlgebra
  rw [hm]
  cases hp : parse u with
  | none => simp
  | some q =>
    cases hq : s.getTimeConverter_UnitAlgebra q with
    | error e => simp [hq]
    | ok r1 =>
      obtain ⟨tc, s1⟩ := r1
      constructor
      · intro h
        simp only [hq] at h
        exact ⟨q, tc, s1, rfl, hq, (Except.ok.inj h).symm⟩
      · rintro ⟨q1, tc1, s2, h1, h2, h3⟩
        cases h1
        rw [hq] at h2
        cases h2
        simp only [hq]
        rw [h3]

theorem simCyclesOf_congr {s t : TimeLord} (h : t.timeBase = s.timeBase) (q : UnitAlgebra) :
    simCyclesOf t q = simCyclesOf s q := by
  simp [simCyclesOf, TimeLord.uaFactor, h]

theorem requestedCycles_congr {parse : String → Option UnitAlgebra} {s t : TimeLord}
    (h : t.timeBase = s.timeBase) (r : Request) :
    requestedCycles parse t r = requestedCycles parse s r := by
  have hfun : simCyclesOf t = simCyclesOf s := funext (simCyclesOf_congr h)
  cases r <;> simp [requestedCycles, hfun]

theorem Fresh.mono {parse : String → Option UnitAlgebra} {s t : TimeLord} (hs : Fresh parse s)
    (hb : t.timeBase = s.timeBase) (hp : t.parseCache = s.parseCache)
    (hm : ∀ (f : Nat) (p : Ptr), Map.find s.tcMap f = some p → Map.find t.tcMap f = some p) :
    Fresh parse t := by
  intro u p hu
  rw [hp] at hu
  obtain ⟨f, hf, hfp⟩ := hs u p hu
  exact ⟨f, by rw [requestedCycles_congr hb]; exact hf, hm f p hfp⟩

theorem getTimeConverter_SimTime_t_fresh {parse : String → Option UnitAlgebra} {s : TimeLord}
    (hs : Fresh parse s) (f : Nat) : Fresh parse (s.getTimeConverter_SimTime_t f).2 :=
  hs.mono (getTimeConverter_SimTime_t_frame s f).2.2 (getTimeConverter_SimTime_t_frame s f).1
    (getTimeConverter_SimTime_t_extends s f).tcMap

theorem getTimeConverter_UnitAlgebra_cycles {s : TimeLord} {q : UnitAlgebra}
    {r : Ptr × TimeLord} (h : s.getTimeConverter_UnitAlgebra q = .ok r) :
    ∃ k : Nat, simCyclesOf s q = some k ∧ r = s.getTimeConverter_SimTime_t k := by
  obtain ⟨_, a, ha, _, hr⟩ := (getTimeConverter_UnitAlgebra_ok_iff s q r).mp h
  exact ⟨_, by simp [simCyclesOf, ha], hr⟩

theorem resolve_ok {parse : String → Option UnitAlgebra} {s t : TimeLord} {r : Request}
    {c : Ptr} (hs : Fresh parse s) (h : resolve parse s r = .ok (c, t)) :
    Fresh parse t ∧ t.timeBase = s.timeBase ∧
      ∀ f : Nat, requestedCycles parse s r = some f →
        c = (s.getTimeConverter_SimTime_t f).1
          ∧ t.tcMap = (s.getTimeConverter_SimTime_t f).2.tcMap
          ∧ t.heap = (s.getTimeConverter_SimTime_t f).2.heap := by
  cases r with
  | byFactor g =>
    simp only [resolve, Except.ok.injEq] at h
    refine ⟨?_, ?_, ?_⟩
    · have := getTimeConverter_SimTime_t_fresh hs g
      rw [h] at this
      exact this
    · have := (getTimeConverter_SimTime_t_frame s g).2.2
      rw [h] at this
      exact this
    · intro f hf
      simp only [requestedCycles, Option.some.injEq] at hf
      subst hf
      rw [h]
      exact ⟨rfl, rfl, rfl⟩
  | byQuantity q =>
    simp only [resolve] at h
    obtain ⟨k, hk, hr⟩ := getTimeConverter_UnitAlgebra_cycles h
    refine ⟨?_, ?_, ?_⟩
    · have := getTimeConverter_SimTime_t_fresh hs k
      rw [← hr] at this
      exact this
    · have := (getTimeConverter_SimTime_t_frame s k).2.2
      rw [← hr] at this
      exact this
    · intro f hf
      simp only [requestedCycles, hk, Option.some.injEq] at hf
      subst hf
      rw [← hr]
      exact ⟨rfl, rfl, rfl⟩
  | byString u =>
    simp only [resolve] at h
    cases hfind : Map.find s.parseCache u with
    | some p =>
      rw [getTimeConverter_string_hit hfind] at h
      simp only [Except.ok.injEq, Prod.mk.injEq] at h
      obtain ⟨hpc, hst⟩ := h
      subst hpc hst
      refine ⟨hs, rfl, ?_⟩
      intro f hf
      obtain ⟨g, hg, hgp⟩ := hs u p hfind
      rw [hf] at hg
      cases hg
      simp [TimeLord.getTimeConverter_SimTime_t, hgp]
    | none =>
      obtain ⟨q, tc, s1, hq, hr, hct⟩ := (getTimeConverter_string_miss hfind (c, t)).mp h
      simp only [Prod.mk.injEq] at hct
      obtain ⟨hc, ht⟩ := hct
      subst hc ht
      obtain ⟨k, hk, hr1⟩ := getTimeConverter_UnitAlgebra_cycles hr
      have hfr := getTimeConverter_SimTime_t_frame s k
      have hfd := getTimeConverter_SimTime_t_find s k
      have hex := getTimeConverter_SimTime_t_extends s k
      rw [← hr1] at hfr hfd hex
      simp only at hfr hfd hex
      have hreq : requestedCycles parse s (.byString u) = some k := by
        simp [requestedCycles, hq, hk]
      refine ⟨?_, hfr.2.2, ?_⟩
      · intro v pv hv
        have hcg : requestedCycles parse
            { s1 with parseCache := Map.set s1.parseCache u c } (.byString v)
              = requestedCycles parse s (.byString v) :=
          @requestedCycles_congr parse s
            { s1 with parseCache := Map.set s1.parseCache u c } hfr.2.2 _
        rw [hcg]
        by_cases huv : u = v
        · subst huv
          simp only [Map.find_set_self, Option.some.injEq] at hv
          subst hv
          exact ⟨k, hreq, hfd⟩
        · simp only [Map.find_set_ne s1.parseCache u v _ huv] at hv
          rw [hfr.1] at hv
          obtain ⟨g, hg, hgp⟩ := hs v pv hv
          exact ⟨g, hg, hex.tcMap g pv hgp⟩
      · intro f hf
        rw [hreq] at hf
        cases hf
        rw [← hr1]
        exact ⟨rfl, rfl, rfl⟩

theorem init_fresh {parse : String → Option UnitAlgebra} {s t : TimeLord} {tb : String}
    (hempty : s.parseCache = []) (h : s.init parse tb = .ok t) : Fresh parse t := by
  unfold TimeLord.init at h
  cases hp : TimeLord.parseUnitAlgebra parse tb with
  | error e => rw [hp] at h; cases h
  | ok q =>
    rw [hp] at h
    simp only at h
    generalize hs0 : ({ s with initialized := true, timeBaseString := tb, timeBase := q } :
      TimeLord) = s0 at h
    have f0 : Fresh parse s0 := by
      subst hs0
      intro u p hu
      simp [hempty, Map.find] at hu
    cases h1 : s0.getTimeConverter_string parse "1ns" with
    | error e => rw [h1] at h; cases h
    | ok r1 =>
      obtain ⟨p1, s1⟩ := r1
      rw [h1] at h
      simp only at h
      cases h2 : s1.getTimeConverter_string parse "1us" with
      | error e => rw [h2] at h; cases h
      | ok r2 =>
        obtain ⟨p2, s2⟩ := r2
        rw [h2] at h
        simp only at h
        cases h3 : s2.getTimeConverter_string parse "1ms" with
        | error e => rw [h3] at h; cases h
        | ok r3 =>
          obtain ⟨p3, s3⟩ := r3
          rw [h3] at h
          simp only at h
          cases h
          have f1 := (resolve_ok (r := .byString "1ns") f0 h1).1
          have f2 := (resolve_ok (r := .byString "1us") f1 h2).1
          have f3 := (resolve_ok (r := .byString "1ms") f2 h3).1
          exact f3.mono rfl rfl (fun _ _ hh => hh)

theorem step_fresh {parse : String → Option UnitAlgebra} {s t : TimeLord} {op : Op}
    (hs : Fresh parse s) (hop : op.isInit = false) (h : step parse s op = .ok t) :
    Fresh parse t := by
  cases op with
  | init tb => simp [Op.isInit] at hop
  | resolveString u =>
    simp only [step] at h
    cases hr : s.getTimeConverter_string parse u with
    | error e => rw [hr] at h; cases h
    | ok r =>
      obtain ⟨c, t1⟩ := r
      rw [hr] at h
      cases h
      exact (@resolve_ok parse s t1 (.byString u) c hs hr).1
  | resolveQuantity q =>
    simp only [step] at h
    cases hr : s.getTimeConverter_UnitAlgebra q with
    | error e => rw [hr] at h; cases h
    | ok r =>
      obtain ⟨c, t1⟩ := r
      rw [hr] at h
      cases h
      exact (@resolve_ok parse s t1 (.byQuantity q) c hs hr).1
  | resolveFactor f =>
    simp only [step] at h
    cases h
    exact getTimeConverter_SimTime_t_fresh hs f
  | getSimCycles u =>
    simp only [step] at h
    cases hr : s.getSimCycles parse u with
    | error e => rw [hr] at h; cases h
    | ok r =>
      obtain ⟨f, t1⟩ := r
      rw [hr] at h
      cases h
      obtain ⟨c, hc, _⟩ := getSimCycles_ok hr
      exact (@resolve_ok parse s t1 (.byString u) c hs hc).1

theorem run_fresh {parse : String → Option UnitAlgebra} {ops : List Op} {s t : TimeLord}
    (hs : Fresh parse s) (hno : ∀ op ∈ ops, op.isInit = false)
    (h : run parse s ops = .ok t) : Fresh parse t := by
  induction ops generalizing s with
  | nil =>
    simp only [run] at h
    cases h
    exact hs
  | cons op ops ih =>
    simp only [run] at h
    cases hs1 : step parse s op with
    | error e => rw [hs1] at h; cases h
    | ok s1 =>
      rw [hs1] at h
      exact ih (step_fresh hs (hno op (List.mem_cons_self _ _)) hs1)
        (fun o ho => hno o (List.mem_cons_of_mem _ ho)) h

theorem run_append {parse : String → Option UnitAlgebra} {ops1 ops2 : List Op}
    {s t : TimeLord} (h : run parse s (ops1 ++ ops2) = .ok t) :
    ∃ m : TimeLord, run parse s ops1 = .ok m ∧ run parse m ops2 = .ok t := by
  induction ops1 generalizing s with
  | nil => exact ⟨s, rfl, h⟩
  | cons op ops ih =>
    simp only [List.cons_append, run] at h ⊢
    cases hs1 : step parse s op with
    | error e => rw [hs1] at h; cases h
    | ok s1 =>
      rw [hs1] at h
      exact ih h

/-! ### Before init, and after a single init -/

theorem run_before_init {parse : String → Option UnitAlgebra} {ops : List Op} {s t : TimeLord}
    (hi : s.initialized = false) (hp : s.parseCache = [])
    (hno : ∀ op ∈ ops, op.isInit = false) (h : run parse s ops = .ok t) :
    t.initialized = false ∧ t.parseCache = [] := by
  induction ops generalizing s with
  | nil =>
    simp only [run] at h
    cases h
    exact ⟨hi, hp⟩
  | cons op ops ih =>
    simp only [run] at h
    cases hs1 : step parse s op with
    | error e => rw [hs1] at h; cases h
    | ok s1 =>
      rw [hs1] at h
      have hno1 : ∀ o ∈ ops, o.isInit = false := fun o ho => hno o (List.mem_cons_of_mem _ ho)
      have hop := hno op (List.mem_cons_self _ _)
      have hq : ∀ q : UnitAlgebra, s.getTimeConverter_UnitAlgebra q
          = .error .UninitializedAuthority := by
        intro q
        simp [TimeLord.getTimeConverter_UnitAlgebra, hi]
      have hfindnone : ∀ u : String, Map.find s.parseCache u = none := by
        intro u
        simp [hp, Map.find]
      cases op with
      | init tb => simp [Op.isInit] at hop
      | resolveString u =>
        simp only [step] at hs1
        cases hr : s.getTimeConverter_string parse u with
        | error e => rw [hr] at hs1; cases hs1
        | ok r =>
          obtain ⟨q, tc, s2, _, hq2, _⟩ := (getTimeConverter_string_miss (hfindnone u) r).mp hr
          rw [hq q] at hq2
          cases hq2
      | resolveQuantity q =>
        simp only [step, hq q] at hs1
        cases hs1
      | resolveFactor f =>
        simp only [step, Except.ok.injEq] at hs1
        have hfr := getTimeConverter_SimTime_t_frame s f
        rw [hs1] at hfr
        exact ih (by rw [hfr.2.1]; exact hi) (by rw [hfr.1]; exact hp) hno1 h
      | getSimCycles u =>
        simp only [step] at hs1
        cases hr : s.getSimCycles parse u with
        | error e => rw [hr] at hs1; cases hs1
        | ok r =>
          obtain ⟨p, hp2, _⟩ := getSimCycles_ok (f := r.1) (t := r.2) hr
          obtain ⟨q, tc, s2, _, hq2, _⟩ :=
            (getTimeConverter_string_miss (hfindnone u) (p, r.2)).mp hp2
          rw [hq q] at hq2
          cases hq2

/-- A Time Lord on which `init` has been called exactly once has no stale `parseCache` entry. -/
theorem fresh_of_init_once {parse : String → Option UnitAlgebra} {ops0 ops1 : List Op}
    {tb : String} {s : TimeLord}
    (h : run parse TimeLord.new (ops0 ++ Op.init tb :: ops1) = .ok s)
    (h0 : ∀ op ∈ ops0, op.isInit = false) (h1 : ∀ op ∈ ops1, op.isInit = false) :
    Fresh parse s := by
  obtain ⟨m, hm, hrest⟩ := run_append h
  obtain ⟨_, hp⟩ := run_before_init (s := TimeLord.new) rfl rfl h0 hm
  simp only [run] at hrest
  cases hi : step parse m (Op.init tb) with
  | error e => rw [hi] at hrest; cases hrest
  | ok m1 =>
    rw [hi] at hrest
    exact run_fresh (init_fresh hp hi) h1 hrest

/-! ### The ratio and the factor -/

/-- The ratio of lines 58-66: `period / timeBase` for a time and `(1 / timeBase) / period` for
a frequency. -/
theorem uaFactor_value (s : TimeLord) (q : UnitAlgebra) :
    (q.hasUnits Units.sec = true →
        (s.uaFactor q).map UnitAlgebra.getValue = some (q.value / s.timeBase.value))
      ∧ (q.hasUnits Units.sec = false → q.hasUnits Units.Hz = true →
        (s.uaFactor q).map UnitAlgebra.getValue = some (1 / s.timeBase.value / q.value)) := by
  constructor
  · intro h
    simp [TimeLord.uaFactor, h, UnitAlgebra.div, UnitAlgebra.getValue]
  · intro h1 h2
    simp [TimeLord.uaFactor, h1, h2, UnitAlgebra.div, UnitAlgebra.invert, UnitAlgebra.getValue]

/-- In a coherent state, the converter that `resolve` of a quantity returns holds the rounded
ratio reduced modulo `2 ^ 64`, which is the rounded ratio itself when the ratio is not
negative. -/
theorem getTimeConverter_UnitAlgebra_factor {s t : TimeLord} {q : UnitAlgebra} {c : Ptr}
    (hs : Coherent s) (h : s.getTimeConverter_UnitAlgebra q = .ok (c, t)) :
    ∃ a : UnitAlgebra, s.uaFactor q = some a
      ∧ t.heap[c]? = some (toSimTime_t a.getRoundedValue)
      ∧ (0 ≤ a.getValue → ((toSimTime_t a.getRoundedValue : Nat) : Int) = a.getRoundedValue) := by
  obtain ⟨_, a, ha, hmax, hr⟩ := (getTimeConverter_UnitAlgebra_ok_iff s q (c, t)).mp h
  refine ⟨a, ha, ?_, ?_⟩
  · have hc := getTimeConverter_SimTime_t_coherent s (toSimTime_t a.getRoundedValue) hs
    have hf := getTimeConverter_SimTime_t_find s (toSimTime_t a.getRoundedValue)
    rw [← hr] at hc hf
    exact hc.tcMap_factor _ _ hf
  · intro h0
    exact toSimTime_t_of_nonneg a.getRoundedValue
      (a.le_getRoundedValue 0 (by simpa [UnitAlgebra.getValue] using h0))
      (a.getRoundedValue_le (MAX_SIMTIME_T : Int) (by simpa [UnitAlgebra.getValue] using hmax))

/-! ### Sample states -/

theorem samplePs_reachable : Reachable parseSI samplePs :=
  ⟨[Op.init "1ps"], by decide!⟩

theorem sampleNs_reachable : Reachable parseSI sampleNs :=
  ⟨[Op.init "1ns"], by decide!⟩

theorem sampleNs_fresh : Fresh parseSI sampleNs :=
  @init_fresh parseSI TimeLord.new sampleNs "1ns" rfl (by decide!)

/-! ## The claims -/

/-- C1: in a reachable state, when `resolve(u)` by string returns the converter `c`, then after
any sequence of further calls that return, `resolve(u)` returns the same address `c` and
leaves the state as it is, and the converter at `c` still holds the same factor. -/
theorem getTimeConverter_string_same_converter (parse : String → Option UnitAlgebra)
    (s s1 s2 : TimeLord) (u : String) (c : Ptr) (ops : List Op)
    (hs : Reachable parse s)
    (h1 : s.getTimeConverter_string parse u = .ok (c, s1))
    (hops : run parse s1 ops = .ok s2) :
    s2.getTimeConverter_string parse u = .ok (c, s2)
      ∧ ∃ f : Nat, s1.heap[c]? = some f ∧ s2.heap[c]? = some f := by
  obtain ⟨hfind, _, hc⟩ := getTimeConverter_string_ok h1
  obtain ⟨hext, _⟩ := run_ok hops
  refine ⟨getTimeConverter_string_hit (hext.parseCache u c hfind), ?_⟩
  have hc1 := hc hs.coherent
  obtain ⟨f, hf⟩ := hc1.parseCache_tcMap u c hfind
  have hheap := hc1.tcMap_factor f c hf
  exact ⟨f, hheap, hext.heap c f hheap⟩

theorem getTimeConverter_string_same_converter_witness :
    (samplePs.getTimeConverter_string parseSI "1GHz" = .ok (0, samplePsGHz)
      ∧ run parseSI samplePsGHz [Op.resolveFactor 7, Op.resolveString "1ns"] = .ok samplePsGHz7)
      ∧ (samplePsGHz7.getTimeConverter_string parseSI "1GHz" = .ok (0, samplePsGHz7)
        ∧ ∃ f : Nat, samplePsGHz.heap[0]? = some f ∧ samplePsGHz7.heap[0]? = some f) :=
  ⟨⟨by decide!, by decide!⟩,
    getTimeConverter_string_same_converter parseSI samplePs samplePsGHz samplePsGHz7 "1GHz" 0
      [Op.resolveFactor 7, Op.resolveString "1ns"] samplePs_reachable (by decide!) (by decide!)⟩

/-- C2 (as stated, refuted): after `init("1ns")` the strings "1us" and "1000ns" both ask for
1000 ticks and both resolve to the converter at address 1, but resolving both adds no entry
to `tcMap`: the converter for 1000 ticks was already created by `init`. -/
theorem resolve_1us_1000ns_adds_no_entry :
    TimeLord.init parseSI TimeLord.new "1ns" = .ok sampleNs
      ∧ requestedCycles parseSI sampleNs (.byString "1us") = some 1000
      ∧ requestedCycles parseSI sampleNs (.byString "1000ns") = some 1000
      ∧ sampleNs.getTimeConverter_string parseSI "1us" = .ok (1, sampleNs)
      ∧ sampleNs.getTimeConverter_string parseSI "1000ns" = .ok (1, sampleNs1000)
      ∧ sampleNs1000.heap[1]? = some 1000
      ∧ ¬ (sampleNs1000.tcMap.length = sampleNs.tcMap.length + 1) := by
  decide!

/-- Two times whose ratios round to the same tick count, `MAX_SIMTIME_T`: the first resolves,
the second is fatal. -/
theorem resolve_same_rounding_overflow :
    (maxTicksNs.div sampleNs.timeBase).getRoundedValue = (MAX_SIMTIME_T : Int)
      ∧ (quarterOver.div sampleNs.timeBase).getRoundedValue = (MAX_SIMTIME_T : Int)
      ∧ sampleNs.getTimeConverter_UnitAlgebra maxTicksNs = .ok (3, sampleNsMax)
      ∧ sampleNsMax.getTimeConverter_UnitAlgebra quarterOver = .error .ResolutionOverflow := by
  decide!

/-- After `init("1ns")` and then `init("1ps")` the entry of "1ns" in `parseCache` is stale:
"1ns" and "1000ps" both ask for 1000 ticks, and "1ns" resolves to the converter of factor 1,
"1000ps" to the converter of factor 1000. -/
theorem resolve_stale_after_second_init :
    run parseSI TimeLord.new [Op.init "1ns", Op.init "1ps"] = .ok sampleNsPs
      ∧ requestedCycles parseSI sampleNsPs (.byString "1ns") = some 1000
      ∧ requestedCycles parseSI sampleNsPs (.byString "1000ps") = some 1000
      ∧ sampleNsPs.getTimeConverter_string parseSI "1ns" = .ok (0, sampleNsPs)
      ∧ sampleNsPs.getTimeConverter_string parseSI "1000ps" = .ok (1, sampleNsPs1000)
      ∧ sampleNsPs1000.heap[0]? = some 1
      ∧ sampleNsPs1000.heap[1]? = some 1000 := by
  decide!

/-- C2 (amended): in a reachable state without stale `parseCache` entries, when two requests
(each by string, by quantity or by factor) ask for the same tick count `f` and both resolutions
return, the second returns the converter of the first, whose factor is `f`, and changes
neither `tcMap` nor the heap; the first adds exactly one `tcMap` entry when `f` had none and
no entry when `f` was already there. -/
theorem resolve_same_cycles_same_converter (parse : String → Option UnitAlgebra)
    (s s1 s2 : TimeLord) (r1 r2 : Request) (c1 c2 : Ptr) (f : Nat)
    (hs : Reachable parse s) (hfresh : Fresh parse s)
    (hf1 : requestedCycles parse s r1 = some f) (hf2 : requestedCycles parse s r2 = some f)
    (h1 : resolve parse s r1 = .ok (c1, s1)) (h2 : resolve parse s1 r2 = .ok (c2, s2)) :
    c2 = c1 ∧ s1.heap[c1]? = some f ∧ s2.tcMap = s1.tcMap ∧ s2.heap = s1.heap
      ∧ s1.tcMap.length = s.tcMap.length + (if Map.find s.tcMap f = none then 1 else 0) := by
  obtain ⟨hfresh1, hb1, hr1⟩ := resolve_ok hfresh h1
  obtain ⟨hc1, htc1, hheap1⟩ := hr1 f hf1
  obtain ⟨_, _, hr2⟩ := resolve_ok hfresh1 h2
  have hf2' : requestedCycles parse s1 r2 = some f := by
    rw [requestedCycles_congr hb1]; exact hf2
  obtain ⟨hc2, htc2, hheap2⟩ := hr2 f hf2'
  have hfind : Map.find s1.tcMap f = some c1 := by
    rw [htc1, hc1]; exact getTimeConverter_SimTime_t_find s f
  have hhit : s1.getTimeConverter_SimTime_t f = (c1, s1) := by
    simp [TimeLord.getTimeConverter_SimTime_t, hfind]
  rw [hhit] at hc2 htc2 hheap2
  refine ⟨hc2, ?_, htc2, hheap2, ?_⟩
  · rw [hheap1, hc1]
    exact (getTimeConverter_SimTime_t_coherent s f hs.coherent).tcMap_factor f _
      (getTimeConverter_SimTime_t_find s f)
  · rw [htc1]
    unfold TimeLord.getTimeConverter_SimTime_t
    cases hm : Map.find s.tcMap f with
    | none => simp [Map.length_set_of_find_none _ _ _ hm]
    | some p => simp

theorem resolve_same_cycles_same_converter_witness :
    (requestedCycles parseSI sampleNs (.byString "2us") = some 2000
      ∧ requestedCycles parseSI sampleNs (.byString "2000ns") = some 2000
      ∧ resolve parseSI sampleNs (.byString "2us") = .ok (3, sampleNs2us)
      ∧ resolve parseSI sampleNs2us (.byString "2000ns") = .ok (3, sampleNs2000ns))
      ∧ ((3 : Ptr) = 3 ∧ sampleNs2us.heap[(3 : Ptr)]? = some 2000
        ∧ sampleNs2000ns.tcMap = sampleNs2us.tcMap ∧ sampleNs2000ns.heap = sampleNs2us.heap
        ∧ sampleNs2us.tcMap.length
            = sampleNs.tcMap.length + (if Map.find sampleNs.tcMap 2000 = none then 1 else 0)) :=
  ⟨by decide!,
    resolve_same_cycles_same_converter parseSI sampleNs sampleNs2us sampleNs2000ns
      (.byString "2us") (.byString "2000ns") 3 3 2000 sampleNs_reachable sampleNs_fresh
      (by decide!) (by decide!) (by decide!) (by decide!)⟩

/-- C3: in a reachable state, `resolve(f)` by integer factor returns a converter whose factor
is `f`; when `f` has no entry in `tcMap` the converter is a new object, stored under `f`, and
nothing else changes; when `f` has an entry the stored converter is returned and the state is
unchanged; and a following `resolve(g)` returns the same converter exactly when `f = g`. -/
theorem getTimeConverter_SimTime_t_dedup (parse : String → Option UnitAlgebra)
    (s : TimeLord) (f g : Nat) (hs : Reachable parse s) :
    (s.getTimeConverter_SimTime_t f).2.heap[(s.getTimeConverter_SimTime_t f).1]? = some f
      ∧ (Map.find s.tcMap f = none →
          s.heap[(s.getTimeConverter_SimTime_t f).1]? = none
            ∧ (s.getTimeConverter_SimTime_t f).2 =
                { s with heap := s.heap ++ [f],
                         tcMap := Map.set s.tcMap f (s.getTimeConverter_SimTime_t f).1 }
            ∧ Map.find (s.getTimeConverter_SimTime_t f).2.tcMap f
                = some (s.getTimeConverter_SimTime_t f).1)
      ∧ (∀ p : Ptr, Map.find s.tcMap f = some p → s.getTimeConverter_SimTime_t f = (p, s))
      ∧ (((s.getTimeConverter_SimTime_t f).2.getTimeConverter_SimTime_t g).1
            = (s.getTimeConverter_SimTime_t f).1 ↔ f = g) := by
  have hc1 := getTimeConverter_SimTime_t_coherent s f hs.coherent
  have hf1 := getTimeConverter_SimTime_t_find s f
  refine ⟨hc1.tcMap_factor f _ hf1, ?_, ?_, ?_⟩
  · intro hmiss
    simp [TimeLord.getTimeConverter_SimTime_t, hmiss, Map.find_set_self]
  · intro p hp
    simp [TimeLord.getTimeConverter_SimTime_t, hp]
  · generalize s.getTimeConverter_SimTime_t f = r at hc1 hf1
    have hc2 := getTimeConverter_SimTime_t_coherent r.2 g hc1
    have hf2 := getTimeConverter_SimTime_t_find r.2 g
    have he2 := getTimeConverter_SimTime_t_extends r.2 g
    constructor
    · intro hp
      have a := hc2.tcMap_factor g _ hf2
      have b := hc2.tcMap_factor f _ (he2.tcMap f _ hf1)
      rw [hp, b] at a
      exact Option.some.inj a
    · intro hfg
      subst hfg
      simp [TimeLord.getTimeConverter_SimTime_t, hf1]

theorem getTimeConverter_SimTime_t_dedup_witness :
    (samplePs.getTimeConverter_SimTime_t 7).2.heap[(samplePs.getTimeConverter_SimTime_t 7).1]?
        = some 7
      ∧ (Map.find samplePs.tcMap 7 = none →
          samplePs.heap[(samplePs.getTimeConverter_SimTime_t 7).1]? = none
            ∧ (samplePs.getTimeConverter_SimTime_t 7).2 =
                { samplePs with heap := samplePs.heap ++ [7],
                                tcMap := Map.set samplePs.tcMap 7
                                  (samplePs.getTimeConverter_SimTime_t 7).1 }
            ∧ Map.find (samplePs.getTimeConverter_SimTime_t 7).2.tcMap 7
                = some (samplePs.getTimeConverter_SimTime_t 7).1)
      ∧ (∀ p : Ptr, Map.find samplePs.tcMap 7 = some p →
          samplePs.getTimeConverter_SimTime_t 7 = (p, samplePs))
      ∧ (((samplePs.getTimeConverter_SimTime_t 7).2.getTimeConverter_SimTime_t 1000).1
            = (samplePs.getTimeConverter_SimTime_t 7).1 ↔ 7 = 1000) :=
  getTimeConverter_SimTime_t_dedup parseSI samplePs 7 1000 samplePs_reachable

/-- C4: in a reachable state and for every string `u`, `getSimCycles(u)` is fatal exactly when
`resolve(u)` is, with the same condition, and when `resolve(u)` returns the converter `tc` and
the state `t`, `getSimCycles(u)` returns the factor held at `tc` and the same state `t`. -/
theorem getSimCycles_eq_getTimeConverter_string (parse : String → Option UnitAlgebra)
    (s : TimeLord) (u : String) (hs : Reachable parse s) :
    (∀ e : Fatal, s.getSimCycles parse u = .error e
        ↔ s.getTimeConverter_string parse u = .error e)
      ∧ (∀ (tc : Ptr) (t : TimeLord), s.getTimeConverter_string parse u = .ok (tc, t) →
          ∃ f : Nat, t.heap[tc]? = some f ∧ s.getSimCycles parse u = .ok (f, t)) := by
  have key : ∀ (tc : Ptr) (t : TimeLord), s.getTimeConverter_string parse u = .ok (tc, t) →
      ∃ f : Nat, t.heap[tc]? = some f ∧ s.getSimCycles parse u = .ok (f, t) := by
    intro tc t h
    obtain ⟨hfind, _, hc⟩ := getTimeConverter_string_ok h
    have hct := hc hs.coherent
    obtain ⟨f, hf⟩ := hct.parseCache_tcMap u tc hfind
    have hheap := hct.tcMap_factor f tc hf
    refine ⟨f, hheap, ?_⟩
    rw [getSimCycles_eq, h]
    simp [TimeLord.getFactor, hheap]
  refine ⟨?_, key⟩
  intro e
  cases hr : s.getTimeConverter_string parse u with
  | error e1 =>
    rw [getSimCycles_eq, hr]
  | ok r =>
    obtain ⟨tc, t⟩ := r
    obtain ⟨f, _, hg⟩ := key tc t hr
    rw [hg]
    constructor <;> intro h <;> cases h

theorem getSimCycles_eq_getTimeConverter_string_witness :
    (∀ e : Fatal, samplePs.getSimCycles parseSI "1GHz" = .error e
        ↔ samplePs.getTimeConverter_string parseSI "1GHz" = .error e)
      ∧ (∀ (tc : Ptr) (t : TimeLord),
          samplePs.getTimeConverter_string parseSI "1GHz" = .ok (tc, t) →
          ∃ f : Nat, t.heap[tc]? = some f ∧ samplePs.getSimCycles parseSI "1GHz" = .ok (f, t)) :=
  getSimCycles_eq_getTimeConverter_string parseSI samplePs "1GHz" samplePs_reachable

/-- C5: on the Time Lord initialized with "1ps", the quantity of minus one nanosecond has the
ratio -1000 against the time base, which rounds to -1000; `resolve` does not reject it and
returns a new converter whose factor is `2 ^ 64 - 1000`, not the rounded ratio. -/
theorem getTimeConverter_UnitAlgebra_minusOneNs :
    TimeLord.init parseSI TimeLord.new "1ps" = .ok samplePs
      ∧ minusOneNs.hasUnits Units.sec = true
      ∧ (minusOneNs.div samplePs.timeBase).getValue = -1000
      ∧ (minusOneNs.div samplePs.timeBase).getRoundedValue = -1000
      ∧ samplePs.getTimeConverter_UnitAlgebra minusOneNs = .ok (3, samplePsMinus)
      ∧ samplePsMinus.heap[3]? = some (2 ^ 64 - 1000)
      ∧ ((2 ^ 64 - 1000 : Nat) : Int) ≠ (minusOneNs.div samplePs.timeBase).getRoundedValue := by
  decide!

/-- C6 (as stated, refuted): on the Time Lord as constructed, on which `init` has not been
called, `resolve(5)` by integer factor is not fatal: it returns a new converter with factor 5. -/
theorem getTimeConverter_SimTime_t_before_init :
    TimeLord.new.initialized = false
      ∧ resolve parseSI TimeLord.new (.byFactor 5) = .ok (0, sampleNew5)
      ∧ sampleNew5.heap[0]? = some 5
      ∧ resolve parseSI TimeLord.new (.byFactor 5) ≠ .error .UninitializedAuthority := by
  decide!

/-- C6 (amended): in every state reached from the Time Lord as constructed by calls none of
which is `init`, `resolve` of any quantity, and `resolve` and `getSimCycles` of any string the
quantity parser accepts, are fatal with UninitializedAuthority; `resolve` by integer factor
makes no such check and returns a converter whose factor is the one asked for. -/
theorem resolve_before_init (parse : String → Option UnitAlgebra) (ops : List Op)
    (s : TimeLord) (hops : run parse TimeLord.new ops = .ok s)
    (hno : ∀ op ∈ ops, op.isInit = false) :
    (∀ q : UnitAlgebra, s.getTimeConverter_UnitAlgebra q = .error .UninitializedAuthority)
      ∧ (∀ (u : String) (q : UnitAlgebra), parse u = some q →
          s.getTimeConverter_string parse u = .error .UninitializedAuthority
            ∧ s.getSimCycles parse u = .error .UninitializedAuthority)
      ∧ (∀ f : Nat, ∃ (c : Ptr) (t : TimeLord),
          resolve parse s (.byFactor f) = .ok (c, t) ∧ t.heap[c]? = some f) := by
  obtain ⟨hi, hp⟩ := run_before_init (s := TimeLord.new) rfl rfl hno hops
  have hq : ∀ q : UnitAlgebra, s.getTimeConverter_UnitAlgebra q
      = .error .UninitializedAuthority := by
    intro q
    simp [TimeLord.getTimeConverter_UnitAlgebra, hi]
  have hstr : ∀ (u : String) (q : UnitAlgebra), parse u = some q →
      s.getTimeConverter_string parse u = .error .UninitializedAuthority := by
    intro u q hu
    simp [TimeLord.getTimeConverter_string, TimeLord.parseUnitAlgebra, hp, Map.find, hu, hq q]
  refine ⟨hq, ?_, ?_⟩
  · intro u q hu
    refine ⟨hstr u q hu, ?_⟩
    rw [getSimCycles_eq, hstr u q hu]
  · intro f
    refine ⟨_, _, rfl, ?_⟩
    exact (getTimeConverter_SimTime_t_coherent s f (Reachable.coherent ⟨ops, hops⟩)).tcMap_factor
      f _ (getTimeConverter_SimTime_t_find s f)

theorem resolve_before_init_witness :
    (run parseSI TimeLord.new [Op.resolveFactor 5] = .ok sampleNew5
      ∧ ∀ op ∈ [Op.resolveFactor 5], op.isInit = false)
      ∧ ((∀ q : UnitAlgebra,
            sampleNew5.getTimeConverter_UnitAlgebra q = .error .UninitializedAuthority)
        ∧ (∀ (u : String) (q : UnitAlgebra), parseSI u = some q →
            sampleNew5.getTimeConverter_string parseSI u = .error .UninitializedAuthority
              ∧ sampleNew5.getSimCycles parseSI u = .error .UninitializedAuthority)
        ∧ (∀ f : Nat, ∃ (c : Ptr) (t : TimeLord),
            resolve parseSI sampleNew5 (.byFactor f) = .ok (c, t) ∧ t.heap[c]? = some f)) :=
  ⟨⟨by decide!, by simp [Op.isInit]⟩,
    resolve_before_init parseSI [Op.resolveFactor 5] sampleNew5 (by decide!)
      (by simp [Op.isInit])⟩

/-- C7: on an initialized Time Lord, `resolve` of a quantity is fatal with UnsupportedUnit
exactly when the quantity has neither the unit "s" nor the unit "Hz". -/
theorem getTimeConverter_UnitAlgebra_unsupported_iff (s : TimeLord) (q : UnitAlgebra)
    (hi : s.initialized = true) :
    s.getTimeConverter_UnitAlgebra q = .error .UnsupportedUnit
      ↔ (q.hasUnits Units.sec = false ∧ q.hasUnits Units.Hz = false) := by
  unfold TimeLord.getTimeConverter_UnitAlgebra TimeLord.uaFactor
  simp only [hi, Bool.true_eq_false, if_false]
  cases h1 : q.hasUnits Units.sec with
  | true =>
    simp only [if_true, Bool.true_eq_false, false_and, iff_false]
    split_ifs <;> simp
  | false =>
    cases h2 : q.hasUnits Units.Hz with
    | true =>
      simp only [Bool.false_eq_true, if_false, if_true, Bool.true_eq_false, and_false, iff_false]
      split_ifs <;> simp
    | false => simp

theorem getTimeConverter_UnitAlgebra_unsupported_iff_witness :
    samplePs.initialized = true
      ∧ (samplePs.getTimeConverter_UnitAlgebra ⟨1, Units.metre⟩ = .error .UnsupportedUnit
        ↔ ((⟨1, Units.metre⟩ : UnitAlgebra).hasUnits Units.sec = false
          ∧ (⟨1, Units.metre⟩ : UnitAlgebra).hasUnits Units.Hz = false)) :=
  ⟨rfl, getTimeConverter_UnitAlgebra_unsupported_iff samplePs ⟨1, Units.metre⟩ rfl⟩

/-- C8 (as stated, refuted): on the Time Lord initialized with "1ns", a time of
`MAX_SIMTIME_T + 1/4` nanoseconds has a ratio that rounds to `MAX_SIMTIME_T`, which does not
exceed `MAX_SIMTIME_T`, and yet `resolve` is fatal with ResolutionOverflow. -/
theorem getTimeConverter_UnitAlgebra_quarterOver :
    sampleNs.initialized = true
      ∧ quarterOver.hasUnits Units.sec = true
      ∧ (quarterOver.div sampleNs.timeBase).getValue = (MAX_SIMTIME_T : ℚ) + 1 / 4
      ∧ (quarterOver.div sampleNs.timeBase).getRoundedValue = (MAX_SIMTIME_T : Int)
      ∧ ¬ ((quarterOver.div sampleNs.timeBase).getRoundedValue > (MAX_SIMTIME_T : Int))
      ∧ sampleNs.getTimeConverter_UnitAlgebra quarterOver = .error .ResolutionOverflow := by
  decide!

/-- C8 (amended): on an initialized Time Lord and for a quantity with a time or frequency
unit, whose ratio against the time base is `a`, `resolve` is fatal with ResolutionOverflow
exactly when the ratio itself, not yet rounded, exceeds `MAX_SIMTIME_T`; and when the ratio
is at least 0 and at most `MAX_SIMTIME_T`, `resolve` returns what `resolve` by integer factor
returns for the rounded ratio, which is at most `MAX_SIMTIME_T`. -/
theorem getTimeConverter_UnitAlgebra_overflow_iff (s : TimeLord) (q a : UnitAlgebra)
    (hi : s.initialized = true) (ha : s.uaFactor q = some a) :
    (s.getTimeConverter_UnitAlgebra q = .error .ResolutionOverflow
        ↔ (MAX_SIMTIME_T : ℚ) < a.getValue)
      ∧ (0 ≤ a.getValue → a.getValue ≤ (MAX_SIMTIME_T : ℚ) →
          ∃ f : Nat, (f : Int) = a.getRoundedValue ∧ f ≤ MAX_SIMTIME_T
            ∧ s.getTimeConverter_UnitAlgebra q = .ok (s.getTimeConverter_SimTime_t f)) := by
  constructor
  · unfold TimeLord.getTimeConverter_UnitAlgebra
    simp only [hi, ha, Bool.true_eq_false, if_false]
    by_cases hv : a.getValue > (MAX_SIMTIME_T : ℚ)
    · simp [hv]
    · simp only [hv, if_false, iff_false]
      intro h
      cases h
  · intro h0 h1
    have hr0 : (0 : Int) ≤ a.getRoundedValue :=
      a.le_getRoundedValue 0 (by simpa [UnitAlgebra.getValue] using h0)
    have hr1 : a.getRoundedValue ≤ (MAX_SIMTIME_T : Int) :=
      a.getRoundedValue_le (MAX_SIMTIME_T : Int) (by simpa [UnitAlgebra.getValue] using h1)
    have hto := toSimTime_t_of_nonneg a.getRoundedValue hr0 hr1
    refine ⟨toSimTime_t a.getRoundedValue, hto, ?_, ?_⟩
    · have : ((toSimTime_t a.getRoundedValue : Nat) : Int) ≤ (MAX_SIMTIME_T : Int) := by
        rw [hto]; exact hr1
      exact_mod_cast this
    · exact (getTimeConverter_UnitAlgebra_ok_iff s q _).mpr ⟨hi, a, ha, h1, rfl⟩

theorem getTimeConverter_UnitAlgebra_overflow_iff_witness :
    (samplePs.initialized = true
      ∧ samplePs.uaFactor ⟨1 / 10 ^ 9, Units.sec⟩ = some ⟨1000, ⟨0, 0⟩⟩)
      ∧ ((samplePs.getTimeConverter_UnitAlgebra ⟨1 / 10 ^ 9, Units.sec⟩
            = .error .ResolutionOverflow
          ↔ (MAX_SIMTIME_T : ℚ) < (⟨1000, ⟨0, 0⟩⟩ : UnitAlgebra).getValue)
        ∧ (0 ≤ (⟨1000, ⟨0, 0⟩⟩ : UnitAlgebra).getValue →
            (⟨1000, ⟨0, 0⟩⟩ : UnitAlgebra).getValue ≤ (MAX_SIMTIME_T : ℚ) →
            ∃ f : Nat, (f : Int) = (⟨1000, ⟨0, 0⟩⟩ : UnitAlgebra).getRoundedValue
              ∧ f ≤ MAX_SIMTIME_T
              ∧ samplePs.getTimeConverter_UnitAlgebra ⟨1 / 10 ^ 9, Units.sec⟩
                  = .ok (samplePs.getTimeConverter_SimTime_t f))) :=
  ⟨⟨rfl, by decide!⟩,
    getTimeConverter_UnitAlgebra_overflow_iff samplePs ⟨1 / 10 ^ 9, Units.sec⟩
      ⟨1000, ⟨0, 0⟩⟩ rfl (by decide!)⟩

/-- C9: on the Time Lord initialized with "1fs", `resolve("1ys")` is not fatal: the ratio
`1 / 10 ^ 9` is not above `MAX_SIMTIME_T`, it rounds to 0, and a new converter with factor 0
is returned and cached. -/
theorem getTimeConverter_string_1ys :
    TimeLord.init parseSI TimeLord.new "1fs" = .ok sampleFs
      ∧ parseSI "1ys" = some ⟨1 / 10 ^ 24, Units.sec⟩
      ∧ ((⟨1 / 10 ^ 24, Units.sec⟩ : UnitAlgebra).div sampleFs.timeBase).getValue = 1 / 10 ^ 9
      ∧ sampleFs.getTimeConverter_string parseSI "1ys" = .ok (3, sampleFsYs)
      ∧ sampleFsYs.heap[3]? = some 0
      ∧ sampleFs.getTimeConverter_string parseSI "1ys" ≠ .error .ResolutionOverflow := by
  decide!

/-! ### Factors of at least 1 -/

theorem factorsPositiveUnless_of_imp {z w : Prop} {s : TimeLord} (h : z → w)
    (hs : FactorsPositiveUnless z s) : FactorsPositiveUnless w s :=
  ⟨fun p f hp => (hs.1 p f hp).imp id (fun hz => ⟨hz.1, h hz.2⟩), hs.2⟩

theorem getTimeConverter_SimTime_t_factor {s : TimeLord} (hc : Coherent s) (f : Nat) :
    (s.getTimeConverter_SimTime_t f).2.heap[(s.getTimeConverter_SimTime_t f).1]? = some f :=
  (getTimeConverter_SimTime_t_coherent s f hc).tcMap_factor f _
    (getTimeConverter_SimTime_t_find s f)

theorem getTimeConverter_SimTime_t_factorsPositive {z : Prop} {s : TimeLord} {f : Nat}
    (hf : 1 ≤ f ∨ (f = 0 ∧ z)) (hs : FactorsPositiveUnless z s) :
    FactorsPositiveUnless z (s.getTimeConverter_SimTime_t f).2 := by
  have hext := getTimeConverter_SimTime_t_extends s f
  have hfr := (getTimeConverter_SimTime_t_frame s f).1
  refine ⟨?_, ?_⟩
  · revert hext hfr
    unfold TimeLord.getTimeConverter_SimTime_t
    cases h : Map.find s.tcMap f with
    | some p => intro _ _; exact hs.1
    | none =>
      intro _ _ p g hp
      by_cases hlt : p < s.heap.length
      · simp only [List.getElem?_append_left hlt] at hp
        exact hs.1 p g hp
      · have hp2 : p < s.heap.length + 1 := by
          have hlt2 := (List.getElem?_eq_some_iff.mp hp).1
          simpa using hlt2
        have hpe : p = s.heap.length :=
          Nat.le_antisymm (Nat.le_of_lt_succ hp2) (Nat.le_of_not_lt hlt)
        subst hpe
        simp at hp
        subst hp
        exact hf
  · intro u p hu
    rw [hfr] at hu
    obtain ⟨g, hg, hg1⟩ := hs.2 u p hu
    exact ⟨g, hext.heap p g hg, hg1⟩

theorem roundsToWholeTicks_congr {s t : TimeLord} (h : t.timeBase = s.timeBase)
    (q : UnitAlgebra) : roundsToWholeTicks t q = roundsToWholeTicks s q := by
  simp [roundsToWholeTicks, TimeLord.uaFactor, h]

theorem Request.asksWholeTicks_congr {parse : String → Option UnitAlgebra} {s t : TimeLord}
    (h : t.timeBase = s.timeBase) (r : Request) :
    Request.asksWholeTicks parse t r = Request.asksWholeTicks parse s r := by
  have hfun : roundsToWholeTicks t = roundsToWholeTicks s := funext (roundsToWholeTicks_congr h)
  cases r <;> simp [Request.asksWholeTicks, hfun]

theorem getTimeConverter_UnitAlgebra_wholeTicks {s : TimeLord} {q : UnitAlgebra}
    {r : Ptr × TimeLord} (h : s.getTimeConverter_UnitAlgebra q = .ok r)
    (hq : roundsToWholeTicks s q = true) :
    ∃ k : Nat, 1 ≤ k ∧ r = s.getTimeConverter_SimTime_t k := by
  obtain ⟨_, a, ha, hv, hr⟩ := (getTimeConverter_UnitAlgebra_ok_iff s q r).mp h
  simp only [roundsToWholeTicks, ha, decide_eq_true_eq] at hq
  have hmax : a.getRoundedValue ≤ (MAX_SIMTIME_T : Int) :=
    UnitAlgebra.getRoundedValue_le a (MAX_SIMTIME_T : Int) (by exact_mod_cast hv)
  have hcast := toSimTime_t_of_nonneg a.getRoundedValue (by omega) hmax
  exact ⟨toSimTime_t a.getRoundedValue, by omega, hr⟩

theorem getTimeConverter_string_factorsPositive {parse : String → Option UnitAlgebra}
    {z : Prop} {s t : TimeLord} {u : String} {p : Ptr}
    (h : s.getTimeConverter_string parse u = .ok (p, t))
    (hu : Request.asksWholeTicks parse s (.byString u) = true) (hc : Coherent s)
    (hs : FactorsPositiveUnless z s) :
    FactorsPositiveUnless z t ∧ ∃ f : Nat, t.heap[p]? = some f ∧ 1 ≤ f := by
  cases hm : Map.find s.parseCache u with
  | some c =>
    rw [getTimeConverter_string_hit hm] at h
    cases h
    exact ⟨hs, hs.2 u p hm⟩
  | none =>
    obtain ⟨q, tc, s1, hq, hua, hr⟩ := (getTimeConverter_string_miss hm (p, t)).mp h
    simp only [Request.asksWholeTicks, hq] at hu
    obtain ⟨k, hk, hk2⟩ := getTimeConverter_UnitAlgebra_wholeTicks hua hu
    have h1 : FactorsPositiveUnless z s1 := by
      have := @getTimeConverter_SimTime_t_factorsPositive z s k (Or.inl hk) hs
      rw [← hk2] at this
      exact this
    have hfac : s1.heap[tc]? = some k := by
      have := getTimeConverter_SimTime_t_factor hc k
      rw [← hk2] at this
      exact this
    cases hr
    refine ⟨⟨h1.1, ?_⟩, k, hfac, hk⟩
    intro v pv hv
    by_cases huv : u = v
    · subst huv
      simp only [Map.find_set_self] at hv
      cases hv
      exact ⟨k, hfac, hk⟩
    · simp only [Map.find_set_ne s1.parseCache u v _ huv] at hv
      exact h1.2 v pv hv

theorem init_factorsPositive {parse : String → Option UnitAlgebra} {z : Prop}
    {s t : TimeLord} {tb : String} (h : s.init parse tb = .ok t)
    (hask : Op.asksWholeTicks parse s (.init tb) = true) (hc : Coherent s)
    (hs : FactorsPositiveUnless z s) : FactorsPositiveUnless z t := by
  unfold TimeLord.init TimeLord.parseUnitAlgebra at h
  cases hp : parse tb with
  | none => rw [hp] at h; cases h
  | some b =>
    rw [hp] at h
    simp only at h
    simp only [Op.asksWholeTicks, hp, Bool.and_eq_true] at hask
    obtain ⟨⟨a1, a2⟩, a3⟩ := hask
    generalize hs0 : ({ s with initialized := true, timeBaseString := tb, timeBase := b } :
      TimeLord) = s0 at h
    have hb0 : s0.timeBase = b := by subst hs0; rfl
    have p0 : FactorsPositiveUnless z s0 := by subst hs0; exact hs
    have c0 : Coherent s0 := by
      subst hs0
      exact ⟨hc.tcMap_factor, hc.heap_tcMap, hc.parseCache_tcMap⟩
    cases h1 : s0.getTimeConverter_string parse "1ns" with
    | error e => rw [h1] at h; cases h
    | ok r1 =>
      obtain ⟨p1, s1⟩ := r1
      rw [h1] at h
      simp only at h
      cases h2 : s1.getTimeConverter_string parse "1us" with
      | error e => rw [h2] at h; cases h
      | ok r2 =>
        obtain ⟨p2, s2⟩ := r2
        rw [h2] at h
        simp only at h
        cases h3 : s2.getTimeConverter_string parse "1ms" with
        | error e => rw [h3] at h; cases h
        | ok r3 =>
          obtain ⟨p3, s3⟩ := r3
          rw [h3] at h
          simp only at h
          cases h
          have b1 : s1.timeBase = b := by rw [(getTimeConverter_string_frame h1).2, hb0]
          have b2 : s2.timeBase = b := by rw [(getTimeConverter_string_frame h2).2, b1]
          have c1 := (getTimeConverter_string_ok h1).2.2 c0
          have c2 := (getTimeConverter_string_ok h2).2.2 c1
          have q1 := (getTimeConverter_string_factorsPositive h1
            (by rw [@Request.asksWholeTicks_congr parse { s with timeBase := b } s0 hb0]
                exact a1) c0 p0).1
          have q2 := (getTimeConverter_string_factorsPositive h2
            (by rw [@Request.asksWholeTicks_congr parse { s with timeBase := b } s1 b1]
                exact a2) c1 q1).1
          have q3 := (getTimeConverter_string_factorsPositive h3
            (by rw [@Request.asksWholeTicks_congr parse { s with timeBase := b } s2 b2]
                exact a3) c2 q2).1
          exact q3

theorem step_factorsPositive {parse : String → Option UnitAlgebra} {z : Prop}
    {s t : TimeLord} {op : Op} (h : step parse s op = .ok t)
    (hask : (op.isResolveZero || Op.asksWholeTicks parse s op) = true) (hc : Coherent s)
    (hs : FactorsPositiveUnless z s) :
    FactorsPositiveUnless (z ∨ op = Op.resolveFactor 0) t := by
  cases op with
  | init tb =>
    simp only [Op.isResolveZero, Bool.false_or] at hask
    exact factorsPositiveUnless_of_imp Or.inl
      (init_factorsPositive (show s.init parse tb = .ok t from h) hask hc hs)
  | resolveString u =>
    simp only [Op.isResolveZero, Bool.false_or] at hask
    simp only [step] at h
    cases hr : s.getTimeConverter_string parse u with
    | error e => rw [hr] at h; cases h
    | ok r =>
      obtain ⟨p, t1⟩ := r
      rw [hr] at h
      cases h
      exact factorsPositiveUnless_of_imp Or.inl
        (getTimeConverter_string_factorsPositive hr hask hc hs).1
  | resolveQuantity q =>
    simp only [Op.isResolveZero, Bool.false_or] at hask
    simp only [step] at h
    cases hr : s.getTimeConverter_UnitAlgebra q with
    | error e => rw [hr] at h; cases h
    | ok r =>
      rw [hr] at h
      cases h
      obtain ⟨k, hk, hk2⟩ := getTimeConverter_UnitAlgebra_wholeTicks hr hask
      rw [hk2]
      exact factorsPositiveUnless_of_imp Or.inl
        (getTimeConverter_SimTime_t_factorsPositive (Or.inl hk) hs)
  | resolveFactor f =>
    simp only [step] at h
    cases h
    simp only [Op.isResolveZero, Op.asksWholeTicks, Request.asksWholeTicks, Bool.or_eq_true,
      decide_eq_true_eq] at hask
    apply getTimeConverter_SimTime_t_factorsPositive _ (factorsPositiveUnless_of_imp Or.inl hs)
    rcases hask with h0 | h1
    · exact Or.inr ⟨h0, Or.inr (by rw [h0])⟩
    · exact Or.inl h1
  | getSimCycles u =>
    simp only [Op.isResolveZero, Bool.false_or] at hask
    simp only [step] at h
    cases hr : s.getSimCycles parse u with
    | error e => rw [hr] at h; cases h
    | ok r =>
      obtain ⟨f, t1⟩ := r
      rw [hr] at h
      cases h
      obtain ⟨p, hp, _⟩ := getSimCycles_ok hr
      exact factorsPositiveUnless_of_imp Or.inl
        (getTimeConverter_string_factorsPositive hp hask hc hs).1

theorem run_factorsPositive {parse : String → Option UnitAlgebra} {ops : List Op} {z : Prop}
    {s t : TimeLord} (h : run parse s ops = .ok t)
    (hask : allWholeTicksOrZero parse s ops = true) (hc : Coherent s)
    (hs : FactorsPositiveUnless z s) :
    FactorsPositiveUnless (z ∨ Op.resolveFactor 0 ∈ ops) t := by
  induction ops generalizing s z with
  | nil =>
    simp only [run] at h
    cases h
    exact factorsPositiveUnless_of_imp Or.inl hs
  | cons op ops ih =>
    simp only [run] at h
    cases hs1 : step parse s op with
    | error e => rw [hs1] at h; cases h
    | ok s1 =>
      rw [hs1] at h
      simp only [allWholeTicksOrZero, hs1, Bool.and_eq_true] at hask
      have h1 := step_factorsPositive hs1 hask.1 hc hs
      refine factorsPositiveUnless_of_imp ?_ (ih h hask.2 ((step_ok hs1).2 hc) h1)
      rintro ((hz | hop) | hmem)
      · exact Or.inl hz
      · exact Or.inr (by rw [hop]; exact List.mem_cons_self _ _)
      · exact Or.inr (List.mem_cons_of_mem _ hmem)

/-- C10 (as stated, refuted): on the Time Lord as constructed, `resolve(0)` by integer factor
creates and returns a converter whose factor is 0, which is not at least 1. -/
theorem getTimeConverter_SimTime_t_zero :
    (TimeLord.new.getTimeConverter_SimTime_t 0).1 = 0
      ∧ (TimeLord.new.getTimeConverter_SimTime_t 0).2.heap[0]? = some 0
      ∧ ¬ (∀ f : Nat, (TimeLord.new.getTimeConverter_SimTime_t 0).2.heap[0]? = some f → 1 ≤ f) := by
  refine ⟨by decide, by decide, ?_⟩
  intro h
  exact absurd (h 0 (by decide)) (by decide)

/-- C10 (amended): in every state that a sequence of calls reaches from the Time Lord as
constructed, when every call of the sequence either is `resolve(0)` by integer factor or asks
for at least one tick (an integer factor of at least 1, a quantity whose ratio to the time
base rounds to at least 1): every converter allocated has a factor of at least 1, unless its
factor is 0 and `resolve(0)` by integer factor is among the calls; the converter that a
further request for at least one tick returns has a factor of at least 1; and `resolve(0)` by
integer factor returns a converter whose factor is 0. -/
theorem converter_factor_positive (parse : String → Option UnitAlgebra) (ops : List Op)
    (s : TimeLord) (hrun : run parse TimeLord.new ops = .ok s)
    (hask : allWholeTicksOrZero parse TimeLord.new ops = true) :
    (∀ (p : Ptr) (f : Nat), s.heap[p]? = some f →
        1 ≤ f ∨ (f = 0 ∧ Op.resolveFactor 0 ∈ ops))
      ∧ (∀ (r : Request) (c : Ptr) (t : TimeLord), Request.asksWholeTicks parse s r = true →
          resolve parse s r = .ok (c, t) → ∃ f : Nat, t.heap[c]? = some f ∧ 1 ≤ f)
      ∧ (s.getTimeConverter_SimTime_t 0).2.heap[(s.getTimeConverter_SimTime_t 0).1]? = some 0 := by
  have hc : Coherent s := (run_ok hrun).2 Coherent.new
  have hnew : FactorsPositiveUnless False TimeLord.new :=
    ⟨fun p f hp => by simp [TimeLord.new] at hp, fun u p hu => by simp [TimeLord.new, Map.find] at hu⟩
  have hpos := run_factorsPositive hrun hask Coherent.new hnew
  refine ⟨fun p f hp => (hpos.1 p f hp).imp id (fun hz => ⟨hz.1, hz.2.resolve_left id⟩), ?_,
    getTimeConverter_SimTime_t_factor hc 0⟩
  intro r c t hr h
  cases r with
  | byString u =>
    exact (getTimeConverter_string_factorsPositive
      (show s.getTimeConverter_string parse u = .ok (c, t) from h) hr hc hpos).2
  | byQuantity q =>
    obtain ⟨k, hk, hk2⟩ := getTimeConverter_UnitAlgebra_wholeTicks
      (show s.getTimeConverter_UnitAlgebra q = .ok (c, t) from h) hr
    have hfac := getTimeConverter_SimTime_t_factor hc k
    rw [← hk2] at hfac
    exact ⟨k, hfac, hk⟩
  | byFactor f =>
    simp only [resolve, Except.ok.injEq] at h
    simp only [Request.asksWholeTicks, decide_eq_true_eq] at hr
    have hfac := getTimeConverter_SimTime_t_factor hc f
    rw [h] at hfac
    exact ⟨f, hfac, hr⟩

theorem converter_factor_positive_witness :
    (run parseSI TimeLord.new
        [Op.init "1ps", Op.resolveFactor 0, Op.resolveString "1GHz", Op.resolveFactor 7]
        = .ok samplePsZero7
      ∧ allWholeTicksOrZero parseSI TimeLord.new
          [Op.init "1ps", Op.resolveFactor 0, Op.resolveString "1GHz", Op.resolveFactor 7]
          = true)
      ∧ ((∀ (p : Ptr) (f : Nat), samplePsZero7.heap[p]? = some f →
          1 ≤ f ∨ (f = 0 ∧ Op.resolveFactor 0 ∈
            [Op.init "1ps", Op.resolveFactor 0, Op.resolveString "1GHz", Op.resolveFactor 7]))
        ∧ (∀ (r : Request) (c : Ptr) (t : TimeLord),
            Request.asksWholeTicks parseSI samplePsZero7 r = true →
            resolve parseSI samplePsZero7 r = .ok (c, t) →
            ∃ f : Nat, t.heap[c]? = some f ∧ 1 ≤ f)
        ∧ (samplePsZero7.getTimeConverter_SimTime_t 0).2.heap[
            (samplePsZero7.getTimeConverter_SimTime_t 0).1]? = some 0) :=
  ⟨⟨by decide!, by decide!⟩,
    converter_factor_positive parseSI
      [Op.init "1ps", Op.resolveFactor 0, Op.resolveString "1GHz", Op.resolveFactor 7]
      samplePsZero7 (by decide!) (by decide!)⟩

/-- C11: every call other than the destructor (`init`, `resolve` by string, by quantity or by
factor, `getSimCycles`) that returns keeps every entry of `parseCache` and of `tcMap` under the
same key with the same converter address, and keeps the factor held at every allocated
address. -/
theorem step_keeps_entries (parse : String → Option UnitAlgebra) (s t : TimeLord) (op : Op)
    (h : step parse s op = .ok t) :
    (∀ (u : String) (p : Ptr), Map.find s.parseCache u = some p →
        Map.find t.parseCache u = some p)
      ∧ (∀ (f : Nat) (p : Ptr), Map.find s.tcMap f = some p → Map.find t.tcMap f = some p)
      ∧ (∀ (p : Ptr) (f : Nat), s.heap[p]? = some f → t.heap[p]? = some f) := by
  obtain ⟨e, _⟩ := step_ok h
  exact ⟨e.parseCache, e.tcMap, e.heap⟩

theorem step_keeps_entries_witness :
    step parseSI samplePs (Op.resolveString "1GHz") = .ok samplePsGHz
      ∧ ((∀ (u : String) (p : Ptr), Map.find samplePs.parseCache u = some p →
          Map.find samplePsGHz.parseCache u = some p)
        ∧ (∀ (f : Nat) (p : Ptr), Map.find samplePs.tcMap f = some p →
          Map.find samplePsGHz.tcMap f = some p)
        ∧ (∀ (p : Ptr) (f : Nat), samplePs.heap[p]? = some f →
          samplePsGHz.heap[p]? = some f)) :=
  ⟨by decide!, step_keeps_entries parseSI samplePs samplePsGHz (Op.resolveString "1GHz")
    (by decide!)⟩

/-! ### The keys of tcMap and the destructor -/

theorem Map.find_eq_none_iff {κ ν : Type} [DecidableEq κ] (m : List (κ × ν)) (k : κ) :
    Map.find m k = none ↔ k ∉ m.map Prod.fst := by
  induction m with
  | nil => simp [Map.find]
  | cons e r ih =>
    obtain ⟨k1, v1⟩ := e
    by_cases h : k1 = k
    · simp [Map.find, h]
    · have h2 : ¬ k = k1 := fun hh => h hh.symm
      simp [Map.find, h, h2, ih]

theorem Map.mem_of_find {κ ν : Type} [DecidableEq κ] (m : List (κ × ν)) (k : κ) (v : ν)
    (h : Map.find m k = some v) : (k, v) ∈ m := by
  induction m with
  | nil => simp [Map.find] at h
  | cons e r ih =>
    obtain ⟨k1, v1⟩ := e
    by_cases h1 : k1 = k
    · simp [Map.find, h1] at h
      simp [h1, h]
    · simp [Map.find, h1] at h
      exact List.mem_cons_of_mem _ (ih h)

theorem Map.find_of_mem {κ ν : Type} [DecidableEq κ] (m : List (κ × ν)) (k : κ) (v : ν)
    (hn : (m.map Prod.fst).Nodup) (h : (k, v) ∈ m) : Map.find m k = some v := by
  induction m with
  | nil => simp at h
  | cons e r ih =>
    obtain ⟨k1, v1⟩ := e
    simp only [List.map_cons, List.nodup_cons] at hn
    rcases List.mem_cons.mp h with heq | hmem
    · cases heq
      simp [Map.find]
    · have hne : k1 ≠ k := by
        intro hk
        subst hk
        exact hn.1 (List.mem_map.mpr ⟨(k1, v), hmem, rfl⟩)
      simp only [Map.find, hne, if_false]
      exact ih hn.2 hmem

theorem Map.keys_set_of_find_none {κ ν : Type} [DecidableEq κ] (m : List (κ × ν)) (k : κ)
    (v : ν) (h : Map.find m k = none) :
    (Map.set m k v).map Prod.fst = m.map Prod.fst ++ [k] := by
  induction m with
  | nil => simp [Map.set]
  | cons e r ih =>
    obtain ⟨k1, v1⟩ := e
    by_cases h1 : k1 = k
    · simp [Map.find, h1] at h
    · simp [Map.find, h1] at h
      simp [Map.set, h1, ih h]

theorem getTimeConverter_SimTime_t_keys (s : TimeLord) (f : Nat)
    (hs : (s.tcMap.map Prod.fst).Nodup) :
    ((s.getTimeConverter_SimTime_t f).2.tcMap.map Prod.fst).Nodup := by
  unfold TimeLord.getTimeConverter_SimTime_t
  cases h : Map.find s.tcMap f with
  | some p => exact hs
  | none =>
    simp only [Map.keys_set_of_find_none _ _ _ h]
    rw [List.nodup_append]
    refine ⟨hs, List.nodup_singleton f, ?_⟩
    intro a ha hb
    rw [List.mem_singleton] at hb
    subst hb
    exact (Map.find_eq_none_iff s.tcMap a).mp h ha

theorem getTimeConverter_string_keys {parse : String → Option UnitAlgebra} {s t : TimeLord}
    {u : String} {p : Ptr} (hs : (s.tcMap.map Prod.fst).Nodup)
    (h : s.getTimeConverter_string parse u = .ok (p, t)) : (t.tcMap.map Prod.fst).Nodup := by
  cases hfind : Map.find s.parseCache u with
  | some c =>
    rw [getTimeConverter_string_hit hfind] at h
    cases h
    exact hs
  | none =>
    obtain ⟨q, tc, s1, _, hr, hct⟩ := (getTimeConverter_string_miss hfind (p, t)).mp h
    cases hct
    obtain ⟨_, f, hf⟩ := getTimeConverter_UnitAlgebra_ok hr
    have hk := getTimeConverter_SimTime_t_keys s f hs
    rw [← hf] at hk
    exact hk

theorem step_keys {parse : String → Option UnitAlgebra} {s t : TimeLord} {op : Op}
    (hs : (s.tcMap.map Prod.fst).Nodup) (h : step parse s op = .ok t) :
    (t.tcMap.map Prod.fst).Nodup := by
  cases op with
  | init tb =>
    simp only [step] at h
    unfold TimeLord.init at h
    cases hp : TimeLord.parseUnitAlgebra parse tb with
    | error e => rw [hp] at h; cases h
    | ok q =>
      rw [hp] at h
      simp only at h
      generalize hs0 : ({ s with initialized := true, timeBaseString := tb, timeBase := q } :
        TimeLord) = s0 at h
      have k0 : (s0.tcMap.map Prod.fst).Nodup := by subst hs0; exact hs
      cases h1 : s0.getTimeConverter_string parse "1ns" with
      | error e => rw [h1] at h; cases h
      | ok r1 =>
        obtain ⟨p1, s1⟩ := r1
        rw [h1] at h
        simp only at h
        cases h2 : s1.getTimeConverter_string parse "1us" with
        | error e => rw [h2] at h; cases h
        | ok r2 =>
          obtain ⟨p2, s2⟩ := r2
          rw [h2] at h
          simp only at h
          cases h3 : s2.getTimeConverter_string parse "1ms" with
          | error e => rw [h3] at h; cases h
          | ok r3 =>
            obtain ⟨p3, s3⟩ := r3
            rw [h3] at h
            simp only at h
            cases h
            have k3 : (s3.tcMap.map Prod.fst).Nodup :=
              getTimeConverter_string_keys
                (getTimeConverter_string_keys (getTimeConverter_string_keys k0 h1) h2) h3
            exact k3
  | resolveString u =>
    simp only [step] at h
    cases hr : s.getTimeConverter_string parse u with
    | error e => rw [hr] at h; cases h
    | ok r =>
      obtain ⟨c, t1⟩ := r
      rw [hr] at h
      cases h
      exact getTimeConverter_string_keys hs hr
  | resolveQuantity q =>
    simp only [step] at h
    cases hr : s.getTimeConverter_UnitAlgebra q with
    | error e => rw [hr] at h; cases h
    | ok r =>
      rw [hr] at h
      cases h
      obtain ⟨_, f, hf⟩ := getTimeConverter_UnitAlgebra_ok hr
      rw [hf]
      exact getTimeConverter_SimTime_t_keys s f hs
  | resolveFactor f =>
    simp only [step] at h
    cases h
    exact getTimeConverter_SimTime_t_keys s f hs
  | getSimCycles u =>
    simp only [step] at h
    cases hr : s.getSimCycles parse u with
    | error e => rw [hr] at h; cases h
    | ok r =>
      obtain ⟨f, t1⟩ := r
      rw [hr] at h
      cases h
      obtain ⟨c, hc, _⟩ := getSimCycles_ok hr
      exact getTimeConverter_string_keys hs hc

theorem run_keys {parse : String → Option UnitAlgebra} {ops : List Op} {s t : TimeLord}
    (hs : (s.tcMap.map Prod.fst).Nodup) (h : run parse s ops = .ok t) :
    (t.tcMap.map Prod.fst).Nodup := by
  induction ops generalizing s with
  | nil =>
    simp only [run] at h
    cases h
    exact hs
  | cons op ops ih =>
    simp only [run] at h
    cases hs1 : step parse s op with
    | error e => rw [hs1] at h; cases h
    | ok s1 =>
      rw [hs1] at h
      exact ih (step_keys hs hs1) h

theorem Reachable.keys_nodup {parse : String → Option UnitAlgebra} {s : TimeLord}
    (h : Reachable parse s) : (s.tcMap.map Prod.fst).Nodup := by
  obtain ⟨ops, hops⟩ := h
  exact run_keys (by simp [TimeLord.new]) hops

/-- C19: in every reachable state the converter that `tcMap` holds under `f` has the factor
`f`; every converter in `parseCache` is the converter that `tcMap` holds under its own factor;
and the destructor deletes every allocated converter exactly once: the addresses it deletes
are pairwise different and are exactly the allocated ones. -/
theorem reachable_cache_coherent (parse : String → Option UnitAlgebra) (s : TimeLord)
    (hs : Reachable parse s) :
    (∀ (f : Nat) (p : Ptr), Map.find s.tcMap f = some p → s.heap[p]? = some f)
      ∧ (∀ (u : String) (p : Ptr), Map.find s.parseCache u = some p →
          ∃ f : Nat, s.heap[p]? = some f ∧ Map.find s.tcMap f = some p)
      ∧ s.destructor.1.Nodup
      ∧ (∀ p : Ptr, p ∈ s.destructor.1 ↔ p < s.heap.length)
      ∧ s.destructor.2.tcMap = [] ∧ s.destructor.2.parseCache = [] := by
  have hc := hs.coherent
  have hk := hs.keys_nodup
  refine ⟨hc.tcMap_factor, ?_, ?_, ?_, rfl, rfl⟩
  · intro u p hu
    obtain ⟨f, hf⟩ := hc.parseCache_tcMap u p hu
    exact ⟨f, hc.tcMap_factor f p hf, hf⟩
  · show (s.tcMap.map Prod.snd).Nodup
    refine List.Nodup.map_on ?_ (List.Nodup.of_map Prod.fst hk)
    intro x hx y hy hxy
    obtain ⟨k1, p1⟩ := x
    obtain ⟨k2, p2⟩ := y
    simp only at hxy
    subst hxy
    have a := hc.tcMap_factor k1 p1 (Map.find_of_mem s.tcMap k1 p1 hk hx)
    have b := hc.tcMap_factor k2 p1 (Map.find_of_mem s.tcMap k2 p1 hk hy)
    rw [a] at b
    cases b
    rfl
  · intro p
    show p ∈ s.tcMap.map Prod.snd ↔ p < s.heap.length
    constructor
    · intro hp
      obtain ⟨⟨k, p1⟩, hmem, hp1⟩ := List.mem_map.mp hp
      simp only at hp1
      subst hp1
      have a := hc.tcMap_factor k p1 (Map.find_of_mem s.tcMap k p1 hk hmem)
      exact (List.getElem?_eq_some_iff.mp a).1
    · intro hp
      have a : s.heap[p]? = some s.heap[p] := List.getElem?_eq_getElem hp
      have b := hc.heap_tcMap p _ a
      exact List.mem_map.mpr ⟨(_, p), Map.mem_of_find s.tcMap _ p b, rfl⟩

theorem reachable_cache_coherent_witness :
    (∀ (f : Nat) (p : Ptr), Map.find samplePsGHz7.tcMap f = some p →
        samplePsGHz7.heap[p]? = some f)
      ∧ (∀ (u : String) (p : Ptr), Map.find samplePsGHz7.parseCache u = some p →
          ∃ f : Nat, samplePsGHz7.heap[p]? = some f ∧ Map.find samplePsGHz7.tcMap f = some p)
      ∧ samplePsGHz7.destructor.1.Nodup
      ∧ (∀ p : Ptr, p ∈ samplePsGHz7.destructor.1 ↔ p < samplePsGHz7.heap.length)
      ∧ samplePsGHz7.destructor.2.tcMap = [] ∧ samplePsGHz7.destructor.2.parseCache = [] :=
  reachable_cache_coherent parseSI samplePsGHz7
    ⟨[Op.init "1ps", Op.resolveString "1GHz", Op.resolveFactor 7], by decide!⟩

/-! ### init and the shortcuts -/

theorem init_shortcut_entries {parse : String → Option UnitAlgebra} {s t : TimeLord}
    {b : String} (h : s.init parse b = .ok t) :
    parse b = some t.timeBase
      ∧ (∃ c : Ptr, t.nano = some c ∧ Map.find t.parseCache "1ns" = some c)
      ∧ (∃ c : Ptr, t.micro = some c ∧ Map.find t.parseCache "1us" = some c)
      ∧ (∃ c : Ptr, t.milli = some c ∧ Map.find t.parseCache "1ms" = some c) := by
  unfold TimeLord.init TimeLord.parseUnitAlgebra at h
  cases hp : parse b with
  | none => rw [hp] at h; cases h
  | some q =>
    rw [hp] at h
    simp only at h
    generalize hs0 : ({ s with initialized := true, timeBaseString := b, timeBase := q } :
      TimeLord) = s0 at h
    have b0 : s0.timeBase = q := by subst hs0; rfl
    cases h1 : s0.getTimeConverter_string parse "1ns" with
    | error e => rw [h1] at h; cases h
    | ok r1 =>
      obtain ⟨p1, s1⟩ := r1
      rw [h1] at h
      simp only at h
      cases h2 : s1.getTimeConverter_string parse "1us" with
      | error e => rw [h2] at h; cases h
      | ok r2 =>
        obtain ⟨p2, s2⟩ := r2
        rw [h2] at h
        simp only at h
        cases h3 : s2.getTimeConverter_string parse "1ms" with
        | error e => rw [h3] at h; cases h
        | ok r3 =>
          obtain ⟨p3, s3⟩ := r3
          rw [h3] at h
          simp only at h
          cases h
          obtain ⟨f1, _, _⟩ := getTimeConverter_string_ok h1
          obtain ⟨f2, e2, _⟩ := getTimeConverter_string_ok h2
          obtain ⟨f3, e3, _⟩ := getTimeConverter_string_ok h3
          have t1 := (getTimeConverter_string_frame h1).2
          have t2 := (getTimeConverter_string_frame h2).2
          have t3 := (getTimeConverter_string_frame h3).2
          refine ⟨?_, ⟨p1, rfl, ?_⟩, ⟨p2, rfl, ?_⟩, ⟨p3, rfl, ?_⟩⟩
          · show some q = some s3.timeBase
            rw [t3, t2, t1, b0]
          · exact e3.parseCache _ _ (e2.parseCache _ _ f1)
          · exact e3.parseCache _ _ f2
          · exact f3

theorem derivedShortcut_of_fresh {parse : String → Option UnitAlgebra} {t : TimeLord}
    {u : String} {c : Ptr} {o : Option Ptr} (hf : Fresh parse t) (hc : Coherent t)
    (ho : o = some c) (hu : Map.find t.parseCache u = some c) :
    DerivedShortcut parse t u o := by
  obtain ⟨f, hreq, hfind⟩ := hf u c hu
  exact ⟨c, f, ho, hu, hreq, hc.tcMap_factor f c hfind⟩

theorem init_fresh_of_fresh {parse : String → Option UnitAlgebra} {s t : TimeLord}
    {b : String} (hf : Fresh parse { s with timeBase := t.timeBase })
    (h : s.init parse b = .ok t) : Fresh parse t := by
  have hb := (init_shortcut_entries h).1
  unfold TimeLord.init TimeLord.parseUnitAlgebra at h
  cases hp : parse b with
  | none => rw [hp] at h; cases h
  | some q =>
    rw [hp] at h hb
    cases hb
    simp only at h
    generalize hs0 : (TimeLord.mk true b t.timeBase s.parseCache s.tcMap s.nano s.micro
      s.milli s.heap) = s0 at h
    have f0 : Fresh parse s0 := by
      subst hs0
      exact hf.mono rfl rfl (fun _ _ hh => hh)
    cases h1 : s0.getTimeConverter_string parse "1ns" with
    | error e => rw [h1] at h; cases h
    | ok r1 =>
      obtain ⟨p1, s1⟩ := r1
      rw [h1] at h
      simp only at h
      cases h2 : s1.getTimeConverter_string parse "1us" with
      | error e => rw [h2] at h; cases h
      | ok r2 =>
        obtain ⟨p2, s2⟩ := r2
        rw [h2] at h
        simp only at h
        cases h3 : s2.getTimeConverter_string parse "1ms" with
        | error e => rw [h3] at h; cases h
        | ok r3 =>
          obtain ⟨p3, s3⟩ := r3
          rw [h3] at h
          simp only at h
          have g1 := (@resolve_ok parse s0 s1 (.byString "1ns") p1 f0 h1).1
          have g2 := (@resolve_ok parse s1 s2 (.byString "1us") p2 g1 h2).1
          have g3 := (@resolve_ok parse s2 s3 (.byString "1ms") p3 g2 h3).1
          have ht : t.parseCache = s3.parseCache ∧ t.tcMap = s3.tcMap
              ∧ t.timeBase = s3.timeBase := by
            have h' := (Except.ok.inj h).symm
            rw [h']
            exact ⟨rfl, rfl, rfl⟩
          exact g3.mono ht.2.2 ht.1 (fun f p hh => by rw [ht.2.1]; exact hh)

/-- C12 (as stated, refuted): after `init("1ns")`, a second call `init("1ps")` returns with the
time base 1ps, but `nano` is still the converter with factor 1 that the first call created,
while 1ns against the new time base is 1000 ticks. -/
theorem init_twice_keeps_first_shortcuts :
    TimeLord.init parseSI TimeLord.new "1ns" = .ok sampleNs
      ∧ sampleNs.init parseSI "1ps" = .ok sampleNsPs
      ∧ parseSI "1ps" = some sampleNsPs.timeBase
      ∧ parseSI "1ns" = some ⟨1 / 10 ^ 9, Units.sec⟩
      ∧ ((⟨1 / 10 ^ 9, Units.sec⟩ : UnitAlgebra).div sampleNsPs.timeBase).getRoundedValue = 1000
      ∧ sampleNsPs.nano = some 0
      ∧ Map.find sampleNsPs.parseCache "1ns" = some 0
      ∧ sampleNsPs.heap[0]? = some 1 := by
  decide!

/-- C12 (amended): after every call `init(b)` that returns, on any reachable state, the Time
Lord is initialized, its time base is the parsed `b`, and `nano`, `micro`, `milli` are the
converters that `parseCache` holds under "1ns", "1us", "1ms"; when `parseCache` was empty
before the call (the first `init`), or held no entry that is stale against `b`, the three
shortcuts are derived from `b`: their factors are the tick counts of "1ns", "1us", "1ms"
against `b`. -/
theorem init_shortcuts (parse : String → Option UnitAlgebra) (s t : TimeLord) (b : String)
    (hs : Reachable parse s) (h : s.init parse b = .ok t) :
    t.initialized = true ∧ parse b = some t.timeBase
      ∧ (∃ c : Ptr, t.nano = some c ∧ Map.find t.parseCache "1ns" = some c)
      ∧ (∃ c : Ptr, t.micro = some c ∧ Map.find t.parseCache "1us" = some c)
      ∧ (∃ c : Ptr, t.milli = some c ∧ Map.find t.parseCache "1ms" = some c)
      ∧ ((s.parseCache = [] ∨ Fresh parse { s with timeBase := t.timeBase }) →
          DerivedShortcut parse t "1ns" t.nano ∧ DerivedShortcut parse t "1us" t.micro
            ∧ DerivedShortcut parse t "1ms" t.milli) := by
  obtain ⟨hi, _, hc⟩ := init_ok h
  obtain ⟨hb, ⟨c1, n1, m1⟩, ⟨c2, n2, m2⟩, ⟨c3, n3, m3⟩⟩ := init_shortcut_entries h
  refine ⟨hi, hb, ⟨c1, n1, m1⟩, ⟨c2, n2, m2⟩, ⟨c3, n3, m3⟩, ?_⟩
  intro hpre
  have hf : Fresh parse t := by
    rcases hpre with hempty | hfresh
    · exact init_fresh hempty h
    · exact init_fresh_of_fresh hfresh h
  have hct := hc hs.coherent
  exact ⟨derivedShortcut_of_fresh hf hct n1 m1, derivedShortcut_of_fresh hf hct n2 m2,
    derivedShortcut_of_fresh hf hct n3 m3⟩

theorem init_shortcuts_witness :
    TimeLord.init parseSI TimeLord.new "1ps" = .ok samplePs
      ∧ (samplePs.initialized = true ∧ parseSI "1ps" = some samplePs.timeBase
        ∧ (∃ c : Ptr, samplePs.nano = some c ∧ Map.find samplePs.parseCache "1ns" = some c)
        ∧ (∃ c : Ptr, samplePs.micro = some c ∧ Map.find samplePs.parseCache "1us" = some c)
        ∧ (∃ c : Ptr, samplePs.milli = some c ∧ Map.find samplePs.parseCache "1ms" = some c)
        ∧ ((TimeLord.new.parseCache = []
              ∨ Fresh parseSI { TimeLord.new with timeBase := samplePs.timeBase }) →
            DerivedShortcut parseSI samplePs "1ns" samplePs.nano
              ∧ DerivedShortcut parseSI samplePs "1us" samplePs.micro
              ∧ DerivedShortcut parseSI samplePs "1ms" samplePs.milli)) :=
  ⟨by decide!, init_shortcuts parseSI TimeLord.new samplePs "1ps" ⟨[], rfl⟩ (by decide!)⟩

/-! ## Lemmas on the Poisson distribution -/

namespace RNG

theorem wrapInt_add (a b : Int) : wrapInt (wrapInt a + b) = wrapInt (a + b) := by
  unfold wrapInt
  omega

theorem wrapInt_sub_one (a : Int) : wrapInt (wrapInt a - 1) = wrapInt (a - 1) := by
  unfold wrapInt
  omega

theorem wrapInt_of_lt (z : Int) (h0 : 0 ≤ z) (h1 : z < 2 ^ 31) : wrapInt z = z := by
  unfold wrapInt
  omega

theorem runningProduct_shift {F : Type} (A : Arith F) (p : F) (src : Random F) (j : Nat) :
    runningProduct A (A.mul p (src.draws src.pos)) src.nextUniform.2 j
      = runningProduct A p src (j + 1) := by
  induction j with
  | zero => simp [runningProduct]
  | succ j ih =>
    rw [runningProduct, ih]
    simp [runningProduct, Random.nextUniform, Nat.add_assoc, Nat.add_comm 1 j]

theorem getNextDoubleLoop_stop {F : Type} [LinearOrder F] (A : Arith F) (L : F) (n : Nat) :
    ∀ (fuel : Nat) (k : Int) (p : F) (src : Random F),
      (∀ j, j < n → L < runningProduct A p src (j + 1)) →
      ¬ L < runningProduct A p src (n + 1) → n + 1 ≤ fuel →
      getNextDoubleLoop A L fuel k p src
        = some (wrapInt (k + (n + 1 : Nat)), { src with pos := src.pos + (n + 1) }) := by
  induction n with
  | zero =>
    intro fuel k p src _ hstop hfuel
    obtain ⟨fuel, rfl⟩ : ∃ m, fuel = m + 1 := ⟨fuel - 1, by omega⟩
    have hs : ¬ L < A.mul p (src.draws src.pos) := by
      simpa [runningProduct] using hstop
    simp [getNextDoubleLoop, Random.nextUniform, hs]
  | succ n ih =>
    intro fuel k p src hcont hstop hfuel
    obtain ⟨fuel, rfl⟩ : ∃ m, fuel = m + 1 := ⟨fuel - 1, by omega⟩
    have h0 : L < A.mul p (src.draws src.pos) := by
      simpa [runningProduct] using hcont 0 (Nat.succ_pos n)
    have hrec := ih fuel (wrapInt (k + 1)) (A.mul p (src.draws src.pos)) src.nextUniform.2
      (by
        intro j hj
        rw [runningProduct_shift]
        exact hcont (j + 1) (by omega))
      (by
        rw [runningProduct_shift]
        exact hstop)
      (by omega)
    simp only [getNextDoubleLoop, Random.nextUniform, h0, if_true]
    simp only [Random.nextUniform] at hrec
    rw [hrec, wrapInt_add]
    simp only [Option.some.injEq, Prod.mk.injEq, Random.mk.injEq, true_and]
    constructor
    · congr 1
      push_cast
      ring
    · omega

theorem getNextDoubleLoop_continue {F : Type} [LinearOrder F] (A : Arith F) (L : F) :
    ∀ (fuel : Nat) (k : Int) (p : F) (src : Random F),
      (∀ j, j < fuel → L < runningProduct A p src (j + 1)) →
      getNextDoubleLoop A L fuel k p src = none := by
  intro fuel
  induction fuel with
  | zero => intro k p src _; rfl
  | succ fuel ih =>
    intro k p src hcont
    have h0 : L < A.mul p (src.draws src.pos) := by
      simpa [runningProduct] using hcont 0 (Nat.succ_pos fuel)
    simp only [getNextDoubleLoop, Random.nextUniform, h0, if_true]
    apply ih
    intro j hj
    have hsh := runningProduct_shift A p src (j + 1)
    simp only [Random.nextUniform] at hsh
    rw [hsh]
    exact hcont (j + 1) (by omega)

theorem getNextDouble_of_least {F : Type} [LinearOrder F] (A : Arith F)
    (d : PoissonDistribution F) (src : Random F) (K fuel : Nat) (hK : 1 ≤ K)
    (hmin : ∀ j, 1 ≤ j → j < K → A.exp (A.neg d.lambda) < runningProduct A A.one src j)
    (hstop : runningProduct A A.one src K ≤ A.exp (A.neg d.lambda)) (hfuel : K ≤ fuel) :
    d.getNextDouble A src fuel
      = some (wrapInt ((K : Int) - 1), d, { src with pos := src.pos + K }) := by
  obtain ⟨n, rfl⟩ : ∃ n, K = n + 1 := ⟨K - 1, by omega⟩
  have h := getNextDoubleLoop_stop A (A.exp (A.neg d.lambda)) n fuel 0 A.one src
    (fun j hj => hmin (j + 1) (by omega) (by omega)) (not_lt.mpr hstop) hfuel
  simp only [PoissonDistribution.getNextDouble, h]
  rw [wrapInt_sub_one]
  simp

theorem getNextDoubleLoop_sameDraws {F : Type} [LinearOrder F] (A : Arith F) (L : F) :
    ∀ (fuel : Nat) (k : Int) (p : F) (r1 r2 : Random F), SameDraws r1 r2 →
      match getNextDoubleLoop A L fuel k p r1, getNextDoubleLoop A L fuel k p r2 with
      | none, none => True
      | some (k1, s1), some (k2, s2) =>
        k1 = k2 ∧ SameDraws s1 s2 ∧ s1.pos - r1.pos = s2.pos - r2.pos
          ∧ r1.pos ≤ s1.pos ∧ r2.pos ≤ s2.pos
      | _, _ => False := by
  intro fuel
  induction fuel with
  | zero => intro k p r1 r2 _; simp [getNextDoubleLoop]
  | succ fuel ih =>
    intro k p r1 r2 hsame
    have h0 : r1.draws r1.pos = r2.draws r2.pos := by simpa using hsame 0
    have hnext : SameDraws r1.nextUniform.2 r2.nextUniform.2 := by
      intro i
      have := hsame (i + 1)
      simpa [Random.nextUniform, Nat.add_assoc, Nat.add_comm 1 i] using this
    simp only [getNextDoubleLoop, Random.nextUniform, h0]
    by_cases hc : L < A.mul p (r2.draws r2.pos)
    · simp only [hc, if_true]
      have := ih (wrapInt (k + 1)) (A.mul p (r2.draws r2.pos)) _ _ hnext
      simp only [Random.nextUniform] at this
      revert this
      split <;> simp_all
      omega
    · simp only [hc, if_false]
      exact ⟨trivial, by simpa [Random.nextUniform] using hnext, by simp, by simp, by simp⟩

theorem getNextDouble_sameDraws {F : Type} [LinearOrder F] (A : Arith F)
    (d1 d2 : PoissonDistribution F) (r1 r2 : Random F) (fuel : Nat)
    (hl : d1.lambda = d2.lambda) (hsame : SameDraws r1 r2) :
    match d1.getNextDouble A r1 fuel, d2.getNextDouble A r2 fuel with
    | none, none => True
    | some (x1, _, s1), some (x2, _, s2) =>
      x1 = x2 ∧ SameDraws s1 s2 ∧ s1.pos - r1.pos = s2.pos - r2.pos
        ∧ r1.pos ≤ s1.pos ∧ r2.pos ≤ s2.pos
    | _, _ => False := by
  have h := getNextDoubleLoop_sameDraws A (A.exp (A.neg d2.lambda)) fuel 0 A.one r1 r2 hsame
  simp only [PoissonDistribution.getNextDouble, hl]
  revert h
  cases getNextDoubleLoop A (A.exp (A.neg d2.lambda)) fuel 0 A.one r1 <;>
    cases getNextDoubleLoop A (A.exp (A.neg d2.lambda)) fuel 0 A.one r2 <;> simp
  intro h1 h2 h3 h4 h5
  exact ⟨by rw [h1], h2, h3, h4, h5⟩

theorem samples_sameDraws {F : Type} [LinearOrder F] (A : Arith F)
    (d1 d2 : PoissonDistribution F) (fuel : Nat) (hl : d1.lambda = d2.lambda) :
    ∀ (n : Nat) (r1 r2 : Random F), SameDraws r1 r2 →
      match d1.samples A fuel n r1, d2.samples A fuel n r2 with
      | none, none => True
      | some (xs1, s1), some (xs2, s2) =>
        xs1 = xs2 ∧ SameDraws s1 s2 ∧ s1.pos - r1.pos = s2.pos - r2.pos
          ∧ r1.pos ≤ s1.pos ∧ r2.pos ≤ s2.pos
      | _, _ => False := by
  intro n
  induction n with
  | zero =>
    intro r1 r2 hsame
    simp only [PoissonDistribution.samples]
    exact ⟨trivial, hsame, by simp, le_refl _, le_refl _⟩
  | succ n ih =>
    intro r1 r2 hsame
    have h := getNextDouble_sameDraws A d1 d2 r1 r2 fuel hl hsame
    simp only [PoissonDistribution.samples]
    revert h
    cases h1 : d1.getNextDouble A r1 fuel with
    | none =>
      cases h2 : d2.getNextDouble A r2 fuel with
      | none => simp
      | some v2 => simp
    | some v1 =>
      cases h2 : d2.getNextDouble A r2 fuel with
      | none => simp
      | some v2 =>
        obtain ⟨x1, e1, s1⟩ := v1
        obtain ⟨x2, e2, s2⟩ := v2
        simp only
        rintro ⟨hx, hs, hp, hle1, hle2⟩
        have hrec := ih s1 s2 hs
        revert hrec
        cases h3 : d1.samples A fuel n s1 with
        | none =>
          cases h4 : d2.samples A fuel n s2 with
          | none => simp
          | some w2 => simp
        | some w1 =>
          cases h4 : d2.samples A fuel n s2 with
          | none => simp
          | some w2 =>
            obtain ⟨xs1, t1⟩ := w1
            obtain ⟨xs2, t2⟩ := w2
            simp only
            rintro ⟨hxs, hts, htp, hl1, hl2⟩
            refine ⟨by rw [hx, hxs], hts, ?_, le_trans hle1 hl1, le_trans hle2 hl2⟩
            omega

theorem runningProduct_exact_succ {F : Type} [Field F] (e : F → F) (p : F) (src : Random F)
    (j : Nat) :
    runningProduct (exactArith e) p src (j + 1)
      = runningProduct (exactArith e) p src j * src.draws (src.pos + j) := rfl

theorem runningProduct_exact_const {F : Type} [Field F] (e : F → F) (src : Random F) (c : F) :
    ∀ j : Nat, (∀ i : Nat, i < j → src.draws (src.pos + i) = c) →
      runningProduct (exactArith e) 1 src j = c ^ j := by
  intro j
  induction j with
  | zero => intro _; simp [runningProduct]
  | succ j ih =>
    intro h
    rw [runningProduct_exact_succ, ih (fun i hi => h i (Nat.lt_succ_of_lt hi)), h j (Nat.lt_succ_self j), pow_succ]

theorem samples_congr {F : Type} [LinearOrder F] (A : Arith F) (d1 d2 : PoissonDistribution F)
    (fuel : Nat) (hl : d1.lambda = d2.lambda) :
    ∀ (n : Nat) (src : Random F), d1.samples A fuel n src = d2.samples A fuel n src := by
  intro n
  induction n with
  | zero => intro src; rfl
  | succ n ih =>
    intro src
    simp only [PoissonDistribution.samples, PoissonDistribution.getNextDouble, hl]
    cases getNextDoubleLoop A (A.exp (A.neg d2.lambda)) fuel 0 A.one src with
    | none => rfl
    | some v => simp only [ih]

theorem lateZero_products :
    (∀ j : Nat, 1 ≤ j → j < 2 ^ 31 + 1 →
        ratArith.exp (ratArith.neg poissonOne.lambda) < runningProduct ratArith ratArith.one
          lateZero j)
      ∧ runningProduct ratArith ratArith.one lateZero (2 ^ 31 + 1)
          ≤ ratArith.exp (ratArith.neg poissonOne.lambda) := by
  have hL : ratArith.exp (ratArith.neg poissonOne.lambda) = 1 / 2 := by decide!
  have hconst : ∀ j : Nat, j ≤ 2 ^ 31 →
      runningProduct ratArith ratArith.one lateZero j = (1 - 1 / 2 ^ 40 : ℚ) ^ j := by
    intro j hj
    apply runningProduct_exact_const ratExp lateZero (1 - 1 / 2 ^ 40) j
    intro i hi
    show (if 0 + i < 2 ^ 31 then (1 - 1 / 2 ^ 40 : ℚ) else 0) = 1 - 1 / 2 ^ 40
    rw [if_pos (by omega)]
  constructor
  · intro j _ hj
    rw [hL, hconst j (by omega)]
    have hb := one_add_mul_le_pow (show (-2 : ℚ) ≤ -(1 / 2 ^ 40) by norm_num) j
    have hj' : (j : ℚ) ≤ 2 ^ 31 := by exact_mod_cast (show j ≤ 2 ^ 31 by omega)
    have heq : (1 + -(1 / 2 ^ 40) : ℚ) = 1 - 1 / 2 ^ 40 := by ring
    rw [heq] at hb
    have hstep : (1 / 2 : ℚ) < 1 + (j : ℚ) * -(1 / 2 ^ 40) := by
      have : (j : ℚ) * (1 / 2 ^ 40) ≤ 2 ^ 31 * (1 / 2 ^ 40) :=
        mul_le_mul_of_nonneg_right hj' (by norm_num)
      have h2 : (2 ^ 31 * (1 / 2 ^ 40) : ℚ) < 1 / 2 := by norm_num
      linarith
    exact lt_of_lt_of_le hstep hb
  · rw [hL]
    have hz : lateZero.draws (lateZero.pos + 2 ^ 31) = 0 := by
      show (if 0 + 2 ^ 31 < 2 ^ 31 then (1 - 1 / 2 ^ 40 : ℚ) else 0) = 0
      rw [if_neg (by omega)]
    have hmul := runningProduct_exact_succ ratExp 1 lateZero (2 ^ 31)
    rw [hz, mul_zero] at hmul
    have hgoal : runningProduct ratArith ratArith.one lateZero (2 ^ 31 + 1) = 0 := hmul
    rw [hgoal]
    norm_num

/-! ### Rounding to binary64 -/

theorem roundHalfEven_le (x : ℚ) (n : Int) (h : x ≤ n) : roundHalfEven x ≤ n := by
  have hfl : ((⌊x⌋ : Int) : ℚ) ≤ x := Int.floor_le x
  have h1 : ⌊x⌋ ≤ n := by exact_mod_cast hfl.trans h
  unfold roundHalfEven
  simp only
  split_ifs with c1 c2 c3
  · exact h1
  · have h2 : ((⌊x⌋ : Int) : ℚ) < n := by linarith
    have h3 : ⌊x⌋ < n := by exact_mod_cast h2
    omega
  · exact h1
  · have h2 : ((⌊x⌋ : Int) : ℚ) < n := by linarith [not_lt.mp c1]
    have h3 : ⌊x⌋ < n := by exact_mod_cast h2
    omega

theorem le_roundHalfEven (x : ℚ) (n : Int) (h : (n : ℚ) ≤ x) : n ≤ roundHalfEven x := by
  have h1 : n ≤ ⌊x⌋ := Int.le_floor.mpr h
  unfold roundHalfEven
  simp only
  split_ifs <;> omega

theorem roundHalfEven_near (x : ℚ) : |(roundHalfEven x : ℚ) - x| ≤ 1 / 2 := by
  have hfl : ((⌊x⌋ : Int) : ℚ) ≤ x := Int.floor_le x
  have hlt : x < ((⌊x⌋ : Int) : ℚ) + 1 := Int.lt_floor_add_one x
  unfold roundHalfEven
  simp only
  rw [abs_le]
  split_ifs with c1 c2 c3
  · constructor <;> linarith
  · push_cast; constructor <;> linarith
  · constructor <;> linarith [not_lt.mp c1]
  · push_cast; constructor <;> linarith [not_lt.mp c1]

theorem roundHalfEven_mono {x y : ℚ} (h : x ≤ y) : roundHalfEven x ≤ roundHalfEven y := by
  by_contra hcon
  have hlt : roundHalfEven y + 1 ≤ roundHalfEven x := by omega
  have hq : ((roundHalfEven y : Int) : ℚ) + 1 ≤ (roundHalfEven x : ℚ) := by exact_mod_cast hlt
  have hx := abs_le.mp (roundHalfEven_near x)
  have hy := abs_le.mp (roundHalfEven_near y)
  have hxy : x = y := by linarith [hx.2, hy.1]
  subst hxy
  omega

theorem log2Nat_spec : ∀ (fuel n : Nat), 1 ≤ n → n ≤ fuel →
    2 ^ log2Nat fuel n ≤ n ∧ n < 2 ^ (log2Nat fuel n + 1) := by
  intro fuel
  induction fuel with
  | zero => intro n h1 h2; omega
  | succ fuel ih =>
    intro n h1 h2
    unfold log2Nat
    split_ifs with hn
    · constructor
      · simpa using h1
      · simpa using hn
    · have h3 := ih (n / 2) (by omega) (by omega)
      rw [pow_succ, pow_succ]
      constructor <;> omega

theorem log2Floor_spec (x : ℚ) (hx : 0 < x) :
    (2 : ℚ) ^ log2Floor x ≤ x ∧ x < (2 : ℚ) ^ (log2Floor x + 1) := by
  have hnum : 0 < x.num := Rat.num_pos.mpr hx
  have hn1 : 1 ≤ x.num.natAbs := by omega
  have hd1 : 1 ≤ x.den := x.den_pos
  obtain ⟨ha1, ha2⟩ := log2Nat_spec x.num.natAbs x.num.natAbs hn1 (le_refl _)
  obtain ⟨hb1, hb2⟩ := log2Nat_spec x.den x.den hd1 (le_refl _)
  have hmul : x * (x.den : ℚ) = (x.num.natAbs : ℚ) := by
    have h1 : ((x.num.natAbs : Int) : ℚ) = (x.num : ℚ) := by
      rw [Int.natAbs_of_nonneg hnum.le]
    rw [Rat.mul_den_eq_num, ← h1, Int.cast_natCast]
  unfold log2Floor
  simp only
  generalize log2Nat x.num.natAbs x.num.natAbs = a at ha1 ha2 ⊢
  generalize log2Nat x.den x.den = b at hb1 hb2 ⊢
  have qa1 : (2 : ℚ) ^ a ≤ (x.num.natAbs : ℚ) := by exact_mod_cast ha1
  have qa2 : (x.num.natAbs : ℚ) < (2 : ℚ) ^ (a + 1) := by exact_mod_cast ha2
  have qb1 : (2 : ℚ) ^ b ≤ (x.den : ℚ) := by exact_mod_cast hb1
  have qb2 : (x.den : ℚ) < (2 : ℚ) ^ (b + 1) := by exact_mod_cast hb2
  have two0 : (2 : ℚ) ≠ 0 := by norm_num
  have pb : (0 : ℚ) < (2 : ℚ) ^ b := by positivity
  have hup : x < (2 : ℚ) ^ ((a : Int) - (b : Int) + 1) := by
    have e1 : (2 : ℚ) ^ ((a : Int) - (b : Int) + 1) = (2 : ℚ) ^ (a + 1) / (2 : ℚ) ^ b := by
      rw [show (a : Int) - (b : Int) + 1 = ((a + 1 : Nat) : Int) - ((b : Nat) : Int) by
        push_cast; ring, zpow_sub₀ two0, zpow_natCast, zpow_natCast]
    rw [e1, lt_div_iff₀ pb]
    calc x * (2 : ℚ) ^ b ≤ x * (x.den : ℚ) := mul_le_mul_of_nonneg_left qb1 hx.le
      _ = (x.num.natAbs : ℚ) := hmul
      _ < (2 : ℚ) ^ (a + 1) := qa2
  have hlo : (2 : ℚ) ^ ((a : Int) - (b : Int) - 1) ≤ x := by
    have e1 : (2 : ℚ) ^ ((a : Int) - (b : Int) - 1) = (2 : ℚ) ^ a / (2 : ℚ) ^ (b + 1) := by
      rw [show (a : Int) - (b : Int) - 1 = ((a : Nat) : Int) - ((b + 1 : Nat) : Int) by
        push_cast; ring, zpow_sub₀ two0, zpow_natCast, zpow_natCast]
    have pb1 : (0 : ℚ) < (2 : ℚ) ^ (b + 1) := by positivity
    rw [e1, div_le_iff₀ pb1]
    calc (2 : ℚ) ^ a ≤ (x.num.natAbs : ℚ) := qa1
      _ = x * (x.den : ℚ) := hmul.symm
      _ ≤ x * (2 : ℚ) ^ (b + 1) := mul_le_mul_of_nonneg_left qb2.le hx.le
  split_ifs with hc
  · exact ⟨hc, hup⟩
  · refine ⟨hlo, ?_⟩
    rw [sub_add_cancel]
    exact not_le.mp hc

theorem log2Floor_mono {x y : ℚ} (hx : 0 < x) (h : x ≤ y) : log2Floor x ≤ log2Floor y := by
  have h1 := (log2Floor_spec x hx).1
  have h2 := (log2Floor_spec y (lt_of_lt_of_le hx h)).2
  have h3 : (2 : ℚ) ^ log2Floor x < (2 : ℚ) ^ (log2Floor y + 1) :=
    lt_of_le_of_lt (h1.trans h) h2
  have h4 := (zpow_lt_zpow_iff_right₀ (by norm_num : (1 : ℚ) < 2)).mp h3
  omega

theorem floatUlp_pos (m : Nat) (emin : Int) (x : ℚ) : 0 < floatUlp m emin x := by
  unfold floatUlp
  positivity

theorem roundFloat_nonneg (m : Nat) (emin : Int) {x : ℚ} (hx : 0 ≤ x) :
    0 ≤ roundFloat m emin x := by
  unfold roundFloat
  rw [if_pos hx]
  have hu := floatUlp_pos m emin x
  have h0 : (0 : Int) ≤ roundHalfEven (x / floatUlp m emin x) :=
    le_roundHalfEven _ 0 (by
      have : (0 : ℚ) ≤ x / floatUlp m emin x := div_nonneg hx hu.le
      exact_mod_cast this)
  have h1 : (0 : ℚ) ≤ (roundHalfEven (x / floatUlp m emin x) : ℚ) := by exact_mod_cast h0
  exact mul_nonneg h1 hu.le

theorem roundFloat_mono (m : Nat) (emin : Int) {x y : ℚ} (hx : 0 ≤ x) (h : x ≤ y) :
    roundFloat m emin x ≤ roundFloat m emin y := by
  have hy : 0 ≤ y := hx.trans h
  rcases hx.eq_or_lt with hx0 | hxpos
  · subst hx0
    have hz : roundFloat m emin 0 = 0 := by
      unfold roundFloat
      simp [roundHalfEven]
    rw [hz]
    exact roundFloat_nonneg m emin hy
  have hypos : 0 < y := lt_of_lt_of_le hxpos h
  have hlf := log2Floor_mono hxpos h
  have two1 : (1 : ℚ) < 2 := by norm_num
  have two0 : (2 : ℚ) ≠ 0 := by norm_num
  unfold roundFloat
  rw [if_pos hx, if_pos hy]
  unfold floatUlp
  rcases (max_le_max hlf (le_refl emin)).eq_or_lt with he | he
  · rw [← he]
    have hu : (0 : ℚ) < (2 : ℚ) ^ (max (log2Floor x) emin - (m : Int)) := by positivity
    have hr := roundHalfEven_mono (div_le_div_of_nonneg_right h hu.le)
    have hq : ((roundHalfEven (x / (2 : ℚ) ^ (max (log2Floor x) emin - (m : Int))) : Int) : ℚ)
        ≤ (roundHalfEven (y / (2 : ℚ) ^ (max (log2Floor x) emin - (m : Int))) : ℚ) := by
      exact_mod_cast hr
    exact mul_le_mul_of_nonneg_right hq hu.le
  · generalize hex : max (log2Floor x) emin = ex at he
    generalize hey : max (log2Floor y) emin = ey at he
    have hey2 : ey = log2Floor y := by
      have : emin ≤ ex := by rw [← hex]; exact le_max_right _ _
      rcases max_choice (log2Floor y) emin with hc | hc
      · rw [← hey, hc]
      · rw [hc] at hey; omega
    have hlx : log2Floor x ≤ ex := by rw [← hex]; exact le_max_left _ _
    have hux : (0 : ℚ) < (2 : ℚ) ^ (ex - (m : Int)) := by positivity
    have huy : (0 : ℚ) < (2 : ℚ) ^ (ey - (m : Int)) := by positivity
    -- the image of x is at most 2 ^ (ex + 1)
    have hxup : x ≤ (2 : ℚ) ^ (ex + 1) :=
      ((log2Floor_spec x hxpos).2.le).trans (zpow_le_zpow_right₀ two1.le (by omega))
    have e1 : (2 : ℚ) ^ (ex + 1) = (((2 : Int) ^ (m + 1) : Int) : ℚ) * (2 : ℚ) ^ (ex - (m : Int)) := by
      push_cast
      rw [← zpow_natCast, ← zpow_add₀ two0]
      congr 1
      push_cast
      ring
    have hrx : roundHalfEven (x / (2 : ℚ) ^ (ex - (m : Int))) ≤ (2 : Int) ^ (m + 1) := by
      apply roundHalfEven_le
      rw [div_le_iff₀ hux, ← e1]
      exact hxup
    have hrxq : ((roundHalfEven (x / (2 : ℚ) ^ (ex - (m : Int))) : Int) : ℚ)
        ≤ (((2 : Int) ^ (m + 1) : Int) : ℚ) := by exact_mod_cast hrx
    have hX : (roundHalfEven (x / (2 : ℚ) ^ (ex - (m : Int))) : ℚ) * (2 : ℚ) ^ (ex - (m : Int))
        ≤ (2 : ℚ) ^ (ex + 1) := by
      rw [e1]
      exact mul_le_mul_of_nonneg_right hrxq hux.le
    -- the image of y is at least 2 ^ ey
    have hylo : (2 : ℚ) ^ ey ≤ y := by
      rw [hey2]
      exact (log2Floor_spec y hypos).1
    have e2 : (2 : ℚ) ^ ey = (((2 : Int) ^ m : Int) : ℚ) * (2 : ℚ) ^ (ey - (m : Int)) := by
      push_cast
      rw [← zpow_natCast, ← zpow_add₀ two0]
      congr 1
      ring
    have hry : (2 : Int) ^ m ≤ roundHalfEven (y / (2 : ℚ) ^ (ey - (m : Int))) := by
      apply le_roundHalfEven
      rw [le_div_iff₀ huy, ← e2]
      exact hylo
    have hryq : (((2 : Int) ^ m : Int) : ℚ)
        ≤ ((roundHalfEven (y / (2 : ℚ) ^ (ey - (m : Int))) : Int) : ℚ) := by exact_mod_cast hry
    have hY : (2 : ℚ) ^ ey
        ≤ (roundHalfEven (y / (2 : ℚ) ^ (ey - (m : Int))) : ℚ) * (2 : ℚ) ^ (ey - (m : Int)) := by
      rw [e2]
      exact mul_le_mul_of_nonneg_right hryq huy.le
    have hmid : (2 : ℚ) ^ (ex + 1) ≤ (2 : ℚ) ^ ey := zpow_le_zpow_right₀ two1.le (by omega)
    exact hX.trans (hmid.trans hY)

theorem roundBinary64_nonneg {x : ℚ} (hx : 0 ≤ x) : 0 ≤ roundBinary64 x :=
  roundFloat_nonneg 52 (-1022) hx

theorem roundBinary64_mono {x y : ℚ} (hx : 0 ≤ x) (h : x ≤ y) :
    roundBinary64 x ≤ roundBinary64 y :=
  roundFloat_mono 52 (-1022) hx h

theorem binary64Arith_mul_nonneg (e : ℚ → ℚ) (a u : ℚ) (ha : 0 ≤ a) (hu : 0 ≤ u) :
    0 ≤ (binary64Arith e).mul a u :=
  roundBinary64_nonneg (mul_nonneg ha hu)

theorem binary64Arith_mul_mono (e : ℚ → ℚ) (a b u v : ℚ) (ha : 0 ≤ a) (hab : a ≤ b)
    (hu : 0 ≤ u) (huv : u ≤ v) : (binary64Arith e).mul a u ≤ (binary64Arith e).mul b v :=
  roundBinary64_mono (mul_nonneg ha hu) (mul_le_mul hab huv hu (ha.trans hab))

/-- The products of the loop are at most the powers of `c` formed with the same product, when
the product is monotone on the non-negative values and keeps them non-negative, and all draws
lie in [0, c]. -/
theorem runningProduct_le_loopPower {F : Type} [LinearOrder F] (A : Arith F)
    (src : Random F) (c : F) (hone : A.zero ≤ A.one)
    (hnonneg : ∀ a u : F, A.zero ≤ a → A.zero ≤ u → A.zero ≤ A.mul a u)
    (hmono : ∀ a b u v : F, A.zero ≤ a → a ≤ b → A.zero ≤ u → u ≤ v → A.mul a u ≤ A.mul b v)
    (hdraw : ∀ i : Nat, A.zero ≤ src.draws (src.pos + i) ∧ src.draws (src.pos + i) ≤ c) :
    ∀ j : Nat, A.zero ≤ runningProduct A A.one src j
      ∧ runningProduct A A.one src j ≤ loopPower A c j := by
  intro j
  induction j with
  | zero => exact ⟨hone, le_refl _⟩
  | succ j ih =>
    constructor
    · exact hnonneg _ _ ih.1 (hdraw j).1
    · show A.mul (runningProduct A A.one src j) (src.draws (src.pos + j))
        ≤ A.mul (loopPower A c j) c
      exact hmono _ _ _ _ ih.1 ih.2 (hdraw j).1 (hdraw j).2

/-- The bound of C18 for a product that is rounded: when the product is monotone on the
non-negative values and keeps them non-negative, and all draws lie in [0, c], then for every
`k >= 1` whose power `c ^ k`, formed with the same product, is at most `L`, the loop has
stopped after at most `k` draws, and `j < k` as long as it has not stopped after `j` draws. -/
theorem getNextDouble_terminates_monotone {F : Type} [LinearOrder F] (A : Arith F)
    (d : PoissonDistribution F) (src : Random F) (c : F) (k : Nat)
    (hone : A.zero ≤ A.one)
    (hnonneg : ∀ a u : F, A.zero ≤ a → A.zero ≤ u → A.zero ≤ A.mul a u)
    (hmono : ∀ a b u v : F, A.zero ≤ a → a ≤ b → A.zero ≤ u → u ≤ v → A.mul a u ≤ A.mul b v)
    (hdraw : ∀ i : Nat, A.zero ≤ src.draws (src.pos + i) ∧ src.draws (src.pos + i) ≤ c)
    (hk : 1 ≤ k) (hpow : loopPower A c k ≤ A.exp (A.neg d.lambda)) :
    (∃ (x : Int) (s : Random F),
        (∀ fuel : Nat, k ≤ fuel → d.getNextDouble A src fuel = some (x, d, s))
          ∧ src.pos ≤ s.pos ∧ s.pos - src.pos ≤ k)
      ∧ (∀ j : Nat,
          (∀ i : Nat, 1 ≤ i → i ≤ j → A.exp (A.neg d.lambda) < runningProduct A A.one src i) →
          j < k) := by
  classical
  have hle := runningProduct_le_loopPower A src c hone hnonneg hmono hdraw
  have hstopk : runningProduct A A.one src k ≤ A.exp (A.neg d.lambda) :=
    le_trans (hle k).2 hpow
  have hexK : ∃ K : Nat, 1 ≤ K ∧ runningProduct A A.one src K ≤ A.exp (A.neg d.lambda) :=
    ⟨k, hk, hstopk⟩
  have hK := Nat.find_spec hexK
  have hKle : Nat.find hexK ≤ k := Nat.find_min' hexK ⟨hk, hstopk⟩
  have hminK : ∀ j, 1 ≤ j → j < Nat.find hexK →
      A.exp (A.neg d.lambda) < runningProduct A A.one src j := by
    intro j h1 h2
    by_contra hcon
    exact Nat.find_min hexK h2 ⟨h1, not_lt.mp hcon⟩
  refine ⟨⟨_, _, fun fuel hfuel => getNextDouble_of_least A d src (Nat.find hexK) fuel hK.1
    hminK hK.2 (le_trans hKle hfuel), ?_, ?_⟩, ?_⟩
  · show src.pos ≤ src.pos + Nat.find hexK
    omega
  · show src.pos + Nat.find hexK - src.pos ≤ k
    omega
  · intro j hj
    by_contra hcon
    exact absurd hstopk (not_le.mpr (hj k hk (not_lt.mp hcon)))

/-- With draws of 3/4 the rounded product never falls below `2 ^ (-1073)`: the product of
`2 ^ (-1073)` and 3/4 lies halfway between `2 ^ (-1074)` and `2 ^ (-1073)` and is rounded to
the latter, whose last digit is even. -/
theorem threeQuarters_products (e : ℚ → ℚ) :
    ∀ j : Nat, (1 / 2 ^ 1073 : ℚ) ≤ runningProduct (binary64Arith e) 1 threeQuarters j := by
  intro j
  induction j with
  | zero =>
    show (1 / 2 ^ 1073 : ℚ) ≤ 1
    rw [div_le_one (by positivity)]
    exact one_le_pow₀ (by norm_num)
  | succ j ih =>
    show (1 / 2 ^ 1073 : ℚ)
      ≤ roundBinary64 (runningProduct (binary64Arith e) 1 threeQuarters j * (3 / 4))
    have hfix : roundBinary64 (1 / 2 ^ 1073 * (3 / 4)) = 1 / 2 ^ 1073 := by decide!
    rw [← hfix]
    exact roundBinary64_mono (by positivity) (mul_le_mul_of_nonneg_right ih (by norm_num))

/-- Every value strictly between `2 ^ (-1075)` and `2 ^ (-1074)` is rounded to `2 ^ (-1074)`,
the least positive `double`. -/
theorem roundBinary64_least_positive (x : ℚ) (h1 : 1 / 2 ^ 1075 < x) (h2 : x < 1 / 2 ^ 1074) :
    roundBinary64 x = 1 / 2 ^ 1074 := by
  have hx : 0 < x := lt_trans (by positivity) h1
  have hlf : log2Floor x ≤ -1022 := by
    have h3 := (log2Floor_spec x hx).1
    have h4 : (2 : ℚ) ^ log2Floor x < (2 : ℚ) ^ (-1074 : Int) := by
      refine lt_of_le_of_lt h3 (lt_of_lt_of_eq h2 ?_)
      rw [zpow_neg, zpow_ofNat, one_div]
    have h5 := (zpow_lt_zpow_iff_right₀ (by norm_num : (1 : ℚ) < 2)).mp h4
    omega
  have hulp : floatUlp 52 (-1022) x = 1 / 2 ^ 1074 := by
    unfold floatUlp
    rw [max_eq_right hlf]
    rw [show (-1022 : Int) - ((52 : Nat) : Int) = -((1074 : Nat) : Int) by norm_num, zpow_neg,
      zpow_natCast, one_div]
  have hr : roundHalfEven (x / (1 / 2 ^ 1074)) = 1 := by
    have hlo : (1 / 2 : ℚ) < x / (1 / 2 ^ 1074) := by
      rw [lt_div_iff₀ (by positivity)]
      calc (1 / 2 : ℚ) * (1 / 2 ^ 1074) = 1 / 2 ^ 1075 := by rw [pow_succ]; ring
        _ < x := h1
    have hhi : x / (1 / 2 ^ 1074) < 1 := by
      rw [div_lt_one (by positivity)]
      exact h2
    have hfl : ⌊x / (1 / 2 ^ 1074)⌋ = 0 := by
      rw [Int.floor_eq_iff]
      constructor
      · have h0 : (0 : ℚ) ≤ x / (1 / 2 ^ 1074) := by linarith
        simpa using h0
      · simpa using hhi
    unfold roundHalfEven
    simp only [hfl]
    rw [if_neg (by push_cast; linarith), if_pos (by push_cast; linarith)]
    rfl
  unfold roundBinary64 roundFloat
  rw [if_pos hx.le, hulp, hr]
  norm_num

/-- The exact value of `e ^ (-744.5)` lies strictly between `2 ^ (-1075)` and `2 ^ (-1074)`, so
that the `double` nearest to it is `2 ^ (-1074)`. -/
theorem exp_neg_744_5_bounds :
    (1 / 2 ^ 1075 : ℝ) < Real.exp (-(1489 / 2)) ∧ Real.exp (-(1489 / 2)) < 1 / 2 ^ 1074 := by
  have hpow : ∀ n : Nat, (1 / 2 ^ n : ℝ) = Real.exp (-((n : ℝ) * Real.log 2)) := by
    intro n
    rw [Real.exp_neg, Real.exp_nat_mul, Real.exp_log (by norm_num), one_div]
  have hlo := Real.log_two_gt_d9
  have hhi := Real.log_two_lt_d9
  constructor
  · rw [hpow 1075, Real.exp_lt_exp]
    push_cast
    linarith
  · rw [hpow 1074, Real.exp_lt_exp]
    push_cast
    linarith

/-- With draws of 3/4 and a threshold below `2 ^ (-1073)`, whatever `exp` is, the loop has not
stopped after any number of iterations. -/
theorem getNextDouble_threeQuarters_none (e : ℚ → ℚ) (d : PoissonDistribution ℚ)
    (hL : e (-d.lambda) < 1 / 2 ^ 1073) (fuel : Nat) :
    d.getNextDouble (binary64Arith e) threeQuarters fuel = none := by
  have hloop := getNextDoubleLoop_continue (binary64Arith e) (e (-d.lambda)) fuel 0 1
    threeQuarters (fun j _ => lt_of_lt_of_le hL (threeQuarters_products e (j + 1)))
  have hloop2 : getNextDoubleLoop (binary64Arith e)
      ((binary64Arith e).exp ((binary64Arith e).neg d.lambda)) fuel 0 (binary64Arith e).one
      threeQuarters = none := hloop
  simp only [PoissonDistribution.getNextDouble, hloop2]

/-! ## The claims on the Poisson distribution -/

/-- C13 (as stated, refuted): with `lambda = 1` and the source `lateZero`, whose draws all lie
in [0, 1), the least `k >= 1` whose product of draws is at most `L` is `K = 2 ^ 31 + 1`;
`getNextDouble` consumes `K` draws and returns `-2 ^ 31`, which is neither `K - 1` nor
non-negative: the `int` counter `k` has wrapped around. -/
theorem getNextDouble_lateZero :
    (∀ i : Nat, 0 ≤ lateZero.draws i ∧ lateZero.draws i < 1)
      ∧ (∀ j : Nat, 1 ≤ j → j < 2 ^ 31 + 1 →
          ratArith.exp (ratArith.neg poissonOne.lambda)
            < runningProduct ratArith ratArith.one lateZero j)
      ∧ runningProduct ratArith ratArith.one lateZero (2 ^ 31 + 1)
          ≤ ratArith.exp (ratArith.neg poissonOne.lambda)
      ∧ poissonOne.getNextDouble ratArith lateZero (2 ^ 31 + 1)
          = some (-2 ^ 31, poissonOne, { lateZero with pos := lateZero.pos + (2 ^ 31 + 1) })
      ∧ (-2 ^ 31 : Int) ≠ ((2 ^ 31 + 1 : Nat) : Int) - 1 := by
  obtain ⟨h1, h2⟩ := lateZero_products
  refine ⟨?_, h1, h2, ?_, by norm_num⟩
  · intro i
    show (0 : ℚ) ≤ (if i < 2 ^ 31 then (1 - 1 / 2 ^ 40 : ℚ) else 0)
      ∧ (if i < 2 ^ 31 then (1 - 1 / 2 ^ 40 : ℚ) else 0) < 1
    split_ifs <;> norm_num
  · have h := getNextDouble_of_least ratArith poissonOne lateZero (2 ^ 31 + 1) (2 ^ 31 + 1)
      (Nat.le_add_left 1 (2 ^ 31)) h1 h2 (le_refl _)
    have hw : wrapInt (((2 ^ 31 + 1 : Nat) : Int) - 1) = -2 ^ 31 := by
      unfold wrapInt
      norm_num
    rw [hw] at h
    exact h

/-- C13 (amended): when `K` is the least `k >= 1` for which the product of the first `k`
draws, formed as the loop forms it, is at most `L = exp(-lambda)`, then `getNextDouble`, given
at least `K` iterations, consumes exactly `K` draws, leaves the object (`lambda`, the source
address and the ownership flag) unchanged, and returns `K - 1` reduced to the 32 bits of the
`int` counter: that is `K - 1`, a non-negative integer, whenever `K < 2 ^ 31`, when the
counter does not overflow; with fewer than `K` iterations the loop has not stopped. -/
theorem getNextDouble_returns_least {F : Type} [LinearOrder F] (A : Arith F)
    (d : PoissonDistribution F) (src : Random F) (K fuel : Nat) (hK : 1 ≤ K)
    (hmin : ∀ j, 1 ≤ j → j < K → A.exp (A.neg d.lambda) < runningProduct A A.one src j)
    (hstop : runningProduct A A.one src K ≤ A.exp (A.neg d.lambda)) (hfuel : K ≤ fuel) :
    d.getNextDouble A src fuel
        = some (wrapInt ((K : Int) - 1), d, { src with pos := src.pos + K })
      ∧ (K < 2 ^ 31 → wrapInt ((K : Int) - 1) = (K : Int) - 1 ∧ (0 : Int) ≤ (K : Int) - 1)
      ∧ (∀ few : Nat, few < K → d.getNextDouble A src few = none) := by
  refine ⟨getNextDouble_of_least A d src K fuel hK hmin hstop hfuel, ?_, ?_⟩
  · intro hle
    have h0 : (0 : Int) ≤ (K : Int) - 1 := by omega
    have h1 : (K : Int) - 1 < 2 ^ 31 := by
      have : (K : Int) < 2 ^ 31 := by exact_mod_cast hle
      omega
    exact ⟨wrapInt_of_lt _ h0 h1, h0⟩
  · intro few hfew
    have h := getNextDoubleLoop_continue A (A.exp (A.neg d.lambda)) few 0 A.one src
      (fun j hj => hmin (j + 1) (by omega) (by omega))
    simp only [PoissonDistribution.getNextDouble, h]

theorem getNextDouble_returns_least_witness :
    ((1 : Nat) ≤ 2
      ∧ (∀ j, 1 ≤ j → j < 2 →
          ratArith.exp (ratArith.neg poissonTwo.lambda)
            < runningProduct ratArith ratArith.one halves j)
      ∧ runningProduct ratArith ratArith.one halves 2
          ≤ ratArith.exp (ratArith.neg poissonTwo.lambda)
      ∧ (2 : Nat) ≤ 5)
      ∧ (poissonTwo.getNextDouble ratArith halves 5
            = some (wrapInt (((2 : Nat) : Int) - 1), poissonTwo,
                { halves with pos := halves.pos + 2 })
        ∧ ((2 : Nat) < 2 ^ 31 → wrapInt (((2 : Nat) : Int) - 1) = ((2 : Nat) : Int) - 1
            ∧ (0 : Int) ≤ ((2 : Nat) : Int) - 1)
        ∧ (∀ few : Nat, few < 2 → poissonTwo.getNextDouble ratArith halves few = none)) :=
  have hmin : ∀ j, 1 ≤ j → j < 2 →
      ratArith.exp (ratArith.neg poissonTwo.lambda)
        < runningProduct ratArith ratArith.one halves j := by
    intro j h1 h2
    have hj : j = 1 := by omega
    subst hj
    decide!
  ⟨⟨by decide, hmin, by decide!, by decide⟩,
    getNextDouble_returns_least ratArith poissonTwo halves 2 5 (by decide) hmin (by decide!)
      (by decide)⟩

/-- C14: a distribution whose source has the state `src` is written to a checkpoint image as
its three fields; reading the image into a default-constructed instance, whatever its
uninitialized members hold, returns an instance with the same `lambda`, the same ownership
flag and a source in the state `src`, and for every `N` its next `N` samples are the next `N`
samples of the original. -/
theorem serialize_order_roundtrip {F : Type} [LinearOrder F] (A : Arith F)
    (d : PoissonDistribution F) (m restoreMem : Mem F) (src : Random F) (anyPtr : Ptr)
    (anyFlag : Bool) (hsrc : m.objs[d.baseDistrib]? = some src) :
    d.serialize_order { mode := .PACK, image := [] } m
        = some (d, m, { mode := .PACK, image := [ImageField.real d.lambda,
            ImageField.source src, ImageField.flag d.deleteDistrib] })
      ∧ ∃ (r : PoissonDistribution F) (after : Mem F),
          (PoissonDistribution.mkDefault A anyPtr anyFlag).serialize_order
              { mode := .UNPACK, image := [ImageField.real d.lambda, ImageField.source src,
                ImageField.flag d.deleteDistrib] } restoreMem
            = some (r, after, { mode := .UNPACK, image := [] })
          ∧ r.lambda = d.lambda ∧ r.deleteDistrib = d.deleteDistrib
          ∧ after.objs[r.baseDistrib]? = some src
          ∧ ∀ (fuel N : Nat), r.samples A fuel N src = d.samples A fuel N src := by
  constructor
  · simp [PoissonDistribution.serialize_order, Serializer.real, Serializer.source,
      Serializer.flag, hsrc]
  · refine ⟨PoissonDistribution.mk d.lambda restoreMem.objs.length d.deleteDistrib,
      { restoreMem with objs := restoreMem.objs ++ [src] }, ?_, rfl, rfl, ?_, ?_⟩
    · simp [PoissonDistribution.serialize_order, Serializer.real, Serializer.source,
        Serializer.flag, PoissonDistribution.mkDefault]
    · simp
    · intro fuel N
      exact samples_congr A
        (PoissonDistribution.mk d.lambda restoreMem.objs.length d.deleteDistrib) d fuel rfl N src

theorem serialize_order_roundtrip_witness :
    memHalves.objs[poissonTwo.baseDistrib]? = some halves
      ∧ (poissonTwo.serialize_order { mode := .PACK, image := [] } memHalves
          = some (poissonTwo, memHalves, { mode := .PACK, image := [ImageField.real
              poissonTwo.lambda, ImageField.source halves,
              ImageField.flag poissonTwo.deleteDistrib] })
        ∧ ∃ (r : PoissonDistribution ℚ) (after : Mem ℚ),
            (PoissonDistribution.mkDefault ratArith 7 true).serialize_order
                { mode := .UNPACK, image := [ImageField.real poissonTwo.lambda,
                  ImageField.source halves, ImageField.flag poissonTwo.deleteDistrib] } memEmpty
              = some (r, after, { mode := .UNPACK, image := [] })
            ∧ r.lambda = poissonTwo.lambda ∧ r.deleteDistrib = poissonTwo.deleteDistrib
            ∧ after.objs[r.baseDistrib]? = some halves
            ∧ ∀ (fuel N : Nat),
                r.samples ratArith fuel N halves = poissonTwo.samples ratArith fuel N halves) :=
  ⟨rfl, serialize_order_roundtrip ratArith poissonTwo memHalves memEmpty halves 7 true rfl⟩

/-- C15: two distributions with the same `lambda`, over sources that produce the same draw
sequence from where they stand, produce the same sequence of samples for every number of
calls (and neither returns if the other does not), and leave their sources advanced by the
same number of draws, with the same draws ahead. -/
theorem samples_deterministic {F : Type} [LinearOrder F] (A : Arith F)
    (d1 d2 : PoissonDistribution F) (r1 r2 : Random F) (fuel n : Nat)
    (hl : d1.lambda = d2.lambda) (hsame : SameDraws r1 r2) :
    (d1.samples A fuel n r1).map Prod.fst = (d2.samples A fuel n r2).map Prod.fst
      ∧ ∀ (xs1 xs2 : List Int) (s1 s2 : Random F),
          d1.samples A fuel n r1 = some (xs1, s1) → d2.samples A fuel n r2 = some (xs2, s2) →
          SameDraws s1 s2 ∧ s1.pos - r1.pos = s2.pos - r2.pos
            ∧ r1.pos ≤ s1.pos ∧ r2.pos ≤ s2.pos := by
  have h := samples_sameDraws A d1 d2 fuel hl n r1 r2 hsame
  revert h
  cases h1 : d1.samples A fuel n r1 with
  | none =>
    cases h2 : d2.samples A fuel n r2 with
    | none => simp
    | some w2 => simp
  | some w1 =>
    cases h2 : d2.samples A fuel n r2 with
    | none => simp
    | some w2 =>
      obtain ⟨ys1, t1⟩ := w1
      obtain ⟨ys2, t2⟩ := w2
      simp only
      rintro ⟨hxs, hts, htp, hl1, hl2⟩
      refine ⟨by simp [hxs], ?_⟩
      intro xs1 xs2 s1 s2 e1 e2
      cases e1
      cases e2
      exact ⟨hts, htp, hl1, hl2⟩

theorem samples_deterministic_witness :
    (poissonTwo.lambda = poissonTwoOwning.lambda ∧ SameDraws halves halvesLater)
      ∧ ((poissonTwo.samples ratArith 9 3 halves).map Prod.fst
            = (poissonTwoOwning.samples ratArith 9 3 halvesLater).map Prod.fst
        ∧ ∀ (xs1 xs2 : List Int) (s1 s2 : Random ℚ),
            poissonTwo.samples ratArith 9 3 halves = some (xs1, s1) →
            poissonTwoOwning.samples ratArith 9 3 halvesLater = some (xs2, s2) →
            SameDraws s1 s2 ∧ s1.pos - halves.pos = s2.pos - halvesLater.pos
              ∧ halves.pos ≤ s1.pos ∧ halvesLater.pos ≤ s2.pos) :=
  have hsame : SameDraws halves halvesLater := by
    intro i
    show (1 / 2 : ℚ) = (if 3 + i < 3 then 0 else 1 / 2)
    rw [if_neg (by omega)]
  ⟨⟨rfl, hsame⟩,
    samples_deterministic ratArith poissonTwo poissonTwoOwning halves halvesLater 9 3 rfl hsame⟩

/-- C16: the owning constructor allocates a new source, stores its address and sets the
ownership flag, and the destructor of such an object deletes that address, once; the
borrowing constructor stores the address it is given and clears the flag, and the destructor
of such an object deletes nothing; `getNextDouble` and `getLambda` leave the object, and so
the flag, unchanged. -/
theorem ownership_of_source {F : Type} [LinearOrder F] (A : Arith F) :
    (∀ (mersenne : Random F) (mn : F) (m : Mem F),
        (PoissonDistribution.mkOwning mersenne mn m).1.deleteDistrib = true
          ∧ m.objs[(PoissonDistribution.mkOwning mersenne mn m).1.baseDistrib]? = none
          ∧ (PoissonDistribution.mkOwning mersenne mn m).2.objs[
              (PoissonDistribution.mkOwning mersenne mn m).1.baseDistrib]? = some mersenne
          ∧ ((PoissonDistribution.mkOwning mersenne mn m).1.destructor
              (PoissonDistribution.mkOwning mersenne mn m).2).released
            = m.released ++ [(PoissonDistribution.mkOwning mersenne mn m).1.baseDistrib])
      ∧ (∀ (mn : F) (baseDist : Ptr) (m : Mem F),
          (PoissonDistribution.mkBorrowing mn baseDist).baseDistrib = baseDist
            ∧ (PoissonDistribution.mkBorrowing mn baseDist).deleteDistrib = false
            ∧ (PoissonDistribution.mkBorrowing mn baseDist).destructor m = m)
      ∧ (∀ (d r : PoissonDistribution F) (src s : Random F) (fuel : Nat) (x : Int),
          d.getNextDouble A src fuel = some (x, r, s) → r = d)
      ∧ (∀ d : PoissonDistribution F, d.getLambda = (d.lambda, d)) := by
  refine ⟨?_, ?_, ?_, ?_⟩
  · intro mersenne mn m
    simp [PoissonDistribution.mkOwning, PoissonDistribution.destructor]
  · intro mn baseDist m
    simp [PoissonDistribution.mkBorrowing, PoissonDistribution.destructor]
  · intro d r src s fuel x h
    unfold PoissonDistribution.getNextDouble at h
    simp only at h
    split at h
    · cases h
    · cases h
      rfl
  · intro d
    rfl

/-- C18 (as stated, refuted): with `lambda = 744.5` the threshold is the least positive
`double`, `L = 2 ^ (-1074) > 0` (the exact `e ^ (-744.5)` lies between `2 ^ (-1075)` and
`2 ^ (-1074)`, where every value is rounded to `2 ^ (-1074)`); all draws of the source
`threeQuarters` lie in [0, 3/4] and `(3/4) ^ 2588 <= L`; but the rounded product of the loop
never falls below `2 ^ (-1073)`, and `getNextDouble` has not returned after any number of
iterations. And with `lambda = 0`, so that `L = 1` and `(1/2) ^ 0 <= L`, the call takes one draw
from the source `halves`, not at most 0. -/
theorem getNextDouble_never_stops :
    (doubleArith.exp (doubleArith.neg poisson744.lambda) = 1 / 2 ^ 1074
      ∧ ((1 / 2 ^ 1075 : ℝ) < Real.exp (-(1489 / 2)) ∧ Real.exp (-(1489 / 2)) < 1 / 2 ^ 1074)
      ∧ (∀ x : ℚ, 1 / 2 ^ 1075 < x → x < 1 / 2 ^ 1074 → roundBinary64 x = 1 / 2 ^ 1074)
      ∧ (0 : ℚ) < doubleArith.exp (doubleArith.neg poisson744.lambda)
      ∧ (3 / 4 : ℚ) < 1
      ∧ (∀ i : Nat, 0 ≤ threeQuarters.draws (threeQuarters.pos + i)
          ∧ threeQuarters.draws (threeQuarters.pos + i) ≤ 3 / 4)
      ∧ (3 / 4 : ℚ) ^ 2588 ≤ doubleArith.exp (doubleArith.neg poisson744.lambda)
      ∧ (∀ j : Nat, (1 / 2 ^ 1073 : ℚ) ≤ runningProduct doubleArith doubleArith.one
          threeQuarters j)
      ∧ (∀ fuel : Nat, poisson744.getNextDouble doubleArith threeQuarters fuel = none))
      ∧ (doubleArith.exp (doubleArith.neg poissonZero.lambda) = 1
        ∧ (1 / 2 : ℚ) ^ 0 ≤ doubleArith.exp (doubleArith.neg poissonZero.lambda)
        ∧ (poissonZero.getNextDouble doubleArith halves 0).isSome = false
        ∧ (poissonZero.getNextDouble doubleArith halves 1).map (fun r => (r.1, r.2.2.pos))
            = some (0, 1)) := by
  have hL : doubleArith.exp (doubleArith.neg poisson744.lambda) = 1 / 2 ^ 1074 := by decide!
  have hlt : binary64Exp (-poisson744.lambda) < 1 / 2 ^ 1073 := by
    have hL2 : binary64Exp (-poisson744.lambda) = 1 / 2 ^ 1074 := hL
    rw [hL2, div_lt_div_iff₀ (by positivity) (by positivity), one_mul, one_mul]
    exact pow_lt_pow_right₀ (by norm_num) (by norm_num)
  refine ⟨⟨hL, exp_neg_744_5_bounds, roundBinary64_least_positive, ?_, by norm_num, ?_, ?_,
    threeQuarters_products binary64Exp,
    getNextDouble_threeQuarters_none binary64Exp poisson744 hlt⟩,
    by decide!, by decide!, by decide!, by decide!⟩
  · rw [hL]
    positivity
  · intro i
    show (0 : ℚ) ≤ 3 / 4 ∧ (3 / 4 : ℚ) ≤ 3 / 4
    norm_num
  · rw [hL]
    decide!

/-- C18 (amended): in the arithmetic of `double`, where each product of the loop is rounded
to binary64, whatever `exp` returns for the threshold `L`: when all draws of the source lie in
[0, c] with `c < 1`, then for every `k >= 1` whose power `c ^ k`, formed with the rounded
product as the loop forms it, is at most `L`, `getNextDouble` returns within `k` iterations
(for every bound of at least `k` iterations), having consumed at most `k` draws; as long as
the loop has not stopped after `j` draws, `j < k`, so that `k - j` is a positive measure that
decreases with every iteration; and every product of the loop lies in [0, 1], so that none
overflows. -/
theorem getNextDouble_terminates_binary64 (e : ℚ → ℚ) (d : PoissonDistribution ℚ)
    (src : Random ℚ) (c : ℚ) (k : Nat) (hc : c < 1)
    (hdraw : ∀ i : Nat, 0 ≤ src.draws (src.pos + i) ∧ src.draws (src.pos + i) ≤ c)
    (hk : 1 ≤ k)
    (hpow : loopPower (binary64Arith e) c k
      ≤ (binary64Arith e).exp ((binary64Arith e).neg d.lambda)) :
    (∃ (x : Int) (s : Random ℚ),
        (∀ fuel : Nat, k ≤ fuel → d.getNextDouble (binary64Arith e) src fuel = some (x, d, s))
          ∧ src.pos ≤ s.pos ∧ s.pos - src.pos ≤ k)
      ∧ (∀ j : Nat,
          (∀ i : Nat, 1 ≤ i → i ≤ j →
            (binary64Arith e).exp ((binary64Arith e).neg d.lambda)
              < runningProduct (binary64Arith e) (binary64Arith e).one src i) →
          j < k)
      ∧ (∀ j : Nat, 0 ≤ runningProduct (binary64Arith e) (binary64Arith e).one src j
          ∧ runningProduct (binary64Arith e) (binary64Arith e).one src j ≤ 1) := by
  obtain ⟨h1, h2⟩ := getNextDouble_terminates_monotone (binary64Arith e) d src c k zero_le_one
    (binary64Arith_mul_nonneg e) (binary64Arith_mul_mono e) hdraw hk hpow
  refine ⟨h1, h2, ?_⟩
  intro j
  induction j with
  | zero => exact ⟨zero_le_one, le_refl _⟩
  | succ j ih =>
    have hu0 := (hdraw j).1
    have hu1 : src.draws (src.pos + j) ≤ 1 := ((hdraw j).2.trans hc.le)
    have hone : roundBinary64 1 = 1 := by decide!
    constructor
    · exact binary64Arith_mul_nonneg e _ _ ih.1 hu0
    · show roundBinary64 (runningProduct (binary64Arith e) (binary64Arith e).one src j
        * src.draws (src.pos + j)) ≤ 1
      rw [← hone]
      exact roundBinary64_mono (mul_nonneg ih.1 hu0) (mul_le_one₀ ih.2 hu0 hu1)

theorem getNextDouble_terminates_binary64_witness :
    ((1 / 2 : ℚ) < 1
      ∧ (∀ i : Nat, 0 ≤ halves.draws (halves.pos + i) ∧ halves.draws (halves.pos + i) ≤ 1 / 2)
      ∧ 1 ≤ 3
      ∧ loopPower (binary64Arith binary64Exp) (1 / 2) 3
          ≤ (binary64Arith binary64Exp).exp ((binary64Arith binary64Exp).neg poissonTwo.lambda))
      ∧ ((∃ (x : Int) (s : Random ℚ),
          (∀ fuel : Nat, 3 ≤ fuel →
            poissonTwo.getNextDouble (binary64Arith binary64Exp) halves fuel
              = some (x, poissonTwo, s))
            ∧ halves.pos ≤ s.pos ∧ s.pos - halves.pos ≤ 3)
        ∧ (∀ j : Nat,
            (∀ i : Nat, 1 ≤ i → i ≤ j →
              (binary64Arith binary64Exp).exp ((binary64Arith binary64Exp).neg poissonTwo.lambda)
                < runningProduct (binary64Arith binary64Exp) (binary64Arith binary64Exp).one
                    halves i) →
            j < 3)
        ∧ (∀ j : Nat,
            0 ≤ runningProduct (binary64Arith binary64Exp) (binary64Arith binary64Exp).one
                halves j
              ∧ runningProduct (binary64Arith binary64Exp) (binary64Arith binary64Exp).one
                halves j ≤ 1)) :=
  have hdraw : ∀ i : Nat,
      0 ≤ halves.draws (halves.pos + i) ∧ halves.draws (halves.pos + i) ≤ 1 / 2 := by
    intro i
    show (0 : ℚ) ≤ 1 / 2 ∧ (1 / 2 : ℚ) ≤ 1 / 2
    norm_num
  ⟨⟨by norm_num, hdraw, by decide, by decide!⟩,
    getNextDouble_terminates_binary64 binary64Exp poissonTwo halves (1 / 2) 3 (by norm_num)
      hdraw (by decide) (by decide!)⟩

/-- C20: when `lambda <= 0`, so that `L = exp(-lambda) >= 1`, and the next draw of the source
is below 1, `getNextDouble` stops after its first iteration for every bound of at least one
iteration: it returns 0, consumes exactly one draw and leaves the object unchanged. This
holds in every arithmetic in which `1 * u = u` and `exp(-x) >= 1` for `x <= 0`. -/
theorem getNextDouble_nonpositive_lambda {F : Type} [LinearOrder F] (A : Arith F)
    (d : PoissonDistribution F) (src : Random F) (fuel : Nat)
    (hmul : ∀ u : F, A.mul A.one u = u)
    (hexp : ∀ x : F, x ≤ A.zero → A.one ≤ A.exp (A.neg x))
    (hlam : d.lambda ≤ A.zero) (hdraw : src.draws src.pos < A.one) (hfuel : 1 ≤ fuel) :
    d.getNextDouble A src fuel = some (0, d, { src with pos := src.pos + 1 }) := by
  have hstop : runningProduct A A.one src 1 ≤ A.exp (A.neg d.lambda) := by
    show A.mul A.one (src.draws (src.pos + 0)) ≤ A.exp (A.neg d.lambda)
    rw [hmul, Nat.add_zero]
    exact le_trans hdraw.le (hexp d.lambda hlam)
  have h := getNextDouble_of_least A d src 1 fuel (le_refl 1)
    (fun j h1 h2 => absurd h1 (by omega)) hstop hfuel
  have hw : wrapInt (((1 : Nat) : Int) - 1) = 0 := by
    unfold wrapInt
    norm_num
  rw [hw] at h
  exact h

theorem getNextDouble_nonpositive_lambda_witness :
    ((∀ u : ℚ, ratArith.mul ratArith.one u = u)
      ∧ (∀ x : ℚ, x ≤ ratArith.zero → ratArith.one ≤ ratArith.exp (ratArith.neg x))
      ∧ poissonMinusOne.lambda ≤ ratArith.zero ∧ halves.draws halves.pos < ratArith.one
      ∧ 1 ≤ 3)
      ∧ poissonMinusOne.getNextDouble ratArith halves 3
          = some (0, poissonMinusOne, { halves with pos := halves.pos + 1 }) :=
  have hmul : ∀ u : ℚ, ratArith.mul ratArith.one u = u := by
    intro u
    show (1 : ℚ) * u = u
    exact one_mul u
  have hexp : ∀ x : ℚ, x ≤ ratArith.zero → ratArith.one ≤ ratArith.exp (ratArith.neg x) := by
    intro x hx
    have hx0 : x ≤ 0 := hx
    show (1 : ℚ) ≤ ratExp (-x)
    unfold ratExp
    rw [if_pos (by linarith)]
    linarith
  ⟨⟨hmul, hexp, by decide!, by decide!, by decide⟩,
    getNextDouble_nonpositive_lambda ratArith poissonMinusOne halves 3 hmul hexp (by decide!)
      (by decide!) (by decide)⟩

end RNG

end SST
